import Mathlib

/-! # army.c: maximum-value non-attacking placement of knights, bishops, rooks and kings

Shallow embedding of `src/army/army.c`.

* The board dimensions `BOARD_WIDTH`, `BOARD_HEIGHT` and the widths of the
  platform types `population_t` (`uint_fast8_t`) and `score_t`
  (`uint_fast16_t`) are the fields of `config`; `army_config` is the
  configuration of the source (8 by 8).
* C arrays are total functions on `Nat`; the index computations that can go
  negative in the source (`index_t` is signed) are done in `Int`.
* Unsigned arithmetic on `population_t` and `score_t` is `Nat` arithmetic
  reduced modulo `2 ^ width`.
* `maximize` recurses on a fuel argument and returns `none` when the fuel
  runs out; `maximize_total` shows that `BOARD_WIDTH * BOARD_HEIGHT - index + 1`
  units of fuel always suffice.
* `state.output` is the sequence of boards handed to `print_board`;
  `state.history` is a ghost record of the program points passed.
* `board_invariant` is the representation invariant of a board along the
  scan: every counter, flag and the score as a function of the pieces. The
  guards of `maximize` are related to the attack relation `attacks` under it,
  and the search is shown sound and complete by induction on the squares left.
-/

namespace Army

/-! ## Configuration and scalar types -/

/-- Compile-time parameters: the `enum` constants `BOARD_WIDTH`, `BOARD_HEIGHT`
and the bit widths of `population_t` and `score_t`. -/
structure config where
  BOARD_WIDTH : Nat
  BOARD_HEIGHT : Nat
  population_bits : Nat
  score_bits : Nat

/-- The configuration of the source: an 8 by 8 board; `uint_fast8_t` is 8 bits
and `uint_fast16_t` is 64 bits wide (x86-64 glibc). -/
def army_config : config := ⟨8, 8, 8, 64⟩

/-- Number of values of `population_t`. -/
def POPULATION_MOD (cfg : config) : Nat := 2 ^ cfg.population_bits

/-- Number of values of `score_t`. -/
def SCORE_MOD (cfg : config) : Nat := 2 ^ cfg.score_bits

/-- `SCORE_MAX = UINT_FAST16_MAX`. -/
def SCORE_MAX (cfg : config) : Nat := 2 ^ cfg.score_bits - 1

def KNIGHT_VALUE : Nat := 7
def BISHOP_VALUE : Nat := 16
def ROOK_VALUE : Nat := 28
def KING_VALUE : Nat := 14

/-- `_Static_assert((population_t)(BOARD_WIDTH * BOARD_HEIGHT) == BOARD_WIDTH * BOARD_HEIGHT)`. -/
def population_static_assert (cfg : config) : Prop :=
  (cfg.BOARD_WIDTH * cfg.BOARD_HEIGHT) % POPULATION_MOD cfg = cfg.BOARD_WIDTH * cfg.BOARD_HEIGHT

instance (cfg : config) : Decidable (population_static_assert cfg) := by
  unfold population_static_assert; infer_instance

/-- The source comment "loose upper bound = 64*28 = 1792 fits in int": a rook on
every square scores less than `SCORE_MAX`. -/
def score_fits (cfg : config) : Prop :=
  cfg.BOARD_WIDTH * cfg.BOARD_HEIGHT * ROOK_VALUE < SCORE_MAX cfg

instance (cfg : config) : Decidable (score_fits cfg) := by
  unfold score_fits; infer_instance

/-- `enum piece`. -/
inductive piece where
  | EMPTY
  | KNIGHT
  | BISHOP
  | ROOK
  | KING
  deriving DecidableEq, Repr

open piece

/-- `struct board`; every array is a total function of its indices. -/
structure board where
  pieces : Nat → Nat → piece
  downward_diagonals_attacked : Nat → Bool
  downward_diagonal_population : Nat → Nat
  upward_diagonals_attacked : Nat → Bool
  upward_diagonal_population : Nat → Nat
  rows_attacked : Nat → Bool
  row_population : Nat → Nat
  columns_attacked : Nat → Bool
  column_population : Nat → Nat
  spot_attacks : Nat → Nat → Nat
  knight_population : Nat → Nat → Nat
  king_population : Nat → Nat → Nat
  score : Nat

/-- `static struct board EMPTY_BOARD;` (zero-initialised). -/
def EMPTY_BOARD : board where
  pieces := fun _ _ => EMPTY
  downward_diagonals_attacked := fun _ => false
  downward_diagonal_population := fun _ => 0
  upward_diagonals_attacked := fun _ => false
  upward_diagonal_population := fun _ => 0
  rows_attacked := fun _ => false
  row_population := fun _ => 0
  columns_attacked := fun _ => false
  column_population := fun _ => 0
  spot_attacks := fun _ _ => 0
  knight_population := fun _ _ => 0
  king_population := fun _ _ => 0
  score := 0

/-! ## Array and counter primitives -/

/-- `a[i] = v` on a one-dimensional array. -/
def set1 {α : Type} (a : Nat → α) (i : Nat) (v : α) : Nat → α :=
  fun j => if j = i then v else a j

/-- `a[i][j] = v` on a two-dimensional array. -/
def set2 {α : Type} (a : Nat → Nat → α) (i j : Nat) (v : α) : Nat → Nat → α :=
  fun i' j' => if i' = i ∧ j' = j then v else a i' j'

/-- `x++` on a `population_t`. -/
def incr (cfg : config) (x : Nat) : Nat := (x + 1) % POPULATION_MOD cfg

/-- `x--` on a `population_t`. -/
def decr (cfg : config) (x : Nat) : Nat := (x + POPULATION_MOD cfg - 1) % POPULATION_MOD cfg

/-- `a[i]++` on an array of `population_t`. -/
def incr_at (cfg : config) (a : Nat → Nat) (i : Nat) : Nat → Nat :=
  set1 a i (incr cfg (a i))

/-- `a[i]--` on an array of `population_t`. -/
def decr_at (cfg : config) (a : Nat → Nat) (i : Nat) : Nat → Nat :=
  set1 a i (decr cfg (a i))

/-- `a[i][j]++` on a two-dimensional array of `population_t`. -/
def incr_at2 (cfg : config) (a : Nat → Nat → Nat) (i j : Nat) : Nat → Nat → Nat :=
  set2 a i j (incr cfg (a i j))

/-- `a[i][j]--` on a two-dimensional array of `population_t`. -/
def decr_at2 (cfg : config) (a : Nat → Nat → Nat) (i j : Nat) : Nat → Nat → Nat :=
  set2 a i j (decr cfg (a i j))

/-- `score += value` on a `score_t`. -/
def score_add (cfg : config) (score value : Nat) : Nat := (score + value) % SCORE_MOD cfg

/-- `score -= value` on a `score_t` (the values are at most 28). -/
def score_sub (cfg : config) (score value : Nat) : Nat :=
  (score + SCORE_MOD cfg - value % SCORE_MOD cfg) % SCORE_MOD cfg

/-! ## Diagonals and the attack loops -/

def downward_diagonal (cfg : config) (row column : Nat) : Int :=
  ((cfg.BOARD_WIDTH : Int) - 1) + row - column

def upward_diagonal (row column : Nat) : Int :=
  (row : Int) + column

/-- The values of `v` in `for (v = lo; v <= hi; v += step)`, for `step > 0`. -/
def for_values (lo hi step : Int) : List Int :=
  (List.range ((hi - lo) / step + 1).toNat).map (fun k => lo + step * (k : Int))

/-- The squares `(attack_row, attack_column)` for which the body of
`FOR_EACH_KING_ATTACK(row, column, attack_row, attack_column)` runs, in order. -/
def FOR_EACH_KING_ATTACK (cfg : config) (row column : Nat) : List (Nat × Nat) :=
  (for_values 0 1 1).flatMap fun dy =>
    let attack_row : Int := (row : Int) + dy
    if attack_row < cfg.BOARD_HEIGHT then
      (for_values (-dy) 1 1).flatMap fun dx =>
        let attack_column : Int := (column : Int) + dx
        if attack_column ≥ 0 ∧ attack_column < cfg.BOARD_WIDTH then
          [(attack_row.toNat, attack_column.toNat)]
        else []
    else []

/-- The squares for which the body of `FOR_EACH_KNIGHT_ATTACK` runs, in order;
`dy & 1` is computed on the non-negative `dy`. -/
def FOR_EACH_KNIGHT_ATTACK (cfg : config) (row column : Nat) : List (Nat × Nat) :=
  (for_values 1 2 1).flatMap fun dy =>
    let attack_row : Int := (row : Int) + dy
    if attack_row < cfg.BOARD_HEIGHT then
      let dxd : Int := 1 + ((dy.toNat &&& 1 : Nat) : Int)
      (for_values (-dxd) dxd (2 * dxd)).flatMap fun dx =>
        let attack_column : Int := (column : Int) + dx
        if attack_column ≥ 0 ∧ attack_column < cfg.BOARD_WIDTH then
          [(attack_row.toNat, attack_column.toNat)]
        else []
    else []

/-! ## Placement and removal -/

def place_piece (cfg : config) (b : board) (row column : Nat) (p : piece) (value : Nat) : board :=
  let b := { b with row_population := incr_at cfg b.row_population row }
  let b := { b with column_population := incr_at cfg b.column_population column }
  let d := (downward_diagonal cfg row column).toNat
  let b := { b with downward_diagonal_population := incr_at cfg b.downward_diagonal_population d }
  let u := (upward_diagonal row column).toNat
  let b := { b with upward_diagonal_population := incr_at cfg b.upward_diagonal_population u }
  let b := { b with pieces := set2 b.pieces row column p }
  let b := (FOR_EACH_KING_ATTACK cfg row column).foldl (fun b a =>
    { b with king_population := incr_at2 cfg b.king_population a.1 a.2 }) b
  let b := (FOR_EACH_KNIGHT_ATTACK cfg row column).foldl (fun b a =>
    { b with knight_population := incr_at2 cfg b.knight_population a.1 a.2 }) b
  { b with score := score_add cfg b.score value }

def unplace_piece (cfg : config) (b : board) (row column : Nat) (value : Nat) : board :=
  let b := { b with row_population := decr_at cfg b.row_population row }
  let b := { b with column_population := decr_at cfg b.column_population column }
  let d := (downward_diagonal cfg row column).toNat
  let b := { b with downward_diagonal_population := decr_at cfg b.downward_diagonal_population d }
  let u := (upward_diagonal row column).toNat
  let b := { b with upward_diagonal_population := decr_at cfg b.upward_diagonal_population u }
  let b := { b with pieces := set2 b.pieces row column EMPTY }
  let b := (FOR_EACH_KING_ATTACK cfg row column).foldl (fun b a =>
    { b with king_population := decr_at2 cfg b.king_population a.1 a.2 }) b
  let b := (FOR_EACH_KNIGHT_ATTACK cfg row column).foldl (fun b a =>
    { b with knight_population := decr_at2 cfg b.knight_population a.1 a.2 }) b
  { b with score := score_sub cfg b.score value }

def place_rook (cfg : config) (b : board) (row column : Nat) : board :=
  let b := place_piece cfg b row column ROOK ROOK_VALUE
  let b := { b with rows_attacked := set1 b.rows_attacked row true }
  { b with columns_attacked := set1 b.columns_attacked column true }

def unplace_rook (cfg : config) (b : board) (row column : Nat) : board :=
  let b := unplace_piece cfg b row column ROOK_VALUE
  let b := { b with rows_attacked := set1 b.rows_attacked row false }
  { b with columns_attacked := set1 b.columns_attacked column false }

def place_bishop (cfg : config) (b : board) (row column : Nat) : board :=
  let b := place_piece cfg b row column BISHOP BISHOP_VALUE
  let u := (upward_diagonal row column).toNat
  let b := { b with upward_diagonals_attacked := set1 b.upward_diagonals_attacked u true }
  let d := (downward_diagonal cfg row column).toNat
  { b with downward_diagonals_attacked := set1 b.downward_diagonals_attacked d true }

def unplace_bishop (cfg : config) (b : board) (row column : Nat) : board :=
  let b := unplace_piece cfg b row column BISHOP_VALUE
  let u := (upward_diagonal row column).toNat
  let b := { b with upward_diagonals_attacked := set1 b.upward_diagonals_attacked u false }
  let d := (downward_diagonal cfg row column).toNat
  { b with downward_diagonals_attacked := set1 b.downward_diagonals_attacked d false }

def place_king (cfg : config) (b : board) (row column : Nat) : board :=
  let b := place_piece cfg b row column KING KING_VALUE
  (FOR_EACH_KING_ATTACK cfg row column).foldl (fun b a =>
    { b with spot_attacks := incr_at2 cfg b.spot_attacks a.1 a.2 }) b

def unplace_king (cfg : config) (b : board) (row column : Nat) : board :=
  let b := unplace_piece cfg b row column KING_VALUE
  (FOR_EACH_KING_ATTACK cfg row column).foldl (fun b a =>
    { b with spot_attacks := decr_at2 cfg b.spot_attacks a.1 a.2 }) b

def place_knight (cfg : config) (b : board) (row column : Nat) : board :=
  let b := place_piece cfg b row column KNIGHT KNIGHT_VALUE
  (FOR_EACH_KNIGHT_ATTACK cfg row column).foldl (fun b a =>
    { b with spot_attacks := incr_at2 cfg b.spot_attacks a.1 a.2 }) b

def unplace_knight (cfg : config) (b : board) (row column : Nat) : board :=
  let b := unplace_piece cfg b row column KNIGHT_VALUE
  (FOR_EACH_KNIGHT_ATTACK cfg row column).foldl (fun b a =>
    { b with spot_attacks := decr_at2 cfg b.spot_attacks a.1 a.2 }) b

/-! ## The search -/

/-- Ghost record of a program point. -/
inductive event where
  /-- `main` is about to call `maximize(&board, &maximum_board, limits, i)`. -/
  | start (i : Nat) (b : board)
  /-- `maximize` has been entered with this board, best board and index. -/
  | enter (b maximum : board) (index : Nat)
  /-- `board->score + limits[index]` is evaluated: the index read and the two operands. -/
  | test (index score limit : Nat)
  /-- The board just after an `unplace_*` call made by `maximize`. -/
  | unplaced (b : board)

/-- The two boards of `main`, the boards printed so far, and the ghost history. -/
structure state where
  board : Army.board
  maximum_board : Army.board
  output : List Army.board
  history : List event

/-- The baseline test of `maximize`: the local `attacked`. -/
def attacked (cfg : config) (b : board) (row column : Nat) : Bool :=
  b.rows_attacked row ||
  b.columns_attacked column ||
  b.downward_diagonals_attacked (downward_diagonal cfg row column).toNat ||
  b.upward_diagonals_attacked (upward_diagonal row column).toNat ||
  b.spot_attacks row column != 0

/-- `maximize(board, maximum_board, limits, index)`; `s` holds `*board` and
`*maximum_board`. The first argument after `limits` is the fuel. -/
def maximize (cfg : config) (limits : Nat → Nat) : Nat → state → Nat → Option state
  | 0, _, _ => none
  | fuel + 1, s, index =>
    let s := { s with history := s.history ++ [event.enter s.board s.maximum_board index] }
    let s :=
      if s.board.score > s.maximum_board.score then
        { s with maximum_board := s.board, output := s.output ++ [s.board] }
      else s
    if index = cfg.BOARD_WIDTH * cfg.BOARD_HEIGHT then
      some s
    else
      let s := { s with history := s.history ++ [event.test index s.board.score (limits index)] }
      if (s.board.score + limits index) % SCORE_MOD cfg ≤ s.maximum_board.score then
        some s
      else
        let row := index / cfg.BOARD_WIDTH
        let column := index % cfg.BOARD_WIDTH
        let index := index + 1
        let attacked := attacked cfg s.board row column
        do
          let s ←
            if !attacked then do
              let s ←
                if s.board.row_population row = 0 ∧ s.board.column_population column = 0 then do
                  let s := { s with board := place_rook cfg s.board row column }
                  let s ← maximize cfg limits fuel s index
                  let s := { s with board := unplace_rook cfg s.board row column }
                  pure { s with history := s.history ++ [event.unplaced s.board] }
                else pure s
              let s ←
                if s.board.downward_diagonal_population (downward_diagonal cfg row column).toNat = 0 ∧
                    s.board.upward_diagonal_population (upward_diagonal row column).toNat = 0 then do
                  let s := { s with board := place_bishop cfg s.board row column }
                  let s ← maximize cfg limits fuel s index
                  let s := { s with board := unplace_bishop cfg s.board row column }
                  pure { s with history := s.history ++ [event.unplaced s.board] }
                else pure s
              let s ←
                if s.board.king_population row column = 0 then do
                  let s := { s with board := place_king cfg s.board row column }
                  let s ← maximize cfg limits fuel s index
                  let s := { s with board := unplace_king cfg s.board row column }
                  pure { s with history := s.history ++ [event.unplaced s.board] }
                else pure s
              let s ←
                if s.board.knight_population row column = 0 then do
                  let s := { s with board := place_knight cfg s.board row column }
                  let s ← maximize cfg limits fuel s index
                  let s := { s with board := unplace_knight cfg s.board row column }
                  pure { s with history := s.history ++ [event.unplaced s.board] }
                else pure s
              pure s
            else pure s
          maximize cfg limits fuel s index

/-- The first loop of `main`: `limits[i] = SCORE_MAX` for `i < BOARD_WIDTH * BOARD_HEIGHT`. -/
def init_limits (cfg : config) : Nat → Nat :=
  (List.range (cfg.BOARD_WIDTH * cfg.BOARD_HEIGHT)).foldl
    (fun limits i => set1 limits i (SCORE_MAX cfg)) (fun _ => 0)

/-- The second loop of `main`, `for (index_t i = ...; i--;)`, entered with the
loop variable equal to the first argument. -/
def main_loop (cfg : config) : Nat → state → (Nat → Nat) → Option (state × (Nat → Nat))
  | 0, s, limits => some (s, limits)
  | i + 1, s, limits => do
    let s := { s with history := s.history ++ [event.start i s.board] }
    let s ← maximize cfg limits (cfg.BOARD_WIDTH * cfg.BOARD_HEIGHT + 1) s i
    main_loop cfg i s (set1 limits i s.maximum_board.score)

/-- `main`: the final boards, output and history, and the final `limits`. -/
def main (cfg : config) : Option (state × (Nat → Nat)) :=
  main_loop cfg (cfg.BOARD_WIDTH * cfg.BOARD_HEIGHT)
    ⟨EMPTY_BOARD, EMPTY_BOARD, [], []⟩ (init_limits cfg)


/-! ## Specification vocabulary -/

/-- Every counter of the board holds a value of its C type: the populations are
values of `population_t`, the score is a value of `score_t`. -/
def well_typed (cfg : config) (b : board) : Prop :=
  (∀ i, b.downward_diagonal_population i < POPULATION_MOD cfg) ∧
  (∀ i, b.upward_diagonal_population i < POPULATION_MOD cfg) ∧
  (∀ i, b.row_population i < POPULATION_MOD cfg) ∧
  (∀ i, b.column_population i < POPULATION_MOD cfg) ∧
  (∀ i j, b.spot_attacks i j < POPULATION_MOD cfg) ∧
  (∀ i j, b.knight_population i j < POPULATION_MOD cfg) ∧
  (∀ i j, b.king_population i j < POPULATION_MOD cfg) ∧
  b.score < SCORE_MOD cfg

/-- The squares of the board with scan index `index` or more are empty. -/
def empty_from (cfg : config) (b : board) (index : Nat) : Prop :=
  ∀ r c, r < cfg.BOARD_HEIGHT → c < cfg.BOARD_WIDTH → index ≤ r * cfg.BOARD_WIDTH + c →
    b.pieces r c = EMPTY

/-- Every board of the list scores strictly more than the one before it, the
first one strictly more than `m`. -/
def improving : board → List board → Prop
  | _, [] => True
  | m, b :: l => m.score < b.score ∧ improving b l

/-- The last board of the list, or `m` when the list is empty. -/
def last_of : board → List board → board
  | m, [] => m
  | _, b :: l => last_of b l

/-- The effect of a terminated piece of the search on the best board, the
output and the history: `new` is printed and `h` is recorded; each printed
board improves strictly on the best board before it and is the board of a
recorded entry of `maximize`; the best board ends as the last one printed. -/
def extends_to (s s' : state) : Prop :=
  ∃ new h, s'.output = s.output ++ new ∧ s'.history = s.history ++ h ∧
    improving s.maximum_board new ∧ s'.maximum_board = last_of s.maximum_board new ∧
    (∀ b ∈ new, ∃ m i, event.enter b m i ∈ h ∧ m.score < b.score) ∧
    (∀ e ∈ h, ∀ i b, e ≠ event.start i b)

/-- Value of a piece kind (`KNIGHT_VALUE` .. `KING_VALUE`); an empty square is worth nothing. -/
def piece_value : piece → Nat
  | EMPTY => 0
  | KNIGHT => KNIGHT_VALUE
  | BISHOP => BISHOP_VALUE
  | ROOK => ROOK_VALUE
  | KING => KING_VALUE

/-- A piece of kind `k` standing on `(r, c)` attacks the other square
`(r', c')`: a rook along its row and column, a bishop along its two
diagonals (rays are never obstructed), a king on the adjacent squares, a
knight a knight move away. -/
def attacks (k : piece) (r c r' c' : Nat) : Prop :=
  match k with
  | EMPTY => False
  | KNIGHT => ((r + 1 = r' ∨ r' + 1 = r) ∧ (c + 2 = c' ∨ c' + 2 = c)) ∨
      ((r + 2 = r' ∨ r' + 2 = r) ∧ (c + 1 = c' ∨ c' + 1 = c))
  | BISHOP => r + c = r' + c' ∨ r + c' = r' + c
  | ROOK => r = r' ∨ c = c'
  | KING => r ≤ r' + 1 ∧ r' ≤ r + 1 ∧ c ≤ c' + 1 ∧ c' ≤ c + 1

instance (k : piece) (r c r' c' : Nat) : Decidable (attacks k r c r' c') := by
  cases k <;> unfold attacks <;> infer_instance

/-- The piece standing on `(r, c)`, if any, attacks no other occupied square of the board. -/
def attacks_nothing (cfg : config) (P : Nat → Nat → piece) (r c : Nat) : Prop :=
  ∀ r', r' < cfg.BOARD_HEIGHT → ∀ c', c' < cfg.BOARD_WIDTH →
    (r ≠ r' ∨ c ≠ c') → P r' c' ≠ EMPTY → ¬ attacks (P r c) r c r' c'

instance (cfg : config) (P : Nat → Nat → piece) (r c : Nat) :
    Decidable (attacks_nothing cfg P r c) := by
  unfold attacks_nothing; infer_instance

/-- The non-attack constraint on a placement (the kind standing on each
square): no piece on the board attacks another occupied square of the board. -/
def non_attacking (cfg : config) (P : Nat → Nat → piece) : Prop :=
  ∀ r, r < cfg.BOARD_HEIGHT → ∀ c, c < cfg.BOARD_WIDTH → attacks_nothing cfg P r c

instance (cfg : config) (P : Nat → Nat → piece) : Decidable (non_attacking cfg P) := by
  unfold non_attacking; infer_instance

/-- The placement uses only squares of the board whose scan index is in `[lo, hi)`. -/
def uses_squares (cfg : config) (P : Nat → Nat → piece) (lo hi : Nat) : Prop :=
  ∀ r c, P r c ≠ EMPTY → r < cfg.BOARD_HEIGHT ∧ c < cfg.BOARD_WIDTH ∧
    lo ≤ r * cfg.BOARD_WIDTH + c ∧ r * cfg.BOARD_WIDTH + c < hi

/-- Total value of the pieces on the squares of scan index below `n`. -/
def value_below (cfg : config) (P : Nat → Nat → piece) : Nat → Nat
  | 0 => 0
  | n + 1 => value_below cfg P n + piece_value (P (n / cfg.BOARD_WIDTH) (n % cfg.BOARD_WIDTH))

/-- Total value of a placement on the board. -/
def placement_value (cfg : config) (P : Nat → Nat → piece) : Nat :=
  value_below cfg P (cfg.BOARD_WIDTH * cfg.BOARD_HEIGHT)

/-- The number of `j < n` with `p j`. -/
def count_below (p : Nat → Prop) [DecidablePred p] : Nat → Nat
  | 0 => 0
  | n + 1 => count_below p n + if p n then 1 else 0

/-- `place_rook`, `place_bishop`, `place_king` or `place_knight`, chosen by the kind. -/
def place_kind (cfg : config) (k : piece) (b : board) (row column : Nat) : board :=
  match k with
  | EMPTY => b
  | KNIGHT => place_knight cfg b row column
  | BISHOP => place_bishop cfg b row column
  | ROOK => place_rook cfg b row column
  | KING => place_king cfg b row column

/-- `unplace_rook`, `unplace_bishop`, `unplace_king` or `unplace_knight`, chosen by the kind. -/
def unplace_kind (cfg : config) (k : piece) (b : board) (row column : Nat) : board :=
  match k with
  | EMPTY => b
  | KNIGHT => unplace_knight cfg b row column
  | BISHOP => unplace_bishop cfg b row column
  | ROOK => unplace_rook cfg b row column
  | KING => unplace_king cfg b row column

/-- The condition under which `maximize` tries a piece of the given kind on a
square that is not attacked. -/
def extra_guard (cfg : config) (k : piece) (b : board) (row column : Nat) : Prop :=
  match k with
  | EMPTY => False
  | KNIGHT => b.knight_population row column = 0
  | BISHOP => b.downward_diagonal_population (downward_diagonal cfg row column).toNat = 0 ∧
      b.upward_diagonal_population (upward_diagonal row column).toNat = 0
  | ROOK => b.row_population row = 0 ∧ b.column_population column = 0
  | KING => b.king_population row column = 0

instance (cfg : config) (k : piece) (b : board) (row column : Nat) :
    Decidable (extra_guard cfg k b row column) :=
  match k with
  | EMPTY => isFalse (fun h => h)
  | KNIGHT => inferInstanceAs (Decidable (b.knight_population row column = 0))
  | BISHOP => inferInstanceAs (Decidable
      (b.downward_diagonal_population (downward_diagonal cfg row column).toNat = 0 ∧
        b.upward_diagonal_population (upward_diagonal row column).toNat = 0))
  | ROOK => inferInstanceAs (Decidable (b.row_population row = 0 ∧ b.column_population column = 0))
  | KING => inferInstanceAs (Decidable (b.king_population row column = 0))

/-- The first statement of `maximize`: record the entry, and copy the board to
the best board (printing it) when its score is strictly greater. -/
def enter_update (s : state) (index : Nat) : state :=
  let s := { s with history := s.history ++ [event.enter s.board s.maximum_board index] }
  if s.board.score > s.maximum_board.score then
    { s with maximum_board := s.board, output := s.output ++ [s.board] }
  else s

/-- One of the four guarded blocks of `maximize`: place a piece of kind `k`,
run the recursive call `rec`, remove the piece. -/
def attempt (cfg : config) (k : piece) (rec : state → state) (s : state) (row column : Nat) :
    state :=
  if extra_guard cfg k s.board row column then
    let s := { s with board := place_kind cfg k s.board row column }
    let s := rec s
    let s := { s with board := unplace_kind cfg k s.board row column }
    { s with history := s.history ++ [event.unplaced s.board] }
  else s

/-- The ghost record of the evaluation of `board->score + limits[index]`. -/
def test_update (s : state) (index limit : Nat) : state :=
  { s with history := s.history ++ [event.test index s.board.score limit] }

/-- The four guarded blocks of `maximize` in sequence: rook, bishop, king, knight. -/
def attempts (cfg : config) (rec : state → state) (s : state) (row column : Nat) : state :=
  let s := attempt cfg ROOK rec s row column
  let s := attempt cfg BISHOP rec s row column
  let s := attempt cfg KING rec s row column
  attempt cfg KNIGHT rec s row column

/-- The body of `maximize` below the test `index == BOARD_WIDTH * BOARD_HEIGHT`,
with `rec` for the recursive call. -/
def run_step (cfg : config) (limits : Nat → Nat) (rec : state → state) (index : Nat) (s : state) :
    state :=
  let s := test_update s index (limits index)
  if (s.board.score + limits index) % SCORE_MOD cfg ≤ s.maximum_board.score then s
  else
    let row := index / cfg.BOARD_WIDTH
    let column := index % cfg.BOARD_WIDTH
    rec (if attacked cfg s.board row column then s else attempts cfg rec s row column)

/-- The state in which `maximize` returns when it is entered with
`index = BOARD_WIDTH * BOARD_HEIGHT - remaining`: the same statements as
`maximize`, by recursion on the number of squares not yet decided. -/
def run (cfg : config) (limits : Nat → Nat) : Nat → state → state
  | 0, s => enter_update s (cfg.BOARD_WIDTH * cfg.BOARD_HEIGHT)
  | remaining + 1, s =>
    let index := cfg.BOARD_WIDTH * cfg.BOARD_HEIGHT - (remaining + 1)
    run_step cfg limits (run cfg limits remaining) index (enter_update s index)

/-- A guarded block of `maximize` as the do-notation lays it out: the rest of
the function is the continuation `jp`. -/
def attempt_cps (G : Prop) [Decidable G] (pl un : board → board) (rec : state → Option state)
    (s : state) (jp : state → Option state) : Option state :=
  if G then
    (rec { s with board := pl s.board }).bind fun s =>
      jp { board := un s.board, maximum_board := s.maximum_board, output := s.output,
           history := s.history ++ [event.unplaced (un s.board)] }
  else jp s

/-- The state and the bound table with which the second loop of `main` ends
when it is entered with the loop variable equal to the first argument: the
statements of `main_loop`, with `run` for the call of `maximize`. -/
def run_loop (cfg : config) : Nat → state → (Nat → Nat) → state × (Nat → Nat)
  | 0, s, limits => (s, limits)
  | i + 1, s, limits =>
    let s := { s with history := s.history ++ [event.start i s.board] }
    let s := run cfg limits (cfg.BOARD_WIDTH * cfg.BOARD_HEIGHT - i) s
    run_loop cfg i s (set1 limits i s.maximum_board.score)

/-- The piece standing on the square of scan index `j`. -/
def piece_at (cfg : config) (P : Nat → Nat → piece) (j : Nat) : piece :=
  P (j / cfg.BOARD_WIDTH) (j % cfg.BOARD_WIDTH)

/-- The representation invariant of a board in which the squares of scan index
`n` and more have not been decided yet: every piece stands on a square of scan
index below `n`, and every counter, flag and the score is the one the pieces
call for. -/
structure board_invariant (cfg : config) (n : Nat) (b : board) : Prop where
  support : ∀ r c, b.pieces r c ≠ EMPTY → c < cfg.BOARD_WIDTH ∧ r * cfg.BOARD_WIDTH + c < n
  row_population : ∀ r, b.row_population r =
    count_below (fun j => piece_at cfg b.pieces j ≠ EMPTY ∧ j / cfg.BOARD_WIDTH = r) n
  column_population : ∀ c, b.column_population c =
    count_below (fun j => piece_at cfg b.pieces j ≠ EMPTY ∧ j % cfg.BOARD_WIDTH = c) n
  downward_diagonal_population : ∀ d, b.downward_diagonal_population d =
    count_below (fun j => piece_at cfg b.pieces j ≠ EMPTY ∧
      (downward_diagonal cfg (j / cfg.BOARD_WIDTH) (j % cfg.BOARD_WIDTH)).toNat = d) n
  upward_diagonal_population : ∀ d, b.upward_diagonal_population d =
    count_below (fun j => piece_at cfg b.pieces j ≠ EMPTY ∧
      (upward_diagonal (j / cfg.BOARD_WIDTH) (j % cfg.BOARD_WIDTH)).toNat = d) n
  rows_attacked : ∀ r, b.rows_attacked r = true ↔
    ∃ j, j < n ∧ piece_at cfg b.pieces j = ROOK ∧ j / cfg.BOARD_WIDTH = r
  columns_attacked : ∀ c, b.columns_attacked c = true ↔
    ∃ j, j < n ∧ piece_at cfg b.pieces j = ROOK ∧ j % cfg.BOARD_WIDTH = c
  downward_diagonals_attacked : ∀ d, b.downward_diagonals_attacked d = true ↔
    ∃ j, j < n ∧ piece_at cfg b.pieces j = BISHOP ∧
      (downward_diagonal cfg (j / cfg.BOARD_WIDTH) (j % cfg.BOARD_WIDTH)).toNat = d
  upward_diagonals_attacked : ∀ d, b.upward_diagonals_attacked d = true ↔
    ∃ j, j < n ∧ piece_at cfg b.pieces j = BISHOP ∧
      (upward_diagonal (j / cfg.BOARD_WIDTH) (j % cfg.BOARD_WIDTH)).toNat = d
  spot_attacks : ∀ r c, b.spot_attacks r c =
    count_below (fun j =>
      (piece_at cfg b.pieces j = KING ∧
        (r, c) ∈ FOR_EACH_KING_ATTACK cfg (j / cfg.BOARD_WIDTH) (j % cfg.BOARD_WIDTH)) ∨
      (piece_at cfg b.pieces j = KNIGHT ∧
        (r, c) ∈ FOR_EACH_KNIGHT_ATTACK cfg (j / cfg.BOARD_WIDTH) (j % cfg.BOARD_WIDTH))) n
  knight_population : ∀ r c, b.knight_population r c =
    count_below (fun j => piece_at cfg b.pieces j ≠ EMPTY ∧
      (r, c) ∈ FOR_EACH_KNIGHT_ATTACK cfg (j / cfg.BOARD_WIDTH) (j % cfg.BOARD_WIDTH)) n
  king_population : ∀ r c, b.king_population r c =
    count_below (fun j => piece_at cfg b.pieces j ≠ EMPTY ∧
      (r, c) ∈ FOR_EACH_KING_ATTACK cfg (j / cfg.BOARD_WIDTH) (j % cfg.BOARD_WIDTH)) n
  score : b.score = value_below cfg b.pieces n % SCORE_MOD cfg

/-- A board the search started at scan index `lo` may hold: for some prefix of
the scan it satisfies the representation invariant, no piece on it attacks
another, and every piece stands on a square of scan index `lo` or more. -/
def legal_board (cfg : config) (lo : Nat) (b : board) : Prop :=
  (∃ n, n ≤ cfg.BOARD_WIDTH * cfg.BOARD_HEIGHT ∧ board_invariant cfg n b) ∧
  non_attacking cfg b.pieces ∧
  ∀ r c, b.pieces r c ≠ EMPTY → lo ≤ r * cfg.BOARD_WIDTH + c

/-- The boards of a recorded program point are legal. -/
def event_legal (cfg : config) (lo : Nat) : event → Prop
  | event.start _ b => legal_board cfg lo b
  | event.enter b m _ => legal_board cfg lo b ∧ legal_board cfg lo m
  | event.test _ _ _ => True
  | event.unplaced b => legal_board cfg lo b

/-- The state in which `maximize` is entered for the square of scan index `n`
by a search started at `lo`. -/
def state_ok (cfg : config) (lo n : Nat) (s : state) : Prop :=
  board_invariant cfg n s.board ∧ non_attacking cfg s.board.pieces ∧
  (∀ r c, s.board.pieces r c ≠ EMPTY → lo ≤ r * cfg.BOARD_WIDTH + c) ∧
  legal_board cfg lo s.maximum_board

/-- What a terminated piece of the search leaves behind: the board is
restored, the best board is legal, and so is every board printed or recorded
on the way. -/
def sound_step (cfg : config) (lo : Nat) (s s' : state) : Prop :=
  s'.board = s.board ∧ legal_board cfg lo s'.maximum_board ∧
  (∃ new, s'.output = s.output ++ new ∧ ∀ b ∈ new, legal_board cfg lo b) ∧
  (∃ h, s'.history = s.history ++ h ∧ ∀ e ∈ h, event_legal cfg lo e)

/-- The placement `Q` cut down to the squares of the board of scan index `i` or more. -/
def restrict_from (cfg : config) (Q : Nat → Nat → piece) (i : Nat) : Nat → Nat → piece :=
  fun r c =>
    if r < cfg.BOARD_HEIGHT ∧ c < cfg.BOARD_WIDTH ∧ i ≤ r * cfg.BOARD_WIDTH + c then Q r c
    else EMPTY

/-- The entry `limits[j]` bounds the value of every placement without attacks
on the squares of scan index `j` and more, and is itself at most the value of
a rook on each of these squares. -/
def valid_bound (cfg : config) (limits : Nat → Nat) (j : Nat) : Prop :=
  (∀ Q, non_attacking cfg Q → uses_squares cfg Q j (cfg.BOARD_WIDTH * cfg.BOARD_HEIGHT) →
    placement_value cfg Q ≤ limits j) ∧
  limits j ≤ (cfg.BOARD_WIDTH * cfg.BOARD_HEIGHT - j) * ROOK_VALUE

/-- The indices of a recorded program point of a search started at `lo`:
`maximize` is entered with an index in `[lo, BOARD_WIDTH * BOARD_HEIGHT]`, and
`limits` is read at an index in `[lo, BOARD_WIDTH * BOARD_HEIGHT)`, where it
yields the entry of the table. -/
def index_ok (cfg : config) (limits : Nat → Nat) (lo : Nat) : event → Prop
  | event.start _ _ => True
  | event.enter _ _ i => lo ≤ i ∧ i ≤ cfg.BOARD_WIDTH * cfg.BOARD_HEIGHT
  | event.test j _ l => lo ≤ j ∧ j < cfg.BOARD_WIDTH * cfg.BOARD_HEIGHT ∧ l = limits j
  | event.unplaced _ => True

/-- The history grows by program points with indices in range. -/
def hist_step (cfg : config) (limits : Nat → Nat) (lo : Nat) (s s' : state) : Prop :=
  ∃ h, s'.history = s.history ++ h ∧ ∀ e ∈ h, index_ok cfg limits lo e

/-- The indices of a recorded program point are in range: `main` calls
`maximize` for a square of the board, `maximize` is entered with an index of
at most `BOARD_WIDTH * BOARD_HEIGHT`, and `limits` is read at the index of a
square of the board. -/
def in_range (cfg : config) : event → Prop
  | event.start i _ => i < cfg.BOARD_WIDTH * cfg.BOARD_HEIGHT
  | event.enter _ _ i => i ≤ cfg.BOARD_WIDTH * cfg.BOARD_HEIGHT
  | event.test j _ _ => j < cfg.BOARD_WIDTH * cfg.BOARD_HEIGHT
  | event.unplaced _ => True

/-- The value read from `limits` at a recorded test bounds the value of every
placement without attacks on the squares from the index of the test on. -/
def read_valid (cfg : config) : event → Prop
  | event.start _ _ => True
  | event.enter _ _ _ => True
  | event.test j _ l => ∀ Q, non_attacking cfg Q →
      uses_squares cfg Q j (cfg.BOARD_WIDTH * cfg.BOARD_HEIGHT) → placement_value cfg Q ≤ l
  | event.unplaced _ => True

/-- The entry `limits[j]` is the value of a placement without attacks on the
squares of scan index `j` and more. -/
def attained (cfg : config) (limits : Nat → Nat) (j : Nat) : Prop :=
  ∃ Q, non_attacking cfg Q ∧ uses_squares cfg Q j (cfg.BOARD_WIDTH * cfg.BOARD_HEIGHT) ∧
    placement_value cfg Q = limits j

/-- The boards of a recorded program point: the board, and at an entry of
`maximize` also the best board. -/
def boards_of : event → List board
  | event.start _ b => [b]
  | event.enter b m _ => [b, m]
  | event.test _ _ _ => []
  | event.unplaced b => [b]

/-- The attacked-flag invariant of a board: a row or column is flagged exactly
when a rook stands on it, a diagonal exactly when a bishop stands on it. -/
def flags_invariant (cfg : config) (b : board) : Prop :=
  (∀ r, r < cfg.BOARD_HEIGHT →
    (b.rows_attacked r = true ↔ ∃ c, c < cfg.BOARD_WIDTH ∧ b.pieces r c = ROOK)) ∧
  (∀ c, c < cfg.BOARD_WIDTH →
    (b.columns_attacked c = true ↔ ∃ r, r < cfg.BOARD_HEIGHT ∧ b.pieces r c = ROOK)) ∧
  (∀ d : Nat, b.upward_diagonals_attacked d = true ↔
    ∃ r c, r < cfg.BOARD_HEIGHT ∧ c < cfg.BOARD_WIDTH ∧ b.pieces r c = BISHOP ∧
      upward_diagonal r c = (d : Int)) ∧
  (∀ d : Nat, b.downward_diagonals_attacked d = true ↔
    ∃ r c, r < cfg.BOARD_HEIGHT ∧ c < cfg.BOARD_WIDTH ∧ b.pieces r c = BISHOP ∧
      downward_diagonal cfg r c = (d : Int))

/-- A single rook on the square `(0, 0)`. -/
def rook_in_corner : Nat → Nat → piece :=
  fun r c => if r = 0 ∧ c = 0 then ROOK else EMPTY

/-- The set the specification gives for a king on `(row, column)`: the squares
of the board in the 8-neighbourhood of `(row, column)` whose row is `row` or
more. -/
def king_forward_spec (cfg : config) (row column r c : Nat) : Prop :=
  r < cfg.BOARD_HEIGHT ∧ c < cfg.BOARD_WIDTH ∧ (r ≠ row ∨ c ≠ column) ∧
    row ≤ r ∧ r ≤ row + 1 ∧ c ≤ column + 1 ∧ column ≤ c + 1

instance (cfg : config) (row column r c : Nat) :
    Decidable (king_forward_spec cfg row column r c) := by
  unfold king_forward_spec; infer_instance

/-- What is recorded inside a call of `maximize` for the square `lo`, by the
calls for the squares from `lo` on: `maximize` is entered at an index `i` with
a board that satisfies the invariant for `i` and holds no attack, and the
pruning test reads the entry `limits[j]` on a board whose score is at most the
value of a rook on each of the `j` squares decided. -/
def deep_ok (cfg : config) (limits : Nat → Nat) (lo : Nat) : event → Prop
  | event.start _ _ => True
  | event.enter b _ i => lo ≤ i ∧ i ≤ cfg.BOARD_WIDTH * cfg.BOARD_HEIGHT ∧
      board_invariant cfg i b ∧ non_attacking cfg b.pieces
  | event.test j sc l => lo ≤ j ∧ j < cfg.BOARD_WIDTH * cfg.BOARD_HEIGHT ∧ l = limits j ∧
      sc ≤ j * ROOK_VALUE
  | event.unplaced _ => True

/-- The history grows by program points that satisfy `deep_ok`. -/
def trace_step (cfg : config) (limits : Nat → Nat) (lo : Nat) (s s' : state) : Prop :=
  ∃ h, s'.history = s.history ++ h ∧ ∀ e ∈ h, deep_ok cfg limits lo e

/-- The history of a call of `maximize` at index `n`: the entry, then (when a
square is left) the pruning test on the board of the entry, then what the
calls for the later squares record. -/
def call_trace (cfg : config) (limits : Nat → Nat) (n : Nat) (s s' : state) : Prop :=
  ∃ h, s'.history = s.history ++ event.enter s.board s.maximum_board n :: h ∧
    (n = cfg.BOARD_WIDTH * cfg.BOARD_HEIGHT → h = []) ∧
    (n < cfg.BOARD_WIDTH * cfg.BOARD_HEIGHT →
      ∃ h', h = event.test n s.board.score (limits n) :: h' ∧
        ∀ e ∈ h', deep_ok cfg limits (n + 1) e)

/-- The number of squares `(r, c)` of the board with `p r c`. -/
def count_squares (cfg : config) (p : Nat → Nat → Prop) [∀ r c, Decidable (p r c)] : Nat :=
  count_below (fun j => p (j / cfg.BOARD_WIDTH) (j % cfg.BOARD_WIDTH))
    (cfg.BOARD_WIDTH * cfg.BOARD_HEIGHT)

/-- The line-population invariant of a board: each of the four kinds of
population counters holds the number of occupied squares of its line; on the
lines of an empty square the increment of `place_piece` does not wrap, and on
the lines of an occupied square the counters are positive, so that the
decrement of `unplace_piece` does not go below zero. -/
def populations_invariant (cfg : config) (b : board) : Prop :=
  (∀ r, b.row_population r = count_squares cfg (fun r' c' => b.pieces r' c' ≠ EMPTY ∧ r' = r)) ∧
  (∀ c, b.column_population c =
    count_squares cfg (fun r' c' => b.pieces r' c' ≠ EMPTY ∧ c' = c)) ∧
  (∀ d : Nat, b.upward_diagonal_population d =
    count_squares cfg (fun r' c' => b.pieces r' c' ≠ EMPTY ∧ upward_diagonal r' c' = (d : Int))) ∧
  (∀ d : Nat, b.downward_diagonal_population d =
    count_squares cfg
      (fun r' c' => b.pieces r' c' ≠ EMPTY ∧ downward_diagonal cfg r' c' = (d : Int))) ∧
  (∀ r c, r < cfg.BOARD_HEIGHT → c < cfg.BOARD_WIDTH → b.pieces r c = EMPTY →
    incr cfg (b.row_population r) = b.row_population r + 1 ∧
    incr cfg (b.column_population c) = b.column_population c + 1 ∧
    incr cfg (b.upward_diagonal_population (upward_diagonal r c).toNat) =
      b.upward_diagonal_population (upward_diagonal r c).toNat + 1 ∧
    incr cfg (b.downward_diagonal_population (downward_diagonal cfg r c).toNat) =
      b.downward_diagonal_population (downward_diagonal cfg r c).toNat + 1) ∧
  (∀ r c, b.pieces r c ≠ EMPTY →
    0 < b.row_population r ∧ 0 < b.column_population c ∧
    0 < b.upward_diagonal_population (upward_diagonal r c).toNat ∧
    0 < b.downward_diagonal_population (downward_diagonal cfg r c).toNat)

/-- The score invariant of a board: every piece stands on a square of the
board, and the score is the sum of the values of the pieces. -/
def score_invariant (cfg : config) (b : board) : Prop :=
  uses_squares cfg b.pieces 0 (cfg.BOARD_WIDTH * cfg.BOARD_HEIGHT) ∧
  b.score = placement_value cfg b.pieces

/-- An entry of `maximize` is recorded with an index of at most
`BOARD_WIDTH * BOARD_HEIGHT` and a board that satisfies the representation
invariant for that index and holds no attack. -/
def entry_invariant (cfg : config) : event → Prop
  | event.start _ _ => True
  | event.enter b _ i => i ≤ cfg.BOARD_WIDTH * cfg.BOARD_HEIGHT ∧ board_invariant cfg i b ∧
      non_attacking cfg b.pieces
  | event.test _ _ _ => True
  | event.unplaced _ => True

/-- The operands of the recorded pruning tests: at a test for the square `j`
the score is at most the value of a rook on each of the `j` squares decided
and the bound read at most the value of a rook on each of the other squares,
unless the test is the one of the call `main` makes for the square `j` (it
follows the record of that call and of its entry on the empty boards), where
the score is 0 and the bound read is `SCORE_MAX`. -/
def read_exact (cfg : config) (H : List event) : Prop :=
  ∀ j sc l, event.test j sc l ∈ H →
    (j < cfg.BOARD_WIDTH * cfg.BOARD_HEIGHT ∧ sc ≤ j * ROOK_VALUE ∧
      l ≤ (cfg.BOARD_WIDTH * cfg.BOARD_HEIGHT - j) * ROOK_VALUE) ∨
    (sc = 0 ∧ l = SCORE_MAX cfg ∧
      ∃ pre post m, H = pre ++ event.start j EMPTY_BOARD ::
        event.enter EMPTY_BOARD m j :: event.test j sc l :: post)

/-- Every recorded call of `maximize` by `main`, for a square `i'` of scan
index at least `i`, is directly followed by the record of the entry of
`maximize` at `i'`; the best board of that entry scores `limits[i' + 1]`, and
for the last square of the board it is the empty board. -/
def starts_ok (cfg : config) (limits : Nat → Nat) (i : Nat) (H : List event) : Prop :=
  ∀ k i' b, H[k]? = some (event.start i' b) →
    i ≤ i' ∧ ∃ b' m, H[k + 1]? = some (event.enter b' m i') ∧
      (i' + 1 < cfg.BOARD_WIDTH * cfg.BOARD_HEIGHT → m.score = limits (i' + 1)) ∧
      (i' + 1 = cfg.BOARD_WIDTH * cfg.BOARD_HEIGHT → m = EMPTY_BOARD)

/-- The index and the piece on the square `(r, c)` of every recorded entry of
`maximize`, in order. -/
def entries_at (r c : Nat) : List event → List (Nat × piece)
  | [] => []
  | event.enter b _ i :: rest => (i, b.pieces r c) :: entries_at r c rest
  | event.start _ _ :: rest => entries_at r c rest
  | event.test _ _ _ :: rest => entries_at r c rest
  | event.unplaced _ :: rest => entries_at r c rest

/-- Among the program points `h`, `maximize` is entered with the board `b` at
the index `i`. -/
def entered_at (h : List event) (i : Nat) (b : board) : Prop :=
  ∃ m, event.enter b m i ∈ h

/-! ## Counter arithmetic -/

theorem POPULATION_MOD_pos (cfg : config) : 0 < POPULATION_MOD cfg := by
  unfold POPULATION_MOD; exact Nat.pos_pow_of_pos _ (by decide)

theorem SCORE_MOD_pos (cfg : config) : 0 < SCORE_MOD cfg := by
  unfold SCORE_MOD; exact Nat.pos_pow_of_pos _ (by decide)

theorem mod_wrap_cases {x M : Nat} (h : x < 2 * M) : (x < M ∧ x % M = x) ∨ (M ≤ x ∧ x % M + M = x) := by
  by_cases h1 : x < M
  · exact Or.inl ⟨h1, Nat.mod_eq_of_lt h1⟩
  · refine Or.inr ⟨by omega, ?_⟩
    have h2 : x % M = (x - M) % M := Nat.mod_eq_sub_mod (by omega)
    rw [h2, Nat.mod_eq_of_lt (by omega)]; omega

theorem decr_incr (cfg : config) {x : Nat} (h : x < POPULATION_MOD cfg) :
    decr cfg (incr cfg x) = x := by
  unfold decr incr
  generalize POPULATION_MOD cfg = M at *
  rcases mod_wrap_cases (show x + 1 < 2 * M by omega) with ⟨h1, h2⟩ | ⟨h1, h2⟩
  · rw [h2]
    have : x + 1 + M - 1 = x + M := by omega
    rw [this, Nat.add_mod_right, Nat.mod_eq_of_lt h]
  · have h3 : (x + 1) % M = 0 := by omega
    rw [h3]
    have : 0 + M - 1 = x := by omega
    rw [this, Nat.mod_eq_of_lt h]

theorem incr_lt (cfg : config) (x : Nat) : incr cfg x < POPULATION_MOD cfg :=
  Nat.mod_lt _ (POPULATION_MOD_pos cfg)

theorem incr_exact (cfg : config) {x : Nat} (h : x + 1 < POPULATION_MOD cfg) : incr cfg x = x + 1 :=
  Nat.mod_eq_of_lt h

theorem score_add_lt (cfg : config) (s v : Nat) : score_add cfg s v < SCORE_MOD cfg :=
  Nat.mod_lt _ (SCORE_MOD_pos cfg)

theorem score_sub_add (cfg : config) {s : Nat} (v : Nat) (h : s < SCORE_MOD cfg) :
    score_sub cfg (score_add cfg s v) v = s := by
  unfold score_sub score_add
  have hM := SCORE_MOD_pos cfg
  generalize SCORE_MOD cfg = M at *
  have hb : v % M < M := Nat.mod_lt _ hM
  have e : (s + v) % M = (s + v % M) % M := by
    rw [Nat.add_mod, Nat.mod_eq_of_lt h]
  rw [e]
  generalize v % M = b at *
  rcases mod_wrap_cases (show s + b < 2 * M by omega) with ⟨h1, h2⟩ | ⟨h1, h2⟩
  · rw [h2]
    have : s + b + M - b = s + M := by omega
    rw [this, Nat.add_mod_right, Nat.mod_eq_of_lt h]
  · have : (s + b) % M + M - b = s := by omega
    rw [this, Nat.mod_eq_of_lt h]


/-! ## The attack loops -/

theorem for_values_0_1_1 : for_values 0 1 1 = [0, 1] := by decide
theorem for_values_m1_1_1 : for_values (-1) 1 1 = [-1, 0, 1] := by decide
theorem for_values_1_2_1 : for_values 1 2 1 = [1, 2] := by decide
theorem for_values_m2_2_4 : for_values (-2) 2 4 = [-2, 2] := by decide
theorem for_values_m1_1_2 : for_values (-1) 1 2 = [-1, 1] := by decide

/-- The king loop unrolled: two candidate squares in the row, three in the next one. -/
theorem king_list_eq (cfg : config) (row column : Nat) :
    FOR_EACH_KING_ATTACK cfg row column =
      (if (row : Int) + 0 < cfg.BOARD_HEIGHT then
        (if (column : Int) + 0 ≥ 0 ∧ (column : Int) + 0 < cfg.BOARD_WIDTH then
          [(((row : Int) + 0).toNat, ((column : Int) + 0).toNat)] else []) ++
        (if (column : Int) + 1 ≥ 0 ∧ (column : Int) + 1 < cfg.BOARD_WIDTH then
          [(((row : Int) + 0).toNat, ((column : Int) + 1).toNat)] else []) else []) ++
      (if (row : Int) + 1 < cfg.BOARD_HEIGHT then
        (if (column : Int) + -1 ≥ 0 ∧ (column : Int) + -1 < cfg.BOARD_WIDTH then
          [(((row : Int) + 1).toNat, ((column : Int) + -1).toNat)] else []) ++
        (if (column : Int) + 0 ≥ 0 ∧ (column : Int) + 0 < cfg.BOARD_WIDTH then
          [(((row : Int) + 1).toNat, ((column : Int) + 0).toNat)] else []) ++
        (if (column : Int) + 1 ≥ 0 ∧ (column : Int) + 1 < cfg.BOARD_WIDTH then
          [(((row : Int) + 1).toNat, ((column : Int) + 1).toNat)] else []) else []) := by
  unfold FOR_EACH_KING_ATTACK
  rw [for_values_0_1_1]
  simp only [List.flatMap_cons, List.flatMap_nil, List.append_nil, neg_zero, for_values_0_1_1,
    for_values_m1_1_1, List.append_assoc]

theorem mem_FOR_EACH_KING_ATTACK (cfg : config) (row column r c : Nat) :
    (r, c) ∈ FOR_EACH_KING_ATTACK cfg row column ↔
      r < cfg.BOARD_HEIGHT ∧ c < cfg.BOARD_WIDTH ∧
        ((r = row ∧ (c = column ∨ c = column + 1)) ∨
          (r = row + 1 ∧ (c + 1 = column ∨ c = column ∨ c = column + 1))) := by
  rw [king_list_eq]
  simp only [List.mem_append]
  split_ifs <;> simp [Prod.ext_iff] <;> omega

theorem nodup_FOR_EACH_KING_ATTACK (cfg : config) (row column : Nat) :
    (FOR_EACH_KING_ATTACK cfg row column).Nodup := by
  rw [king_list_eq]
  split_ifs <;> simp [Prod.ext_iff] <;> omega

/-- The knight loop unrolled: two candidate squares one row down, two candidates two rows down. -/
theorem knight_list_eq (cfg : config) (row column : Nat) :
    FOR_EACH_KNIGHT_ATTACK cfg row column =
      (if (row : Int) + 1 < cfg.BOARD_HEIGHT then
        (if (column : Int) + -2 ≥ 0 ∧ (column : Int) + -2 < cfg.BOARD_WIDTH then
          [(((row : Int) + 1).toNat, ((column : Int) + -2).toNat)] else []) ++
        (if (column : Int) + 2 ≥ 0 ∧ (column : Int) + 2 < cfg.BOARD_WIDTH then
          [(((row : Int) + 1).toNat, ((column : Int) + 2).toNat)] else []) else []) ++
      (if (row : Int) + 2 < cfg.BOARD_HEIGHT then
        (if (column : Int) + -1 ≥ 0 ∧ (column : Int) + -1 < cfg.BOARD_WIDTH then
          [(((row : Int) + 2).toNat, ((column : Int) + -1).toNat)] else []) ++
        (if (column : Int) + 1 ≥ 0 ∧ (column : Int) + 1 < cfg.BOARD_WIDTH then
          [(((row : Int) + 2).toNat, ((column : Int) + 1).toNat)] else []) else []) := by
  unfold FOR_EACH_KNIGHT_ATTACK
  rw [for_values_1_2_1]
  have e1 : (1 : Int) + (((1 : Int).toNat &&& 1 : Nat) : Int) = 2 := by decide
  have e2 : (1 : Int) + (((2 : Int).toNat &&& 1 : Nat) : Int) = 1 := by decide
  simp only [List.flatMap_cons, List.flatMap_nil, List.append_nil, e1, e2, for_values_m2_2_4,
    for_values_m1_1_2, List.append_assoc, Int.reduceNeg, Int.reduceMul, mul_one]

theorem mem_FOR_EACH_KNIGHT_ATTACK (cfg : config) (row column r c : Nat) :
    (r, c) ∈ FOR_EACH_KNIGHT_ATTACK cfg row column ↔
      r < cfg.BOARD_HEIGHT ∧ c < cfg.BOARD_WIDTH ∧
        ((r = row + 1 ∧ (c + 2 = column ∨ c = column + 2)) ∨
          (r = row + 2 ∧ (c + 1 = column ∨ c = column + 1))) := by
  rw [knight_list_eq]
  simp only [List.mem_append]
  split_ifs <;> simp [Prod.ext_iff] <;> omega

theorem nodup_FOR_EACH_KNIGHT_ATTACK (cfg : config) (row column : Nat) :
    (FOR_EACH_KNIGHT_ATTACK cfg row column).Nodup := by
  rw [knight_list_eq]
  split_ifs <;> simp [Prod.ext_iff] <;> omega


/-! ## Loops that update one counter array -/

theorem foldl_king_population (g : (Nat → Nat → Nat) → Nat × Nat → Nat → Nat → Nat)
    (l : List (Nat × Nat)) (b : board) :
    l.foldl (fun b a => { b with king_population := g b.king_population a }) b =
      { b with king_population := l.foldl g b.king_population } := by
  induction l generalizing b with
  | nil => rfl
  | cons a l ih => simp only [List.foldl_cons, ih]

theorem foldl_knight_population (g : (Nat → Nat → Nat) → Nat × Nat → Nat → Nat → Nat)
    (l : List (Nat × Nat)) (b : board) :
    l.foldl (fun b a => { b with knight_population := g b.knight_population a }) b =
      { b with knight_population := l.foldl g b.knight_population } := by
  induction l generalizing b with
  | nil => rfl
  | cons a l ih => simp only [List.foldl_cons, ih]

theorem foldl_spot_attacks (g : (Nat → Nat → Nat) → Nat × Nat → Nat → Nat → Nat)
    (l : List (Nat × Nat)) (b : board) :
    l.foldl (fun b a => { b with spot_attacks := g b.spot_attacks a }) b =
      { b with spot_attacks := l.foldl g b.spot_attacks } := by
  induction l generalizing b with
  | nil => rfl
  | cons a l ih => simp only [List.foldl_cons, ih]

/-- Applying `op` once to each entry listed in a duplicate-free list. -/
theorem foldl_set2_apply (op : Nat → Nat) (l : List (Nat × Nat)) (hl : l.Nodup)
    (f : Nat → Nat → Nat) (r c : Nat) :
    l.foldl (fun f a => set2 f a.1 a.2 (op (f a.1 a.2))) f r c =
      if (r, c) ∈ l then op (f r c) else f r c := by
  induction l generalizing f with
  | nil => simp
  | cons a l ih =>
    rw [List.nodup_cons] at hl
    rw [List.foldl_cons, ih hl.2]
    obtain ⟨a1, a2⟩ := a
    by_cases h1 : (r, c) ∈ l
    · have h2 : ¬ (r = a1 ∧ c = a2) := by
        rintro ⟨rfl, rfl⟩; exact hl.1 h1
      simp [h1, set2, h2]
    · by_cases h2 : r = a1 ∧ c = a2
      · obtain ⟨rfl, rfl⟩ := h2; simp [h1, set2]
      · have h3 : ¬ ((r, c) = (a1, a2)) := by simpa [Prod.ext_iff] using h2
        simp [h1, set2, h2, h3]

theorem foldl_incr_at2 (cfg : config) (l : List (Nat × Nat)) (hl : l.Nodup)
    (f : Nat → Nat → Nat) (r c : Nat) :
    l.foldl (fun f a => incr_at2 cfg f a.1 a.2) f r c =
      if (r, c) ∈ l then incr cfg (f r c) else f r c :=
  foldl_set2_apply (incr cfg) l hl f r c

theorem foldl_decr_at2 (cfg : config) (l : List (Nat × Nat)) (hl : l.Nodup)
    (f : Nat → Nat → Nat) (r c : Nat) :
    l.foldl (fun f a => decr_at2 cfg f a.1 a.2) f r c =
      if (r, c) ∈ l then decr cfg (f r c) else f r c :=
  foldl_set2_apply (decr cfg) l hl f r c

/-! ## The fields after the placement and removal operations -/

theorem place_piece_eq (cfg : config) (b : board) (row column : Nat) (p : piece) (value : Nat) :
    place_piece cfg b row column p value =
      { pieces := set2 b.pieces row column p
        downward_diagonals_attacked := b.downward_diagonals_attacked
        downward_diagonal_population := incr_at cfg b.downward_diagonal_population (downward_diagonal cfg row column).toNat
        upward_diagonals_attacked := b.upward_diagonals_attacked
        upward_diagonal_population := incr_at cfg b.upward_diagonal_population (upward_diagonal row column).toNat
        rows_attacked := b.rows_attacked
        row_population := incr_at cfg b.row_population row
        columns_attacked := b.columns_attacked
        column_population := incr_at cfg b.column_population column
        spot_attacks := b.spot_attacks
        knight_population := (FOR_EACH_KNIGHT_ATTACK cfg row column).foldl
          (fun f a => incr_at2 cfg f a.1 a.2) b.knight_population
        king_population := (FOR_EACH_KING_ATTACK cfg row column).foldl
          (fun f a => incr_at2 cfg f a.1 a.2) b.king_population
        score := score_add cfg b.score value } := by
  unfold place_piece
  simp only [foldl_king_population (fun f a => incr_at2 cfg f a.1 a.2),
    foldl_knight_population (fun f a => incr_at2 cfg f a.1 a.2)]

theorem unplace_piece_eq (cfg : config) (b : board) (row column : Nat) (value : Nat) :
    unplace_piece cfg b row column value =
      { pieces := set2 b.pieces row column EMPTY
        downward_diagonals_attacked := b.downward_diagonals_attacked
        downward_diagonal_population := decr_at cfg b.downward_diagonal_population (downward_diagonal cfg row column).toNat
        upward_diagonals_attacked := b.upward_diagonals_attacked
        upward_diagonal_population := decr_at cfg b.upward_diagonal_population (upward_diagonal row column).toNat
        rows_attacked := b.rows_attacked
        row_population := decr_at cfg b.row_population row
        columns_attacked := b.columns_attacked
        column_population := decr_at cfg b.column_population column
        spot_attacks := b.spot_attacks
        knight_population := (FOR_EACH_KNIGHT_ATTACK cfg row column).foldl
          (fun f a => decr_at2 cfg f a.1 a.2) b.knight_population
        king_population := (FOR_EACH_KING_ATTACK cfg row column).foldl
          (fun f a => decr_at2 cfg f a.1 a.2) b.king_population
        score := score_sub cfg b.score value } := by
  unfold unplace_piece
  simp only [foldl_king_population (fun f a => decr_at2 cfg f a.1 a.2),
    foldl_knight_population (fun f a => decr_at2 cfg f a.1 a.2)]

theorem place_rook_eq (cfg : config) (b : board) (row column : Nat) :
    place_rook cfg b row column =
      { pieces := set2 b.pieces row column ROOK
        downward_diagonals_attacked := b.downward_diagonals_attacked
        downward_diagonal_population := incr_at cfg b.downward_diagonal_population (downward_diagonal cfg row column).toNat
        upward_diagonals_attacked := b.upward_diagonals_attacked
        upward_diagonal_population := incr_at cfg b.upward_diagonal_population (upward_diagonal row column).toNat
        rows_attacked := set1 b.rows_attacked row true
        row_population := incr_at cfg b.row_population row
        columns_attacked := set1 b.columns_attacked column true
        column_population := incr_at cfg b.column_population column
        spot_attacks := b.spot_attacks
        knight_population := (FOR_EACH_KNIGHT_ATTACK cfg row column).foldl
          (fun f a => incr_at2 cfg f a.1 a.2) b.knight_population
        king_population := (FOR_EACH_KING_ATTACK cfg row column).foldl
          (fun f a => incr_at2 cfg f a.1 a.2) b.king_population
        score := score_add cfg b.score ROOK_VALUE } := by
  unfold place_rook
  simp only [place_piece_eq]

theorem place_bishop_eq (cfg : config) (b : board) (row column : Nat) :
    place_bishop cfg b row column =
      { pieces := set2 b.pieces row column BISHOP
        downward_diagonals_attacked := set1 b.downward_diagonals_attacked (downward_diagonal cfg row column).toNat true
        downward_diagonal_population := incr_at cfg b.downward_diagonal_population (downward_diagonal cfg row column).toNat
        upward_diagonals_attacked := set1 b.upward_diagonals_attacked (upward_diagonal row column).toNat true
        upward_diagonal_population := incr_at cfg b.upward_diagonal_population (upward_diagonal row column).toNat
        rows_attacked := b.rows_attacked
        row_population := incr_at cfg b.row_population row
        columns_attacked := b.columns_attacked
        column_population := incr_at cfg b.column_population column
        spot_attacks := b.spot_attacks
        knight_population := (FOR_EACH_KNIGHT_ATTACK cfg row column).foldl
          (fun f a => incr_at2 cfg f a.1 a.2) b.knight_population
        king_population := (FOR_EACH_KING_ATTACK cfg row column).foldl
          (fun f a => incr_at2 cfg f a.1 a.2) b.king_population
        score := score_add cfg b.score BISHOP_VALUE } := by
  unfold place_bishop
  simp only [place_piece_eq]

theorem place_king_eq (cfg : config) (b : board) (row column : Nat) :
    place_king cfg b row column =
      { pieces := set2 b.pieces row column KING
        downward_diagonals_attacked := b.downward_diagonals_attacked
        downward_diagonal_population := incr_at cfg b.downward_diagonal_population (downward_diagonal cfg row column).toNat
        upward_diagonals_attacked := b.upward_diagonals_attacked
        upward_diagonal_population := incr_at cfg b.upward_diagonal_population (upward_diagonal row column).toNat
        rows_attacked := b.rows_attacked
        row_population := incr_at cfg b.row_population row
        columns_attacked := b.columns_attacked
        column_population := incr_at cfg b.column_population column
        spot_attacks := (FOR_EACH_KING_ATTACK cfg row column).foldl
          (fun f a => incr_at2 cfg f a.1 a.2) b.spot_attacks
        knight_population := (FOR_EACH_KNIGHT_ATTACK cfg row column).foldl
          (fun f a => incr_at2 cfg f a.1 a.2) b.knight_population
        king_population := (FOR_EACH_KING_ATTACK cfg row column).foldl
          (fun f a => incr_at2 cfg f a.1 a.2) b.king_population
        score := score_add cfg b.score KING_VALUE } := by
  unfold place_king
  simp only [foldl_spot_attacks (fun f a => incr_at2 cfg f a.1 a.2), place_piece_eq]

theorem place_knight_eq (cfg : config) (b : board) (row column : Nat) :
    place_knight cfg b row column =
      { pieces := set2 b.pieces row column KNIGHT
        downward_diagonals_attacked := b.downward_diagonals_attacked
        downward_diagonal_population := incr_at cfg b.downward_diagonal_population (downward_diagonal cfg row column).toNat
        upward_diagonals_attacked := b.upward_diagonals_attacked
        upward_diagonal_population := incr_at cfg b.upward_diagonal_population (upward_diagonal row column).toNat
        rows_attacked := b.rows_attacked
        row_population := incr_at cfg b.row_population row
        columns_attacked := b.columns_attacked
        column_population := incr_at cfg b.column_population column
        spot_attacks := (FOR_EACH_KNIGHT_ATTACK cfg row column).foldl
          (fun f a => incr_at2 cfg f a.1 a.2) b.spot_attacks
        knight_population := (FOR_EACH_KNIGHT_ATTACK cfg row column).foldl
          (fun f a => incr_at2 cfg f a.1 a.2) b.knight_population
        king_population := (FOR_EACH_KING_ATTACK cfg row column).foldl
          (fun f a => incr_at2 cfg f a.1 a.2) b.king_population
        score := score_add cfg b.score KNIGHT_VALUE } := by
  unfold place_knight
  simp only [foldl_spot_attacks (fun f a => incr_at2 cfg f a.1 a.2), place_piece_eq]

theorem unplace_rook_eq (cfg : config) (b : board) (row column : Nat) :
    unplace_rook cfg b row column =
      { pieces := set2 b.pieces row column EMPTY
        downward_diagonals_attacked := b.downward_diagonals_attacked
        downward_diagonal_population := decr_at cfg b.downward_diagonal_population (downward_diagonal cfg row column).toNat
        upward_diagonals_attacked := b.upward_diagonals_attacked
        upward_diagonal_population := decr_at cfg b.upward_diagonal_population (upward_diagonal row column).toNat
        rows_attacked := set1 b.rows_attacked row false
        row_population := decr_at cfg b.row_population row
        columns_attacked := set1 b.columns_attacked column false
        column_population := decr_at cfg b.column_population column
        spot_attacks := b.spot_attacks
        knight_population := (FOR_EACH_KNIGHT_ATTACK cfg row column).foldl
          (fun f a => decr_at2 cfg f a.1 a.2) b.knight_population
        king_population := (FOR_EACH_KING_ATTACK cfg row column).foldl
          (fun f a => decr_at2 cfg f a.1 a.2) b.king_population
        score := score_sub cfg b.score ROOK_VALUE } := by
  unfold unplace_rook
  simp only [unplace_piece_eq]

theorem unplace_bishop_eq (cfg : config) (b : board) (row column : Nat) :
    unplace_bishop cfg b row column =
      { pieces := set2 b.pieces row column EMPTY
        downward_diagonals_attacked := set1 b.downward_diagonals_attacked (downward_diagonal cfg row column).toNat false
        downward_diagonal_population := decr_at cfg b.downward_diagonal_population (downward_diagonal cfg row column).toNat
        upward_diagonals_attacked := set1 b.upward_diagonals_attacked (upward_diagonal row column).toNat false
        upward_diagonal_population := decr_at cfg b.upward_diagonal_population (upward_diagonal row column).toNat
        rows_attacked := b.rows_attacked
        row_population := decr_at cfg b.row_population row
        columns_attacked := b.columns_attacked
        column_population := decr_at cfg b.column_population column
        spot_attacks := b.spot_attacks
        knight_population := (FOR_EACH_KNIGHT_ATTACK cfg row column).foldl
          (fun f a => decr_at2 cfg f a.1 a.2) b.knight_population
        king_population := (FOR_EACH_KING_ATTACK cfg row column).foldl
          (fun f a => decr_at2 cfg f a.1 a.2) b.king_population
        score := score_sub cfg b.score BISHOP_VALUE } := by
  unfold unplace_bishop
  simp only [unplace_piece_eq]

theorem unplace_king_eq (cfg : config) (b : board) (row column : Nat) :
    unplace_king cfg b row column =
      { pieces := set2 b.pieces row column EMPTY
        downward_diagonals_attacked := b.downward_diagonals_attacked
        downward_diagonal_population := decr_at cfg b.downward_diagonal_population (downward_diagonal cfg row column).toNat
        upward_diagonals_attacked := b.upward_diagonals_attacked
        upward_diagonal_population := decr_at cfg b.upward_diagonal_population (upward_diagonal row column).toNat
        rows_attacked := b.rows_attacked
        row_population := decr_at cfg b.row_population row
        columns_attacked := b.columns_attacked
        column_population := decr_at cfg b.column_population column
        spot_attacks := (FOR_EACH_KING_ATTACK cfg row column).foldl
          (fun f a => decr_at2 cfg f a.1 a.2) b.spot_attacks
        knight_population := (FOR_EACH_KNIGHT_ATTACK cfg row column).foldl
          (fun f a => decr_at2 cfg f a.1 a.2) b.knight_population
        king_population := (FOR_EACH_KING_ATTACK cfg row column).foldl
          (fun f a => decr_at2 cfg f a.1 a.2) b.king_population
        score := score_sub cfg b.score KING_VALUE } := by
  unfold unplace_king
  simp only [foldl_spot_attacks (fun f a => decr_at2 cfg f a.1 a.2), unplace_piece_eq]

theorem unplace_knight_eq (cfg : config) (b : board) (row column : Nat) :
    unplace_knight cfg b row column =
      { pieces := set2 b.pieces row column EMPTY
        downward_diagonals_attacked := b.downward_diagonals_attacked
        downward_diagonal_population := decr_at cfg b.downward_diagonal_population (downward_diagonal cfg row column).toNat
        upward_diagonals_attacked := b.upward_diagonals_attacked
        upward_diagonal_population := decr_at cfg b.upward_diagonal_population (upward_diagonal row column).toNat
        rows_attacked := b.rows_attacked
        row_population := decr_at cfg b.row_population row
        columns_attacked := b.columns_attacked
        column_population := decr_at cfg b.column_population column
        spot_attacks := (FOR_EACH_KNIGHT_ATTACK cfg row column).foldl
          (fun f a => decr_at2 cfg f a.1 a.2) b.spot_attacks
        knight_population := (FOR_EACH_KNIGHT_ATTACK cfg row column).foldl
          (fun f a => decr_at2 cfg f a.1 a.2) b.knight_population
        king_population := (FOR_EACH_KING_ATTACK cfg row column).foldl
          (fun f a => decr_at2 cfg f a.1 a.2) b.king_population
        score := score_sub cfg b.score KNIGHT_VALUE } := by
  unfold unplace_knight
  simp only [foldl_spot_attacks (fun f a => decr_at2 cfg f a.1 a.2), unplace_piece_eq]


/-! ## Round trip of placement and removal -/

theorem set1_restore {α : Type} (a : Nat → α) (i : Nat) (v w : α) (h : a i = w) :
    set1 (set1 a i v) i w = a := by
  funext j; unfold set1; by_cases hj : j = i <;> simp [hj, h]

theorem set2_restore {α : Type} (a : Nat → Nat → α) (i j : Nat) (v w : α) (h : a i j = w) :
    set2 (set2 a i j v) i j w = a := by
  funext i' j'; unfold set2
  by_cases hj : i' = i ∧ j' = j
  · obtain ⟨rfl, rfl⟩ := hj; simp [h]
  · simp [hj]

theorem decr_at_incr_at (cfg : config) (a : Nat → Nat) (i : Nat) (h : a i < POPULATION_MOD cfg) :
    decr_at cfg (incr_at cfg a i) i = a := by
  funext j; unfold decr_at incr_at set1
  by_cases hj : j = i
  · subst hj; simp [decr_incr cfg h]
  · simp [hj]

theorem foldl_decr_incr (cfg : config) (l : List (Nat × Nat)) (hl : l.Nodup) (f : Nat → Nat → Nat)
    (h : ∀ i j, f i j < POPULATION_MOD cfg) :
    l.foldl (fun f a => decr_at2 cfg f a.1 a.2) (l.foldl (fun f a => incr_at2 cfg f a.1 a.2) f) = f := by
  funext r c
  rw [foldl_decr_at2 cfg l hl, foldl_incr_at2 cfg l hl]
  by_cases hm : (r, c) ∈ l <;> simp [hm, decr_incr cfg (h r c)]

theorem unplace_place_piece (cfg : config) (b : board) (row column : Nat) (p : piece) (value : Nat)
    (hw : well_typed cfg b) (hempty : b.pieces row column = EMPTY) :
    unplace_piece cfg (place_piece cfg b row column p value) row column value = b := by
  obtain ⟨h1, h2, h3, h4, _, h6, h7, h8⟩ := hw
  rw [unplace_piece_eq, place_piece_eq]
  obtain ⟨pieces, dda, ddp, uda, udp, ra, rp, ca, cp, sa, np, kp, sc⟩ := b
  simp only [board.mk.injEq, true_and, and_true]
  refine ⟨set2_restore _ _ _ _ _ hempty, decr_at_incr_at cfg _ _ (h1 _), decr_at_incr_at cfg _ _ (h2 _),
    decr_at_incr_at cfg _ _ (h3 _), decr_at_incr_at cfg _ _ (h4 _), ?_, ?_, score_sub_add cfg _ h8⟩
  · exact foldl_decr_incr cfg _ (nodup_FOR_EACH_KNIGHT_ATTACK cfg row column) _ h6
  · exact foldl_decr_incr cfg _ (nodup_FOR_EACH_KING_ATTACK cfg row column) _ h7

theorem well_typed_place_piece (cfg : config) (b : board) (row column : Nat) (p : piece) (value : Nat)
    (hw : well_typed cfg b) : well_typed cfg (place_piece cfg b row column p value) := by
  obtain ⟨h1, h2, h3, h4, h5, h6, h7, _⟩ := hw
  rw [place_piece_eq]
  refine ⟨?_, ?_, ?_, ?_, h5, ?_, ?_, score_add_lt cfg _ _⟩
  · intro i; show incr_at cfg _ _ i < _; unfold incr_at set1; split
    · exact incr_lt cfg _
    · exact h1 i
  · intro i; show incr_at cfg _ _ i < _; unfold incr_at set1; split
    · exact incr_lt cfg _
    · exact h2 i
  · intro i; show incr_at cfg _ _ i < _; unfold incr_at set1; split
    · exact incr_lt cfg _
    · exact h3 i
  · intro i; show incr_at cfg _ _ i < _; unfold incr_at set1; split
    · exact incr_lt cfg _
    · exact h4 i
  · intro i j
    refine lt_of_eq_of_lt (foldl_incr_at2 cfg _ (nodup_FOR_EACH_KNIGHT_ATTACK cfg row column) _ i j) ?_
    split
    · exact incr_lt cfg _
    · exact h6 i j
  · intro i j
    refine lt_of_eq_of_lt (foldl_incr_at2 cfg _ (nodup_FOR_EACH_KING_ATTACK cfg row column) _ i j) ?_
    split
    · exact incr_lt cfg _
    · exact h7 i j


theorem unplace_place_rook (cfg : config) (b : board) (row column : Nat)
    (hw : well_typed cfg b) (hempty : b.pieces row column = EMPTY)
    (hrow : b.rows_attacked row = false) (hcol : b.columns_attacked column = false) :
    unplace_rook cfg (place_rook cfg b row column) row column = b := by
  obtain ⟨h1, h2, h3, h4, _, h6, h7, h8⟩ := hw
  rw [unplace_rook_eq, place_rook_eq]
  obtain ⟨pieces, dda, ddp, uda, udp, ra, rp, ca, cp, sa, np, kp, sc⟩ := b
  simp only [board.mk.injEq, true_and, and_true]
  exact ⟨set2_restore _ _ _ _ _ hempty, decr_at_incr_at cfg _ _ (h1 _), decr_at_incr_at cfg _ _ (h2 _),
    set1_restore _ _ _ _ hrow, decr_at_incr_at cfg _ _ (h3 _), set1_restore _ _ _ _ hcol,
    decr_at_incr_at cfg _ _ (h4 _),
    foldl_decr_incr cfg _ (nodup_FOR_EACH_KNIGHT_ATTACK cfg row column) _ h6,
    foldl_decr_incr cfg _ (nodup_FOR_EACH_KING_ATTACK cfg row column) _ h7, score_sub_add cfg _ h8⟩

theorem unplace_place_bishop (cfg : config) (b : board) (row column : Nat)
    (hw : well_typed cfg b) (hempty : b.pieces row column = EMPTY)
    (hdown : b.downward_diagonals_attacked (downward_diagonal cfg row column).toNat = false)
    (hup : b.upward_diagonals_attacked (upward_diagonal row column).toNat = false) :
    unplace_bishop cfg (place_bishop cfg b row column) row column = b := by
  obtain ⟨h1, h2, h3, h4, _, h6, h7, h8⟩ := hw
  rw [unplace_bishop_eq, place_bishop_eq]
  obtain ⟨pieces, dda, ddp, uda, udp, ra, rp, ca, cp, sa, np, kp, sc⟩ := b
  simp only [board.mk.injEq, true_and, and_true]
  exact ⟨set2_restore _ _ _ _ _ hempty, set1_restore _ _ _ _ hdown, decr_at_incr_at cfg _ _ (h1 _),
    set1_restore _ _ _ _ hup, decr_at_incr_at cfg _ _ (h2 _),
    decr_at_incr_at cfg _ _ (h3 _), decr_at_incr_at cfg _ _ (h4 _),
    foldl_decr_incr cfg _ (nodup_FOR_EACH_KNIGHT_ATTACK cfg row column) _ h6,
    foldl_decr_incr cfg _ (nodup_FOR_EACH_KING_ATTACK cfg row column) _ h7, score_sub_add cfg _ h8⟩

theorem unplace_place_king (cfg : config) (b : board) (row column : Nat)
    (hw : well_typed cfg b) (hempty : b.pieces row column = EMPTY) :
    unplace_king cfg (place_king cfg b row column) row column = b := by
  obtain ⟨h1, h2, h3, h4, h5, h6, h7, h8⟩ := hw
  rw [unplace_king_eq, place_king_eq]
  obtain ⟨pieces, dda, ddp, uda, udp, ra, rp, ca, cp, sa, np, kp, sc⟩ := b
  simp only [board.mk.injEq, true_and, and_true]
  exact ⟨set2_restore _ _ _ _ _ hempty, decr_at_incr_at cfg _ _ (h1 _), decr_at_incr_at cfg _ _ (h2 _),
    decr_at_incr_at cfg _ _ (h3 _), decr_at_incr_at cfg _ _ (h4 _),
    foldl_decr_incr cfg _ (nodup_FOR_EACH_KING_ATTACK cfg row column) _ h5,
    foldl_decr_incr cfg _ (nodup_FOR_EACH_KNIGHT_ATTACK cfg row column) _ h6,
    foldl_decr_incr cfg _ (nodup_FOR_EACH_KING_ATTACK cfg row column) _ h7, score_sub_add cfg _ h8⟩

theorem unplace_place_knight (cfg : config) (b : board) (row column : Nat)
    (hw : well_typed cfg b) (hempty : b.pieces row column = EMPTY) :
    unplace_knight cfg (place_knight cfg b row column) row column = b := by
  obtain ⟨h1, h2, h3, h4, h5, h6, h7, h8⟩ := hw
  rw [unplace_knight_eq, place_knight_eq]
  obtain ⟨pieces, dda, ddp, uda, udp, ra, rp, ca, cp, sa, np, kp, sc⟩ := b
  simp only [board.mk.injEq, true_and, and_true]
  exact ⟨set2_restore _ _ _ _ _ hempty, decr_at_incr_at cfg _ _ (h1 _), decr_at_incr_at cfg _ _ (h2 _),
    decr_at_incr_at cfg _ _ (h3 _), decr_at_incr_at cfg _ _ (h4 _),
    foldl_decr_incr cfg _ (nodup_FOR_EACH_KNIGHT_ATTACK cfg row column) _ h5,
    foldl_decr_incr cfg _ (nodup_FOR_EACH_KNIGHT_ATTACK cfg row column) _ h6,
    foldl_decr_incr cfg _ (nodup_FOR_EACH_KING_ATTACK cfg row column) _ h7, score_sub_add cfg _ h8⟩

theorem well_typed_EMPTY_BOARD (cfg : config) : well_typed cfg EMPTY_BOARD :=
  ⟨fun _ => POPULATION_MOD_pos cfg, fun _ => POPULATION_MOD_pos cfg, fun _ => POPULATION_MOD_pos cfg,
    fun _ => POPULATION_MOD_pos cfg, fun _ _ => POPULATION_MOD_pos cfg,
    fun _ _ => POPULATION_MOD_pos cfg, fun _ _ => POPULATION_MOD_pos cfg, SCORE_MOD_pos cfg⟩

/-- C4. Round trip of place/remove: on a board whose counters hold values of
their C types, at a square that is unoccupied and whose row, column and two
diagonals are not flagged as attacked, each of `unplace_rook ∘ place_rook`,
`unplace_bishop ∘ place_bishop`, `unplace_king ∘ place_king` and
`unplace_knight ∘ place_knight` returns the board it started from, equal in
every field. (The per-kind population condition of `maximize` and the range
of the square are not needed.) -/
theorem place_unplace_round_trip (cfg : config) (b : board) (row column : Nat)
    (hw : well_typed cfg b) (hempty : b.pieces row column = EMPTY)
    (hrow : b.rows_attacked row = false) (hcol : b.columns_attacked column = false)
    (hdown : b.downward_diagonals_attacked (downward_diagonal cfg row column).toNat = false)
    (hup : b.upward_diagonals_attacked (upward_diagonal row column).toNat = false) :
    unplace_rook cfg (place_rook cfg b row column) row column = b ∧
    unplace_bishop cfg (place_bishop cfg b row column) row column = b ∧
    unplace_king cfg (place_king cfg b row column) row column = b ∧
    unplace_knight cfg (place_knight cfg b row column) row column = b :=
  ⟨unplace_place_rook cfg b row column hw hempty hrow hcol,
    unplace_place_bishop cfg b row column hw hempty hdown hup,
    unplace_place_king cfg b row column hw hempty,
    unplace_place_knight cfg b row column hw hempty⟩

theorem place_unplace_round_trip_witness :
    unplace_rook army_config (place_rook army_config EMPTY_BOARD 3 4) 3 4 = EMPTY_BOARD ∧
    unplace_bishop army_config (place_bishop army_config EMPTY_BOARD 3 4) 3 4 = EMPTY_BOARD ∧
    unplace_king army_config (place_king army_config EMPTY_BOARD 3 4) 3 4 = EMPTY_BOARD ∧
    unplace_knight army_config (place_knight army_config EMPTY_BOARD 3 4) 3 4 = EMPTY_BOARD :=
  place_unplace_round_trip army_config EMPTY_BOARD 3 4 (well_typed_EMPTY_BOARD army_config)
    rfl rfl rfl rfl rfl


/-! ## `maximize` terminates: it computes `run` -/

/-- The equation of `maximize` with its four blocks folded into `attempt_cps`. -/
theorem maximize_succ (cfg : config) (limits : Nat → Nat) (fuel : Nat) (s : state) (index : Nat) :
    maximize cfg limits (fuel + 1) s index =
      (let s1 := enter_update s index
       if index = cfg.BOARD_WIDTH * cfg.BOARD_HEIGHT then some s1
       else
        let s2 := test_update s1 index (limits index)
        if (s2.board.score + limits index) % SCORE_MOD cfg ≤ s2.maximum_board.score then some s2
        else
          let row := index / cfg.BOARD_WIDTH
          let column := index % cfg.BOARD_WIDTH
          let rec' := fun s => maximize cfg limits fuel s (index + 1)
          if (!attacked cfg s2.board row column) = true then
            attempt_cps (s2.board.row_population row = 0 ∧ s2.board.column_population column = 0)
              (fun b => place_rook cfg b row column) (fun b => unplace_rook cfg b row column) rec' s2
              fun s =>
            attempt_cps
              (s.board.downward_diagonal_population (downward_diagonal cfg row column).toNat = 0 ∧
                s.board.upward_diagonal_population (upward_diagonal row column).toNat = 0)
              (fun b => place_bishop cfg b row column) (fun b => unplace_bishop cfg b row column) rec' s
              fun s =>
            attempt_cps (s.board.king_population row column = 0)
              (fun b => place_king cfg b row column) (fun b => unplace_king cfg b row column) rec' s
              fun s =>
            attempt_cps (s.board.knight_population row column = 0)
              (fun b => place_knight cfg b row column) (fun b => unplace_knight cfg b row column) rec' s
              fun s => rec' s
          else rec' s2) := by
  rfl

theorem attempt_cps_rook (cfg : config) (f : state → state) (s : state) (row column : Nat)
    (jp : state → Option state) :
    attempt_cps (s.board.row_population row = 0 ∧ s.board.column_population column = 0)
      (fun b => place_rook cfg b row column) (fun b => unplace_rook cfg b row column)
      (fun s => some (f s)) s jp = jp (attempt cfg ROOK f s row column) := by
  unfold attempt_cps attempt
  simp only [extra_guard, place_kind, unplace_kind, Option.some_bind]
  split <;> rfl

theorem attempt_cps_bishop (cfg : config) (f : state → state) (s : state) (row column : Nat)
    (jp : state → Option state) :
    attempt_cps
      (s.board.downward_diagonal_population (downward_diagonal cfg row column).toNat = 0 ∧
        s.board.upward_diagonal_population (upward_diagonal row column).toNat = 0)
      (fun b => place_bishop cfg b row column) (fun b => unplace_bishop cfg b row column)
      (fun s => some (f s)) s jp = jp (attempt cfg BISHOP f s row column) := by
  unfold attempt_cps attempt
  simp only [extra_guard, place_kind, unplace_kind, Option.some_bind]
  split <;> rfl

theorem attempt_cps_king (cfg : config) (f : state → state) (s : state) (row column : Nat)
    (jp : state → Option state) :
    attempt_cps (s.board.king_population row column = 0)
      (fun b => place_king cfg b row column) (fun b => unplace_king cfg b row column)
      (fun s => some (f s)) s jp = jp (attempt cfg KING f s row column) := by
  unfold attempt_cps attempt
  simp only [extra_guard, place_kind, unplace_kind, Option.some_bind]
  split <;> rfl

theorem attempt_cps_knight (cfg : config) (f : state → state) (s : state) (row column : Nat)
    (jp : state → Option state) :
    attempt_cps (s.board.knight_population row column = 0)
      (fun b => place_knight cfg b row column) (fun b => unplace_knight cfg b row column)
      (fun s => some (f s)) s jp = jp (attempt cfg KNIGHT f s row column) := by
  unfold attempt_cps attempt
  simp only [extra_guard, place_kind, unplace_kind, Option.some_bind]
  split <;> rfl

theorem maximize_eq_run (cfg : config) (limits : Nat → Nat) (fuel : Nat) :
    ∀ (remaining index : Nat) (s : state),
      index + remaining = cfg.BOARD_WIDTH * cfg.BOARD_HEIGHT → remaining < fuel →
      maximize cfg limits fuel s index = some (run cfg limits remaining s) := by
  induction fuel with
  | zero => intro remaining index s _ h; omega
  | succ fuel ih =>
    intro remaining index s hidx hfuel
    cases remaining with
    | zero =>
      have h0 : index = cfg.BOARD_WIDTH * cfg.BOARD_HEIGHT := by omega
      rw [maximize_succ]
      simp only [h0, if_true, run]
    | succ remaining =>
      have hne : index ≠ cfg.BOARD_WIDTH * cfg.BOARD_HEIGHT := by omega
      have hi : cfg.BOARD_WIDTH * cfg.BOARD_HEIGHT - (remaining + 1) = index := by omega
      have ih' : ∀ s, maximize cfg limits fuel s (index + 1) = some (run cfg limits remaining s) :=
        fun s => ih remaining (index + 1) s (by omega) (by omega)
      rw [maximize_succ]
      simp only [hne, if_false, ih', attempt_cps_rook, attempt_cps_bishop, attempt_cps_king,
        attempt_cps_knight, run, hi, run_step, attempts]
      generalize enter_update s index = s1
      generalize test_update s1 index (limits index) = s2
      by_cases hp : (s2.board.score + limits index) % SCORE_MOD cfg ≤ s2.maximum_board.score
      · simp only [hp, if_true]
      · simp only [hp, if_false]
        cases attacked cfg s2.board (index / cfg.BOARD_WIDTH) (index % cfg.BOARD_WIDTH) <;> simp

/-- `maximize` returns whenever it is given more fuel than there are squares left. -/
theorem maximize_total (cfg : config) (limits : Nat → Nat) (fuel index : Nat) (s : state)
    (hidx : index ≤ cfg.BOARD_WIDTH * cfg.BOARD_HEIGHT)
    (hfuel : cfg.BOARD_WIDTH * cfg.BOARD_HEIGHT - index < fuel) :
    maximize cfg limits fuel s index =
      some (run cfg limits (cfg.BOARD_WIDTH * cfg.BOARD_HEIGHT - index) s) :=
  maximize_eq_run cfg limits fuel _ index s (by omega) hfuel

theorem main_loop_eq (cfg : config) :
    ∀ (i : Nat) (s : state) (limits : Nat → Nat), i ≤ cfg.BOARD_WIDTH * cfg.BOARD_HEIGHT →
      main_loop cfg i s limits = some (run_loop cfg i s limits) := by
  intro i
  induction i with
  | zero => intro s limits _; rfl
  | succ i ih =>
    intro s limits hi
    have hm : ∀ s, maximize cfg limits (cfg.BOARD_WIDTH * cfg.BOARD_HEIGHT + 1) s i =
        some (run cfg limits (cfg.BOARD_WIDTH * cfg.BOARD_HEIGHT - i) s) :=
      fun s => maximize_total cfg limits _ i s (by omega) (by omega)
    rw [main_loop, run_loop]
    simp only [hm, Option.bind_eq_bind, Option.some_bind]
    exact ih _ _ (by omega)

theorem main_eq (cfg : config) :
    main cfg = some (run_loop cfg (cfg.BOARD_WIDTH * cfg.BOARD_HEIGHT)
      ⟨EMPTY_BOARD, EMPTY_BOARD, [], []⟩ (init_limits cfg)) :=
  main_loop_eq cfg _ _ _ (le_refl _)


/-! ## `maximize` leaves the working board unchanged -/

theorem incr_at_lt (cfg : config) (a : Nat → Nat) (i : Nat) (h : ∀ j, a j < POPULATION_MOD cfg) :
    ∀ j, incr_at cfg a i j < POPULATION_MOD cfg := by
  intro j; unfold incr_at set1; split
  · exact incr_lt cfg _
  · exact h j

theorem foldl_incr_at2_lt (cfg : config) (l : List (Nat × Nat)) (hl : l.Nodup) (f : Nat → Nat → Nat)
    (h : ∀ i j, f i j < POPULATION_MOD cfg) :
    ∀ i j, l.foldl (fun f a => incr_at2 cfg f a.1 a.2) f i j < POPULATION_MOD cfg := by
  intro i j
  rw [foldl_incr_at2 cfg l hl]
  split
  · exact incr_lt cfg _
  · exact h i j

theorem well_typed_place_kind (cfg : config) (k : piece) (b : board) (row column : Nat)
    (hw : well_typed cfg b) : well_typed cfg (place_kind cfg k b row column) := by
  obtain ⟨h1, h2, h3, h4, h5, h6, h7, h8⟩ := hw
  have hn := nodup_FOR_EACH_KNIGHT_ATTACK cfg row column
  have hk := nodup_FOR_EACH_KING_ATTACK cfg row column
  cases k with
  | EMPTY => exact ⟨h1, h2, h3, h4, h5, h6, h7, h8⟩
  | KNIGHT =>
    simp only [place_kind, place_knight_eq]
    exact ⟨incr_at_lt cfg _ _ h1, incr_at_lt cfg _ _ h2, incr_at_lt cfg _ _ h3, incr_at_lt cfg _ _ h4,
      foldl_incr_at2_lt cfg _ hn _ h5, foldl_incr_at2_lt cfg _ hn _ h6,
      foldl_incr_at2_lt cfg _ hk _ h7, score_add_lt cfg _ _⟩
  | BISHOP =>
    simp only [place_kind, place_bishop_eq]
    exact ⟨incr_at_lt cfg _ _ h1, incr_at_lt cfg _ _ h2, incr_at_lt cfg _ _ h3, incr_at_lt cfg _ _ h4,
      h5, foldl_incr_at2_lt cfg _ hn _ h6,
      foldl_incr_at2_lt cfg _ hk _ h7, score_add_lt cfg _ _⟩
  | ROOK =>
    simp only [place_kind, place_rook_eq]
    exact ⟨incr_at_lt cfg _ _ h1, incr_at_lt cfg _ _ h2, incr_at_lt cfg _ _ h3, incr_at_lt cfg _ _ h4,
      h5, foldl_incr_at2_lt cfg _ hn _ h6,
      foldl_incr_at2_lt cfg _ hk _ h7, score_add_lt cfg _ _⟩
  | KING =>
    simp only [place_kind, place_king_eq]
    exact ⟨incr_at_lt cfg _ _ h1, incr_at_lt cfg _ _ h2, incr_at_lt cfg _ _ h3, incr_at_lt cfg _ _ h4,
      foldl_incr_at2_lt cfg _ hk _ h5, foldl_incr_at2_lt cfg _ hn _ h6,
      foldl_incr_at2_lt cfg _ hk _ h7, score_add_lt cfg _ _⟩

theorem place_kind_pieces (cfg : config) (k : piece) (b : board) (row column r c : Nat) :
    (place_kind cfg k b row column).pieces r c =
      if k ≠ EMPTY ∧ r = row ∧ c = column then k else b.pieces r c := by
  cases k <;>
    simp [place_kind, place_knight_eq, place_bishop_eq, place_rook_eq, place_king_eq, set2]

theorem attacked_eq_false (cfg : config) (b : board) (row column : Nat)
    (h : attacked cfg b row column = false) :
    b.rows_attacked row = false ∧ b.columns_attacked column = false ∧
      b.downward_diagonals_attacked (downward_diagonal cfg row column).toNat = false ∧
      b.upward_diagonals_attacked (upward_diagonal row column).toNat = false ∧
      b.spot_attacks row column = 0 := by
  unfold attacked at h
  simpa [Bool.or_eq_false_iff, and_assoc] using h

theorem unplace_place_kind (cfg : config) (k : piece) (b : board) (row column : Nat)
    (hw : well_typed cfg b) (hempty : b.pieces row column = EMPTY)
    (ha : attacked cfg b row column = false) :
    unplace_kind cfg k (place_kind cfg k b row column) row column = b := by
  obtain ⟨hr, hc, hd, hu, _⟩ := attacked_eq_false cfg b row column ha
  cases k with
  | EMPTY => rfl
  | KNIGHT => exact unplace_place_knight cfg b row column hw hempty
  | BISHOP => exact unplace_place_bishop cfg b row column hw hempty hd hu
  | ROOK => exact unplace_place_rook cfg b row column hw hempty hr hc
  | KING => exact unplace_place_king cfg b row column hw hempty

/-- Row and column of a scan index on the board. -/
theorem square_of_index (cfg : config) (index : Nat)
    (h : index < cfg.BOARD_WIDTH * cfg.BOARD_HEIGHT) :
    index / cfg.BOARD_WIDTH < cfg.BOARD_HEIGHT ∧ index % cfg.BOARD_WIDTH < cfg.BOARD_WIDTH ∧
      index / cfg.BOARD_WIDTH * cfg.BOARD_WIDTH + index % cfg.BOARD_WIDTH = index := by
  have hW : 0 < cfg.BOARD_WIDTH := by
    rcases Nat.eq_zero_or_pos cfg.BOARD_WIDTH with h0 | h0
    · rw [h0] at h; simp at h
    · exact h0
  refine ⟨?_, Nat.mod_lt _ hW, Nat.div_add_mod' _ _⟩
  rw [Nat.div_lt_iff_lt_mul hW, Nat.mul_comm]; exact h

theorem enter_update_board (s : state) (index : Nat) : (enter_update s index).board = s.board := by
  unfold enter_update; simp only []; split <;> rfl

theorem test_update_board (s : state) (index limit : Nat) :
    (test_update s index limit).board = s.board := rfl

theorem empty_from_place_kind (cfg : config) (k : piece) (b : board) (index : Nat)
    (h : index < cfg.BOARD_WIDTH * cfg.BOARD_HEIGHT) (he : empty_from cfg b index) :
    empty_from cfg (place_kind cfg k b (index / cfg.BOARD_WIDTH) (index % cfg.BOARD_WIDTH))
      (index + 1) := by
  obtain ⟨_, _, h3⟩ := square_of_index cfg index h
  intro r c hr hc hi
  rw [place_kind_pieces]
  have hne : ¬ (k ≠ EMPTY ∧ r = index / cfg.BOARD_WIDTH ∧ c = index % cfg.BOARD_WIDTH) := by
    rintro ⟨_, rfl, rfl⟩; omega
  rw [if_neg hne]
  exact he r c hr hc (by omega)

theorem attempt_board (cfg : config) (k : piece) (rec : state → state) (s : state) (index : Nat)
    (h : index < cfg.BOARD_WIDTH * cfg.BOARD_HEIGHT)
    (hw : well_typed cfg s.board) (he : empty_from cfg s.board index)
    (ha : attacked cfg s.board (index / cfg.BOARD_WIDTH) (index % cfg.BOARD_WIDTH) = false)
    (hrec : ∀ t, well_typed cfg t.board → empty_from cfg t.board (index + 1) →
      (rec t).board = t.board) :
    (attempt cfg k rec s (index / cfg.BOARD_WIDTH) (index % cfg.BOARD_WIDTH)).board = s.board := by
  obtain ⟨h1, h2, h3⟩ := square_of_index cfg index h
  unfold attempt
  split
  · simp only []
    rw [hrec _ (well_typed_place_kind cfg k _ _ _ hw) (empty_from_place_kind cfg k _ index h he)]
    exact unplace_place_kind cfg k s.board _ _ hw (he _ _ h1 h2 (by omega)) ha
  · rfl

theorem attempts_board (cfg : config) (rec : state → state) (s : state) (index : Nat)
    (h : index < cfg.BOARD_WIDTH * cfg.BOARD_HEIGHT)
    (hw : well_typed cfg s.board) (he : empty_from cfg s.board index)
    (ha : attacked cfg s.board (index / cfg.BOARD_WIDTH) (index % cfg.BOARD_WIDTH) = false)
    (hrec : ∀ t, well_typed cfg t.board → empty_from cfg t.board (index + 1) →
      (rec t).board = t.board) :
    (attempts cfg rec s (index / cfg.BOARD_WIDTH) (index % cfg.BOARD_WIDTH)).board = s.board := by
  unfold attempts
  simp only []
  have e1 := attempt_board cfg ROOK rec s index h hw he ha hrec
  have e2 := attempt_board cfg BISHOP rec _ index h (e1 ▸ hw) (e1 ▸ he) (e1 ▸ ha) hrec
  have e3 := attempt_board cfg KING rec _ index h (e2 ▸ e1 ▸ hw) (e2 ▸ e1 ▸ he) (e2 ▸ e1 ▸ ha) hrec
  have e4 := attempt_board cfg KNIGHT rec _ index h (e3 ▸ e2 ▸ e1 ▸ hw) (e3 ▸ e2 ▸ e1 ▸ he)
    (e3 ▸ e2 ▸ e1 ▸ ha) hrec
  rw [e4, e3, e2, e1]

theorem run_board (cfg : config) (limits : Nat → Nat) :
    ∀ (remaining : Nat) (s : state), remaining ≤ cfg.BOARD_WIDTH * cfg.BOARD_HEIGHT →
      well_typed cfg s.board →
      empty_from cfg s.board (cfg.BOARD_WIDTH * cfg.BOARD_HEIGHT - remaining) →
      (run cfg limits remaining s).board = s.board := by
  intro remaining
  induction remaining with
  | zero => intro s _ _ _; exact enter_update_board s _
  | succ remaining ih =>
    intro s hrem hw he
    have hidx : cfg.BOARD_WIDTH * cfg.BOARD_HEIGHT - (remaining + 1) <
        cfg.BOARD_WIDTH * cfg.BOARD_HEIGHT := by omega
    have hnext : cfg.BOARD_WIDTH * cfg.BOARD_HEIGHT - (remaining + 1) + 1 =
        cfg.BOARD_WIDTH * cfg.BOARD_HEIGHT - remaining := by omega
    have hrec : ∀ t, well_typed cfg t.board →
        empty_from cfg t.board (cfg.BOARD_WIDTH * cfg.BOARD_HEIGHT - (remaining + 1) + 1) →
        (run cfg limits remaining t).board = t.board := by
      intro t ht1 ht2
      exact ih t (by omega) ht1 (hnext ▸ ht2)
    rw [run]
    simp only [run_step]
    generalize hs1 : enter_update s (cfg.BOARD_WIDTH * cfg.BOARD_HEIGHT - (remaining + 1)) = s1
    have hb1 : s1.board = s.board := by rw [← hs1]; exact enter_update_board s _
    generalize hs2 : test_update s1 (cfg.BOARD_WIDTH * cfg.BOARD_HEIGHT - (remaining + 1))
      (limits (cfg.BOARD_WIDTH * cfg.BOARD_HEIGHT - (remaining + 1))) = s2
    have hb2 : s2.board = s.board := by rw [← hs2, test_update_board, hb1]
    split
    · exact hb2
    · have hw2 : well_typed cfg s2.board := hb2 ▸ hw
      have he2 : empty_from cfg s2.board _ := hb2 ▸ he
      split
      · rw [hrec s2 hw2 (fun r c hr hc hi => he2 r c hr hc (by omega)), hb2]
      · rename_i hna
        have ha := Bool.eq_false_iff.2 hna
        have e := attempts_board cfg (run cfg limits remaining) s2 _ hidx hw2 he2 ha hrec
        rw [hrec _ (e ▸ hw2) (fun r c hr hc hi => (e ▸ he2) r c hr hc (by omega)), e, hb2]


/-! ## The best board only improves -/

theorem improving_append (m : board) (l1 l2 : List board) :
    improving m (l1 ++ l2) ↔ improving m l1 ∧ improving (last_of m l1) l2 := by
  induction l1 generalizing m with
  | nil => simp [improving, last_of]
  | cons b l ih => simp [improving, last_of, ih, and_assoc]

theorem last_of_append (m : board) (l1 l2 : List board) :
    last_of m (l1 ++ l2) = last_of (last_of m l1) l2 := by
  induction l1 generalizing m with
  | nil => rfl
  | cons b l ih => simp [last_of, ih]

theorem improving_score_le (m : board) (l : List board) (h : improving m l) :
    m.score ≤ (last_of m l).score := by
  induction l generalizing m with
  | nil => exact le_refl _
  | cons b l ih => exact le_trans (le_of_lt h.1) (ih b h.2)

theorem extends_to_of_eq (s s' : state) (h : List event) (ho : s'.output = s.output)
    (hm : s'.maximum_board = s.maximum_board) (hh : s'.history = s.history ++ h)
    (hs : ∀ e ∈ h, ∀ i b, e ≠ event.start i b) : extends_to s s' :=
  ⟨[], h, by simp [ho], hh, trivial, by simp [hm, last_of], by simp, hs⟩

theorem extends_to_refl (s : state) : extends_to s s :=
  extends_to_of_eq s s [] rfl rfl (by simp) (by simp)

theorem extends_to_trans {s s' s'' : state} (h1 : extends_to s s') (h2 : extends_to s' s'') :
    extends_to s s'' := by
  obtain ⟨n1, k1, a1, b1, c1, d1, e1, f1⟩ := h1
  obtain ⟨n2, k2, a2, b2, c2, d2, e2, f2⟩ := h2
  refine ⟨n1 ++ n2, k1 ++ k2, by rw [a2, a1, List.append_assoc], by rw [b2, b1, List.append_assoc],
    ?_, ?_, ?_, ?_⟩
  · rw [improving_append]; exact ⟨c1, d1 ▸ c2⟩
  · rw [last_of_append, d2, d1]
  · intro b hb
    rcases List.mem_append.1 hb with hb | hb
    · obtain ⟨m, i, hm, hlt⟩ := e1 b hb
      exact ⟨m, i, List.mem_append_left _ hm, hlt⟩
    · obtain ⟨m, i, hm, hlt⟩ := e2 b hb
      exact ⟨m, i, List.mem_append_right _ hm, hlt⟩
  · intro e he
    rcases List.mem_append.1 he with he | he
    · exact f1 e he
    · exact f2 e he

theorem extends_to_enter_update (s : state) (index : Nat) : extends_to s (enter_update s index) := by
  unfold enter_update
  simp only []
  split
  · rename_i hlt
    refine ⟨[s.board], [event.enter s.board s.maximum_board index], rfl, rfl, ?_, rfl, ?_, ?_⟩
    · exact ⟨hlt, trivial⟩
    · intro b hb
      rw [List.mem_singleton] at hb
      subst hb
      exact ⟨s.maximum_board, index, List.mem_singleton.2 rfl, hlt⟩
    · intro e he i b
      rw [List.mem_singleton] at he
      subst he
      exact fun h => event.noConfusion h
  · refine extends_to_of_eq _ _ [event.enter s.board s.maximum_board index] rfl rfl rfl ?_
    intro e he i b
    rw [List.mem_singleton] at he
    subst he
    exact fun h => event.noConfusion h

theorem extends_to_test_update (s : state) (index limit : Nat) :
    extends_to s (test_update s index limit) := by
  refine extends_to_of_eq _ _ [event.test index s.board.score limit] rfl rfl rfl ?_
  intro e he i b
  rw [List.mem_singleton] at he
  subst he
  exact fun h => event.noConfusion h

theorem extends_to_attempt (cfg : config) (k : piece) (rec : state → state) (s : state)
    (row column : Nat) (hrec : ∀ t, extends_to t (rec t)) :
    extends_to s (attempt cfg k rec s row column) := by
  unfold attempt
  split
  · simp only []
    have q0 : extends_to s { s with board := place_kind cfg k s.board row column } :=
      extends_to_of_eq _ _ [] rfl rfl (by simp) (by simp)
    refine extends_to_trans (extends_to_trans q0 (hrec _)) ?_
    refine extends_to_of_eq _ _ [event.unplaced _] rfl rfl rfl ?_
    intro e he i b
    rw [List.mem_singleton] at he
    subst he
    exact fun h => event.noConfusion h
  · exact extends_to_refl s

theorem extends_to_attempts (cfg : config) (rec : state → state) (s : state)
    (row column : Nat) (hrec : ∀ t, extends_to t (rec t)) :
    extends_to s (attempts cfg rec s row column) := by
  unfold attempts
  exact extends_to_trans (extends_to_trans (extends_to_trans
    (extends_to_attempt cfg ROOK rec s row column hrec)
    (extends_to_attempt cfg BISHOP rec _ row column hrec))
    (extends_to_attempt cfg KING rec _ row column hrec))
    (extends_to_attempt cfg KNIGHT rec _ row column hrec)

theorem extends_to_run (cfg : config) (limits : Nat → Nat) :
    ∀ (remaining : Nat) (s : state), extends_to s (run cfg limits remaining s) := by
  intro remaining
  induction remaining with
  | zero => intro s; exact extends_to_enter_update s _
  | succ remaining ih =>
    intro s
    rw [run]
    simp only [run_step]
    generalize hs1 : enter_update s (cfg.BOARD_WIDTH * cfg.BOARD_HEIGHT - (remaining + 1)) = s1
    have q1 : extends_to s s1 := hs1 ▸ extends_to_enter_update s _
    generalize hs2 : test_update s1 (cfg.BOARD_WIDTH * cfg.BOARD_HEIGHT - (remaining + 1))
      (limits (cfg.BOARD_WIDTH * cfg.BOARD_HEIGHT - (remaining + 1))) = s2
    have q2 : extends_to s1 s2 := hs2 ▸ extends_to_test_update s1 _ _
    refine extends_to_trans (extends_to_trans q1 q2) ?_
    split
    · exact extends_to_refl _
    · split
      · exact ih _
      · exact extends_to_trans (extends_to_attempts cfg _ _ _ _ ih) (ih _)

theorem empty_from_EMPTY_BOARD (cfg : config) (index : Nat) : empty_from cfg EMPTY_BOARD index :=
  fun _ _ _ _ _ => rfl

/-- What the second loop of `main` does to the state, when it starts on the empty board. -/
theorem run_loop_extends (cfg : config) :
    ∀ (i : Nat) (s : state) (limits : Nat → Nat), i ≤ cfg.BOARD_WIDTH * cfg.BOARD_HEIGHT →
      s.board = EMPTY_BOARD →
      ∃ new h, (run_loop cfg i s limits).1.output = s.output ++ new ∧
        (run_loop cfg i s limits).1.history = s.history ++ h ∧
        improving s.maximum_board new ∧
        (run_loop cfg i s limits).1.maximum_board = last_of s.maximum_board new ∧
        (run_loop cfg i s limits).1.board = EMPTY_BOARD ∧
        (∀ b ∈ new, ∃ m j, event.enter b m j ∈ h ∧ m.score < b.score) ∧
        (∀ e ∈ h, ∀ j b, e = event.start j b → b = EMPTY_BOARD) := by
  intro i
  induction i with
  | zero =>
    intro s limits _ hb
    exact ⟨[], [], by simp [run_loop], by simp [run_loop], trivial, rfl, hb, by simp, by simp⟩
  | succ i ih =>
    intro s limits hi hb
    rw [run_loop]
    generalize hs0 : ({ s with history := s.history ++ [event.start i s.board] } : state) = s0
    have hb0 : s0.board = EMPTY_BOARD := by rw [← hs0]; exact hb
    have hm0 : s0.maximum_board = s.maximum_board := by rw [← hs0]
    have ho0 : s0.output = s.output := by rw [← hs0]
    have hh0 : s0.history = s.history ++ [event.start i s.board] := by rw [← hs0]
    generalize hs1 : run cfg limits (cfg.BOARD_WIDTH * cfg.BOARD_HEIGHT - i) s0 = s1
    have hb1 : s1.board = EMPTY_BOARD := by
      rw [← hs1, run_board cfg limits _ s0 (by omega) (hb0 ▸ well_typed_EMPTY_BOARD cfg)
        (hb0 ▸ empty_from_EMPTY_BOARD cfg _), hb0]
    obtain ⟨n1, k1, a1, b1, c1, d1, e1, f1⟩ : extends_to s0 s1 := hs1 ▸ extends_to_run cfg limits _ s0
    obtain ⟨n2, k2, a2, b2, c2, d2, g2, e2, f2⟩ :=
      ih s1 (set1 limits i s1.maximum_board.score) (by omega) hb1
    refine ⟨n1 ++ n2, [event.start i s.board] ++ k1 ++ k2, ?_, ?_, ?_, ?_, g2, ?_, ?_⟩
    · rw [a2, a1, ho0, List.append_assoc]
    · rw [b2, b1, hh0]; simp only [List.append_assoc]
    · rw [improving_append]; exact ⟨hm0 ▸ c1, by rw [← hm0, ← d1]; exact c2⟩
    · rw [last_of_append, d2, d1, hm0]
    · intro b hbm
      rcases List.mem_append.1 hbm with hbm | hbm
      · obtain ⟨m, j, hm, hlt⟩ := e1 b hbm
        exact ⟨m, j, List.mem_append_left _ (List.mem_append_right _ hm), hlt⟩
      · obtain ⟨m, j, hm, hlt⟩ := e2 b hbm
        exact ⟨m, j, List.mem_append_right _ hm, hlt⟩
    · intro e he j b hej
      rcases List.mem_append.1 he with he | he
      · rcases List.mem_append.1 he with he | he
        · rw [List.mem_singleton] at he
          rw [he] at hej
          injection hej with _ h2
          rw [← h2]; exact hb
        · exact absurd hej (f1 e he j b)
      · exact f2 e he j b hej

/-- C5. `maximize` leaves the working board unchanged: started with an index
in `[0, BOARD_WIDTH * BOARD_HEIGHT]`, any `limits`, any best board, and a
board of well-typed counters whose squares of scan index `index` or more are
empty, it returns (given more fuel than squares left) with a board equal to
the one on entry; and every run that `main` starts begins from the empty
board. -/
theorem maximize_preserves_board (cfg : config) :
    (∀ (limits : Nat → Nat) (fuel index : Nat) (s : state),
      index ≤ cfg.BOARD_WIDTH * cfg.BOARD_HEIGHT →
      cfg.BOARD_WIDTH * cfg.BOARD_HEIGHT - index < fuel →
      well_typed cfg s.board → empty_from cfg s.board index →
      ∃ s', maximize cfg limits fuel s index = some s' ∧ s'.board = s.board) ∧
    (∃ r, main cfg = some r ∧ r.1.board = EMPTY_BOARD ∧
      ∀ i b, event.start i b ∈ r.1.history → b = EMPTY_BOARD) := by
  constructor
  · intro limits fuel index s hidx hfuel hw he
    refine ⟨_, maximize_total cfg limits fuel index s hidx hfuel, ?_⟩
    exact run_board cfg limits _ s (by omega)
      hw (by rw [Nat.sub_sub_self hidx]; exact he)
  · refine ⟨_, main_eq cfg, ?_⟩
    obtain ⟨n, h, _, hh, _, _, hb, _, hs⟩ := run_loop_extends cfg _
      ⟨EMPTY_BOARD, EMPTY_BOARD, [], []⟩ (init_limits cfg) (le_refl _) rfl
    refine ⟨hb, ?_⟩
    intro i b hmem
    rw [hh] at hmem
    exact hs _ (by simpa using hmem) i b rfl

theorem maximize_preserves_board_witness :
    ∃ s', maximize army_config (fun _ => 0) 65 ⟨EMPTY_BOARD, EMPTY_BOARD, [], []⟩ 0 = some s' ∧
      s'.board = EMPTY_BOARD :=
  (maximize_preserves_board army_config).1 (fun _ => 0) 65 0 ⟨EMPTY_BOARD, EMPTY_BOARD, [], []⟩
    (by decide) (by decide) (well_typed_EMPTY_BOARD army_config)
    (empty_from_EMPTY_BOARD army_config 0)

/-- C8. Monotonic improvement of the best board. For every call of `maximize`
(index in range, enough fuel): the boards `new` it prints are appended to the
output, each scores strictly more than the best board it replaces (the first
one more than the best board on entry), each is the working board of a
recorded entry of `maximize` whose best board scored strictly less, the best
board on return is the last board printed (the one on entry if none was),
and so its score is at least the score on entry. Over the whole of `main`
the printed boards, starting from the empty best board, improve strictly and
the final best board is the last of them. -/
theorem best_board_improves (cfg : config) :
    (∀ (limits : Nat → Nat) (fuel index : Nat) (s : state),
      index ≤ cfg.BOARD_WIDTH * cfg.BOARD_HEIGHT →
      cfg.BOARD_WIDTH * cfg.BOARD_HEIGHT - index < fuel →
      ∃ s' new, maximize cfg limits fuel s index = some s' ∧
        s.maximum_board.score ≤ s'.maximum_board.score ∧
        s'.output = s.output ++ new ∧ improving s.maximum_board new ∧
        s'.maximum_board = last_of s.maximum_board new ∧
        ∀ b ∈ new, ∃ m i, event.enter b m i ∈ s'.history ∧ m.score < b.score) ∧
    (∃ r, main cfg = some r ∧ improving EMPTY_BOARD r.1.output ∧
      r.1.maximum_board = last_of EMPTY_BOARD r.1.output ∧
      ∀ b ∈ r.1.output, ∃ m i, event.enter b m i ∈ r.1.history ∧ m.score < b.score) := by
  constructor
  · intro limits fuel index s hidx hfuel
    obtain ⟨new, h, a, b, c, d, e, _⟩ := extends_to_run cfg limits
      (cfg.BOARD_WIDTH * cfg.BOARD_HEIGHT - index) s
    refine ⟨_, new, maximize_total cfg limits fuel index s hidx hfuel, ?_, a, c, d, ?_⟩
    · rw [d]; exact improving_score_le _ _ c
    · intro x hx
      obtain ⟨m, i, hm, hlt⟩ := e x hx
      exact ⟨m, i, by rw [b]; exact List.mem_append_right _ hm, hlt⟩
  · refine ⟨_, main_eq cfg, ?_⟩
    obtain ⟨n, h, ho, hh, hi, hl, _, he, _⟩ := run_loop_extends cfg _
      ⟨EMPTY_BOARD, EMPTY_BOARD, [], []⟩ (init_limits cfg) (le_refl _) rfl
    simp only [List.nil_append] at ho hh
    rw [ho, hh]
    exact ⟨hi, hl, he⟩

theorem best_board_improves_witness :
    ∃ s' new, maximize army_config (fun _ => 0) 65 ⟨EMPTY_BOARD, EMPTY_BOARD, [], []⟩ 0 = some s' ∧
      (EMPTY_BOARD).score ≤ s'.maximum_board.score ∧
      s'.output = [] ++ new ∧ improving EMPTY_BOARD new ∧
      s'.maximum_board = last_of EMPTY_BOARD new ∧
      ∀ b ∈ new, ∃ m i, event.enter b m i ∈ s'.history ∧ m.score < b.score :=
  (best_board_improves army_config).1 (fun _ => 0) 65 0 ⟨EMPTY_BOARD, EMPTY_BOARD, [], []⟩
    (by decide) (by decide)


/-! ## The rook scenario and the 2x2 board -/

/-- C9. Rook scenario, for every square of the board: after `place_rook` on the
empty board the population of the rook's row and of its column is 1 and the
row and the column are flagged as attacked; after the matching
`unplace_rook` the two populations are 0 and the two flags are false. -/
theorem rook_scenario (cfg : config) (row column : Nat) (hr : row < cfg.BOARD_HEIGHT)
    (hc : column < cfg.BOARD_WIDTH) (hs : population_static_assert cfg) :
    (place_rook cfg EMPTY_BOARD row column).row_population row = 1 ∧
    (place_rook cfg EMPTY_BOARD row column).column_population column = 1 ∧
    (place_rook cfg EMPTY_BOARD row column).rows_attacked row = true ∧
    (place_rook cfg EMPTY_BOARD row column).columns_attacked column = true ∧
    (unplace_rook cfg (place_rook cfg EMPTY_BOARD row column) row column).row_population row = 0 ∧
    (unplace_rook cfg (place_rook cfg EMPTY_BOARD row column) row column).column_population column
      = 0 ∧
    (unplace_rook cfg (place_rook cfg EMPTY_BOARD row column) row column).rows_attacked row
      = false ∧
    (unplace_rook cfg (place_rook cfg EMPTY_BOARD row column) row column).columns_attacked column
      = false := by
  have hM : 1 < POPULATION_MOD cfg := by
    have h1 : 0 < cfg.BOARD_WIDTH * cfg.BOARD_HEIGHT := Nat.mul_pos (by omega) (by omega)
    have h2 := Nat.mod_lt (cfg.BOARD_WIDTH * cfg.BOARD_HEIGHT) (POPULATION_MOD_pos cfg)
    unfold population_static_assert at hs
    omega
  have e : incr cfg 0 = 1 := incr_exact cfg (by omega)
  rw [unplace_place_rook cfg EMPTY_BOARD row column (well_typed_EMPTY_BOARD cfg) rfl rfl rfl]
  rw [place_rook_eq]
  simp [incr_at, set1, EMPTY_BOARD, e]

theorem rook_scenario_witness :
    (place_rook army_config EMPTY_BOARD 2 5).row_population 2 = 1 ∧
    (place_rook army_config EMPTY_BOARD 2 5).column_population 5 = 1 ∧
    (place_rook army_config EMPTY_BOARD 2 5).rows_attacked 2 = true ∧
    (place_rook army_config EMPTY_BOARD 2 5).columns_attacked 5 = true ∧
    (unplace_rook army_config (place_rook army_config EMPTY_BOARD 2 5) 2 5).row_population 2 = 0 ∧
    (unplace_rook army_config (place_rook army_config EMPTY_BOARD 2 5) 2 5).column_population 5
      = 0 ∧
    (unplace_rook army_config (place_rook army_config EMPTY_BOARD 2 5) 2 5).rows_attacked 2
      = false ∧
    (unplace_rook army_config (place_rook army_config EMPTY_BOARD 2 5) 2 5).columns_attacked 5
      = false :=
  rook_scenario army_config 2 5 (by decide) (by decide) (by decide)

/-- The configuration of the 2x2 scenario: width 2, height 2, everything else as in the source. -/
theorem two_by_two_config : ({ army_config with BOARD_WIDTH := 2, BOARD_HEIGHT := 2 } : config) =
    ⟨2, 2, 8, 64⟩ := rfl

/-- C6, as stated, fails: on the 2x2 board the complete computation does not end
with a best score of 28. -/
theorem two_by_two_best_score_ne_28 :
    ¬ ((main ⟨2, 2, 8, 64⟩).map (fun r => r.1.maximum_board.score) = some 28) := by
  decide!

/-- C6, amended. On the 2x2 board the complete computation ends with a best
score of 56: two rooks on the squares `(0, 1)` and `(1, 0)` of a diagonal,
which do not attack each other, the other two squares being empty. -/
theorem two_by_two_best_score :
    (main ⟨2, 2, 8, 64⟩).map (fun r => (r.1.maximum_board.score,
      r.1.maximum_board.pieces 0 0, r.1.maximum_board.pieces 0 1,
      r.1.maximum_board.pieces 1 0, r.1.maximum_board.pieces 1 1)) =
      some (56, EMPTY, ROOK, ROOK, EMPTY) := by
  decide!
/-! ## The fields of a board after a placement -/

theorem place_kind_rows_attacked (cfg : config) (k : piece) (b : board) (row column r : Nat) :
    (place_kind cfg k b row column).rows_attacked r =
      if k = ROOK ∧ r = row then true else b.rows_attacked r := by
  cases k <;>
    simp [place_kind, place_knight_eq, place_bishop_eq, place_rook_eq, place_king_eq, set1]

theorem place_kind_columns_attacked (cfg : config) (k : piece) (b : board) (row column c : Nat) :
    (place_kind cfg k b row column).columns_attacked c =
      if k = ROOK ∧ c = column then true else b.columns_attacked c := by
  cases k <;>
    simp [place_kind, place_knight_eq, place_bishop_eq, place_rook_eq, place_king_eq, set1]

theorem place_kind_downward_diagonals_attacked (cfg : config) (k : piece) (b : board)
    (row column d : Nat) :
    (place_kind cfg k b row column).downward_diagonals_attacked d =
      if k = BISHOP ∧ d = (downward_diagonal cfg row column).toNat then true
      else b.downward_diagonals_attacked d := by
  cases k <;>
    simp [place_kind, place_knight_eq, place_bishop_eq, place_rook_eq, place_king_eq, set1]

theorem place_kind_upward_diagonals_attacked (cfg : config) (k : piece) (b : board)
    (row column d : Nat) :
    (place_kind cfg k b row column).upward_diagonals_attacked d =
      if k = BISHOP ∧ d = (upward_diagonal row column).toNat then true
      else b.upward_diagonals_attacked d := by
  cases k <;>
    simp [place_kind, place_knight_eq, place_bishop_eq, place_rook_eq, place_king_eq, set1]

theorem place_kind_row_population (cfg : config) (k : piece) (b : board) (row column r : Nat) :
    (place_kind cfg k b row column).row_population r =
      if k ≠ EMPTY ∧ r = row then incr cfg (b.row_population r) else b.row_population r := by
  by_cases h : r = row
  · subst h
    cases k <;>
      simp [place_kind, place_knight_eq, place_bishop_eq, place_rook_eq, place_king_eq, set1,
        incr_at]
  · cases k <;>
      simp [place_kind, place_knight_eq, place_bishop_eq, place_rook_eq, place_king_eq, set1,
        incr_at, h]

theorem place_kind_column_population (cfg : config) (k : piece) (b : board) (row column c : Nat) :
    (place_kind cfg k b row column).column_population c =
      if k ≠ EMPTY ∧ c = column then incr cfg (b.column_population c)
      else b.column_population c := by
  by_cases h : c = column
  · subst h
    cases k <;>
      simp [place_kind, place_knight_eq, place_bishop_eq, place_rook_eq, place_king_eq, set1,
        incr_at]
  · cases k <;>
      simp [place_kind, place_knight_eq, place_bishop_eq, place_rook_eq, place_king_eq, set1,
        incr_at, h]

theorem place_kind_downward_diagonal_population (cfg : config) (k : piece) (b : board)
    (row column d : Nat) :
    (place_kind cfg k b row column).downward_diagonal_population d =
      if k ≠ EMPTY ∧ d = (downward_diagonal cfg row column).toNat then
        incr cfg (b.downward_diagonal_population d)
      else b.downward_diagonal_population d := by
  by_cases h : d = (downward_diagonal cfg row column).toNat
  · subst h
    cases k <;>
      simp [place_kind, place_knight_eq, place_bishop_eq, place_rook_eq, place_king_eq, set1,
        incr_at]
  · cases k <;>
      simp [place_kind, place_knight_eq, place_bishop_eq, place_rook_eq, place_king_eq, set1,
        incr_at, h]

theorem place_kind_upward_diagonal_population (cfg : config) (k : piece) (b : board)
    (row column d : Nat) :
    (place_kind cfg k b row column).upward_diagonal_population d =
      if k ≠ EMPTY ∧ d = (upward_diagonal row column).toNat then
        incr cfg (b.upward_diagonal_population d)
      else b.upward_diagonal_population d := by
  by_cases h : d = (upward_diagonal row column).toNat
  · subst h
    cases k <;>
      simp [place_kind, place_knight_eq, place_bishop_eq, place_rook_eq, place_king_eq, set1,
        incr_at]
  · cases k <;>
      simp [place_kind, place_knight_eq, place_bishop_eq, place_rook_eq, place_king_eq, set1,
        incr_at, h]

theorem place_kind_spot_attacks (cfg : config) (k : piece) (b : board) (row column r c : Nat) :
    (place_kind cfg k b row column).spot_attacks r c =
      if (k = KING ∧ (r, c) ∈ FOR_EACH_KING_ATTACK cfg row column) ∨
          (k = KNIGHT ∧ (r, c) ∈ FOR_EACH_KNIGHT_ATTACK cfg row column) then
        incr cfg (b.spot_attacks r c)
      else b.spot_attacks r c := by
  cases k <;>
    simp [place_kind, place_knight_eq, place_bishop_eq, place_rook_eq, place_king_eq,
      foldl_incr_at2, nodup_FOR_EACH_KING_ATTACK, nodup_FOR_EACH_KNIGHT_ATTACK]

theorem place_kind_knight_population (cfg : config) (k : piece) (b : board)
    (row column r c : Nat) :
    (place_kind cfg k b row column).knight_population r c =
      if k ≠ EMPTY ∧ (r, c) ∈ FOR_EACH_KNIGHT_ATTACK cfg row column then
        incr cfg (b.knight_population r c)
      else b.knight_population r c := by
  cases k <;>
    simp [place_kind, place_knight_eq, place_bishop_eq, place_rook_eq, place_king_eq,
      foldl_incr_at2, nodup_FOR_EACH_KING_ATTACK, nodup_FOR_EACH_KNIGHT_ATTACK]

theorem place_kind_king_population (cfg : config) (k : piece) (b : board)
    (row column r c : Nat) :
    (place_kind cfg k b row column).king_population r c =
      if k ≠ EMPTY ∧ (r, c) ∈ FOR_EACH_KING_ATTACK cfg row column then
        incr cfg (b.king_population r c)
      else b.king_population r c := by
  cases k <;>
    simp [place_kind, place_knight_eq, place_bishop_eq, place_rook_eq, place_king_eq,
      foldl_incr_at2, nodup_FOR_EACH_KING_ATTACK, nodup_FOR_EACH_KNIGHT_ATTACK]

theorem place_kind_score (cfg : config) (k : piece) (b : board) (row column : Nat)
    (h : b.score < SCORE_MOD cfg) :
    (place_kind cfg k b row column).score = score_add cfg b.score (piece_value k) := by
  cases k <;>
    simp [place_kind, place_knight_eq, place_bishop_eq, place_rook_eq, place_king_eq,
      piece_value, score_add, Nat.mod_eq_of_lt h]

/-! ## Counting and scan order -/

theorem count_below_succ (p : Nat → Prop) [DecidablePred p] (n : Nat) :
    count_below p (n + 1) = count_below p n + if p n then 1 else 0 := rfl

theorem count_below_le (p : Nat → Prop) [DecidablePred p] (n : Nat) : count_below p n ≤ n := by
  induction n with
  | zero => exact le_refl _
  | succ n ih => unfold count_below; split <;> omega

theorem count_below_congr (p q : Nat → Prop) [DecidablePred p] [DecidablePred q] (n : Nat)
    (h : ∀ j, j < n → (p j ↔ q j)) : count_below p n = count_below q n := by
  induction n with
  | zero => rfl
  | succ n ih =>
    unfold count_below
    rw [ih (fun j hj => h j (Nat.lt_succ_of_lt hj))]
    simp only [h n (Nat.lt_succ_self n)]

theorem count_below_eq_zero (p : Nat → Prop) [DecidablePred p] (n : Nat) :
    count_below p n = 0 ↔ ∀ j, j < n → ¬ p j := by
  induction n with
  | zero => simp [count_below]
  | succ n ih =>
    unfold count_below
    constructor
    · intro h j hj
      have h1 : count_below p n = 0 := by omega
      rcases Nat.lt_succ_iff_lt_or_eq.1 hj with hlt | rfl
      · exact ih.1 h1 j hlt
      · intro hp; simp [hp] at h
    · intro h
      have h1 := ih.2 (fun j hj => h j (Nat.lt_succ_of_lt hj))
      simp [h1, h n (Nat.lt_succ_self n)]

theorem count_below_ne_zero (p : Nat → Prop) [DecidablePred p] (n : Nat) :
    count_below p n ≠ 0 ↔ ∃ j, j < n ∧ p j := by
  rw [Ne, count_below_eq_zero]
  push_neg
  rfl

theorem value_below_succ (cfg : config) (P : Nat → Nat → piece) (n : Nat) :
    value_below cfg P (n + 1) =
      value_below cfg P n + piece_value (P (n / cfg.BOARD_WIDTH) (n % cfg.BOARD_WIDTH)) := rfl

theorem value_below_congr (cfg : config) (P Q : Nat → Nat → piece) (n : Nat)
    (h : ∀ j, j < n → piece_at cfg P j = piece_at cfg Q j) :
    value_below cfg P n = value_below cfg Q n := by
  induction n with
  | zero => rfl
  | succ n ih =>
    unfold value_below
    rw [ih (fun j hj => h j (Nat.lt_succ_of_lt hj))]
    have := h n (Nat.lt_succ_self n)
    unfold piece_at at this
    rw [this]

theorem piece_value_le (k : piece) : piece_value k ≤ ROOK_VALUE := by
  cases k <;> decide

theorem scan_index (cfg : config) (j : Nat) :
    j / cfg.BOARD_WIDTH * cfg.BOARD_WIDTH + j % cfg.BOARD_WIDTH = j :=
  Nat.div_add_mod' j cfg.BOARD_WIDTH

theorem square_index (cfg : config) (r c : Nat) (hc : c < cfg.BOARD_WIDTH) :
    (r * cfg.BOARD_WIDTH + c) / cfg.BOARD_WIDTH = r ∧
      (r * cfg.BOARD_WIDTH + c) % cfg.BOARD_WIDTH = c := by
  have hW : 0 < cfg.BOARD_WIDTH := by omega
  constructor
  · rw [Nat.add_comm, Nat.add_mul_div_right _ _ hW, Nat.div_eq_of_lt hc, Nat.zero_add]
  · rw [Nat.add_comm, Nat.add_mul_mod_self_right, Nat.mod_eq_of_lt hc]

theorem scan_eq_iff (cfg : config) (j n : Nat) :
    (j / cfg.BOARD_WIDTH = n / cfg.BOARD_WIDTH ∧ j % cfg.BOARD_WIDTH = n % cfg.BOARD_WIDTH) ↔
      j = n := by
  constructor
  · rintro ⟨h1, h2⟩
    rw [← scan_index cfg j, ← scan_index cfg n, h1, h2]
  · rintro rfl; exact ⟨rfl, rfl⟩

/-- Row-major order: an earlier square is in an earlier row, or in the same
row and an earlier column. -/
theorem scan_lt_iff (cfg : config) (j n : Nat) (hW : 0 < cfg.BOARD_WIDTH) :
    j < n ↔ j / cfg.BOARD_WIDTH < n / cfg.BOARD_WIDTH ∨
      (j / cfg.BOARD_WIDTH = n / cfg.BOARD_WIDTH ∧ j % cfg.BOARD_WIDTH < n % cfg.BOARD_WIDTH) := by
  have hj := scan_index cfg j
  have hn := scan_index cfg n
  have hjc := Nat.mod_lt j hW
  have hnc := Nat.mod_lt n hW
  generalize j / cfg.BOARD_WIDTH = a at *
  generalize n / cfg.BOARD_WIDTH = c at *
  rcases Nat.lt_trichotomy a c with h | h | h
  · have := Nat.mul_le_mul_right cfg.BOARD_WIDTH (Nat.succ_le_of_lt h)
    rw [Nat.succ_mul] at this
    constructor
    · intro _; exact Or.inl h
    · intro _; omega
  · subst h
    constructor
    · intro _; right; exact ⟨rfl, by omega⟩
    · rintro (h | ⟨_, h⟩) <;> omega
  · have := Nat.mul_le_mul_right cfg.BOARD_WIDTH (Nat.succ_le_of_lt h)
    rw [Nat.succ_mul] at this
    constructor
    · intro _; omega
    · rintro (h' | ⟨h', _⟩) <;> omega

theorem static_assert_lt (cfg : config) (hs : population_static_assert cfg) :
    cfg.BOARD_WIDTH * cfg.BOARD_HEIGHT < POPULATION_MOD cfg := by
  unfold population_static_assert at hs
  rw [← hs]
  exact Nat.mod_lt _ (POPULATION_MOD_pos cfg)

/-- One step of a population counter: the counter of the next prefix of the
scan is the old one, incremented when the new square counts. -/
theorem counter_step (cfg : config) (n : Nat) (hs : population_static_assert cfg)
    (hn : n < cfg.BOARD_WIDTH * cfg.BOARD_HEIGHT)
    (p q : Nat → Prop) [DecidablePred p] [DecidablePred q] (x y : Nat)
    (c : Prop) [Decidable c] (hc : c ↔ q n)
    (hx : x = count_below p n) (hy : y = if c then incr cfg x else x)
    (hlt : ∀ j, j < n → (q j ↔ p j)) : y = count_below q (n + 1) := by
  have h1 := count_below_le p n
  have h2 := static_assert_lt cfg hs
  rw [hy, hx, count_below_succ, count_below_congr q p n hlt]
  by_cases h : c
  · rw [if_pos h, if_pos (hc.1 h), incr_exact cfg (by omega)]
  · rw [if_neg h, if_neg (fun hq => h (hc.2 hq))]; rfl

/-- One step of an attack flag. -/
theorem flag_step (n : Nat) (p q : Nat → Prop) (f g : Bool) (c : Prop) (hc : c ↔ q n)
    (hf : f = true ↔ ∃ j, j < n ∧ p j) (hg : g = true ↔ (c ∨ f = true))
    (hlt : ∀ j, j < n → (q j ↔ p j)) : g = true ↔ ∃ j, j < n + 1 ∧ q j := by
  rw [hg, hf]
  constructor
  · rintro (h | ⟨j, hj, h⟩)
    · exact ⟨n, Nat.lt_succ_self n, hc.1 h⟩
    · exact ⟨j, Nat.lt_succ_of_lt hj, (hlt j hj).2 h⟩
  · rintro ⟨j, hj, h⟩
    rcases Nat.lt_succ_iff_lt_or_eq.1 hj with hlt' | rfl
    · exact Or.inr ⟨j, hlt', (hlt j hlt').1 h⟩
    · exact Or.inl (hc.2 h)

theorem piece_at_place_kind (cfg : config) (k : piece) (b : board) (n j : Nat)
    (he : piece_at cfg b.pieces n = EMPTY) :
    piece_at cfg (place_kind cfg k b (n / cfg.BOARD_WIDTH) (n % cfg.BOARD_WIDTH)).pieces j =
      if j = n then k else piece_at cfg b.pieces j := by
  unfold piece_at at *
  rw [place_kind_pieces]
  by_cases h : j = n
  · subst h
    by_cases hk : k = EMPTY
    · simp [hk, he]
    · simp [hk]
  · rw [if_neg h, if_neg]
    rintro ⟨_, h1, h2⟩
    exact h ((scan_eq_iff cfg j n).1 ⟨h1, h2⟩)

theorem board_invariant_piece_at (cfg : config) (n : Nat) (b : board)
    (hb : board_invariant cfg n b) (j : Nat) (hj : n ≤ j) : piece_at cfg b.pieces j = EMPTY := by
  by_contra h
  have := (hb.support _ _ h).2
  rw [scan_index] at this
  omega

/-! ## The representation invariant -/

theorem board_invariant_EMPTY_BOARD (cfg : config) (n : Nat) :
    board_invariant cfg n EMPTY_BOARD := by
  have hv : ∀ m, value_below cfg EMPTY_BOARD.pieces m = 0 := by
    intro m
    induction m with
    | zero => rfl
    | succ m ih => unfold value_below; rw [ih]; rfl
  constructor
  · intro r c h; exact absurd rfl h
  · intro r; exact ((count_below_eq_zero _ n).2 (fun j _ h => h.1 rfl)).symm
  · intro r; exact ((count_below_eq_zero _ n).2 (fun j _ h => h.1 rfl)).symm
  · intro r; exact ((count_below_eq_zero _ n).2 (fun j _ h => h.1 rfl)).symm
  · intro r; exact ((count_below_eq_zero _ n).2 (fun j _ h => h.1 rfl)).symm
  · intro r; constructor
    · intro h; exact absurd h (by simp [EMPTY_BOARD])
    · rintro ⟨j, _, h, _⟩; exact absurd h (by simp [EMPTY_BOARD, piece_at])
  · intro r; constructor
    · intro h; exact absurd h (by simp [EMPTY_BOARD])
    · rintro ⟨j, _, h, _⟩; exact absurd h (by simp [EMPTY_BOARD, piece_at])
  · intro r; constructor
    · intro h; exact absurd h (by simp [EMPTY_BOARD])
    · rintro ⟨j, _, h, _⟩; exact absurd h (by simp [EMPTY_BOARD, piece_at])
  · intro r; constructor
    · intro h; exact absurd h (by simp [EMPTY_BOARD])
    · rintro ⟨j, _, h, _⟩; exact absurd h (by simp [EMPTY_BOARD, piece_at])
  · intro r c
    refine ((count_below_eq_zero _ n).2 (fun j _ h => ?_)).symm
    rcases h with h | h <;> exact absurd h.1 (by simp [EMPTY_BOARD, piece_at])
  · intro r c; exact ((count_below_eq_zero _ n).2 (fun j _ h => h.1 rfl)).symm
  · intro r c; exact ((count_below_eq_zero _ n).2 (fun j _ h => h.1 rfl)).symm
  · rw [hv]; exact (Nat.zero_mod _).symm

/-- Deciding one more square keeps the invariant: the square of scan index `n`
receives a piece of kind `k` through `place_rook` .. `place_knight`, or is left
empty (`k = EMPTY`). -/
theorem board_invariant_place (cfg : config) (hs : population_static_assert cfg) (n : Nat)
    (hn : n < cfg.BOARD_WIDTH * cfg.BOARD_HEIGHT) (b : board) (hb : board_invariant cfg n b)
    (k : piece) :
    board_invariant cfg (n + 1)
      (place_kind cfg k b (n / cfg.BOARD_WIDTH) (n % cfg.BOARD_WIDTH)) := by
  have he := board_invariant_piece_at cfg n b hb n (le_refl n)
  have hp := fun j => piece_at_place_kind cfg k b n j he
  have hW : 0 < cfg.BOARD_WIDTH := by
    rcases Nat.eq_zero_or_pos cfg.BOARD_WIDTH with h | h
    · rw [h, Nat.zero_mul] at hn; omega
    · exact h
  have hne : ∀ j, j < n → ¬ j = n := fun j hj => Nat.ne_of_lt hj
  constructor
  · intro r c h
    rw [place_kind_pieces] at h
    split at h
    · rename_i hk
      obtain ⟨_, rfl, rfl⟩ := hk
      exact ⟨Nat.mod_lt _ hW, by rw [scan_index]; exact Nat.lt_succ_self n⟩
    · exact ⟨(hb.support r c h).1, Nat.lt_succ_of_lt (hb.support r c h).2⟩
  · intro r
    refine counter_step cfg n hs hn _ _ _ _ _ ?_ (hb.row_population r)
      (place_kind_row_population cfg k b _ _ r) ?_
    · simp only [hp, if_true]; constructor <;> rintro ⟨h1, h2⟩ <;> exact ⟨h1, h2.symm⟩
    · intro j hj; simp only [hp, if_neg (hne j hj)]
  · intro r
    refine counter_step cfg n hs hn _ _ _ _ _ ?_ (hb.column_population r)
      (place_kind_column_population cfg k b _ _ r) ?_
    · simp only [hp, if_true]; constructor <;> rintro ⟨h1, h2⟩ <;> exact ⟨h1, h2.symm⟩
    · intro j hj; simp only [hp, if_neg (hne j hj)]
  · intro r
    refine counter_step cfg n hs hn _ _ _ _ _ ?_ (hb.downward_diagonal_population r)
      (place_kind_downward_diagonal_population cfg k b _ _ r) ?_
    · simp only [hp, if_true]; constructor <;> rintro ⟨h1, h2⟩ <;> exact ⟨h1, h2.symm⟩
    · intro j hj; simp only [hp, if_neg (hne j hj)]
  · intro r
    refine counter_step cfg n hs hn _ _ _ _ _ ?_ (hb.upward_diagonal_population r)
      (place_kind_upward_diagonal_population cfg k b _ _ r) ?_
    · simp only [hp, if_true]; constructor <;> rintro ⟨h1, h2⟩ <;> exact ⟨h1, h2.symm⟩
    · intro j hj; simp only [hp, if_neg (hne j hj)]
  · intro r
    refine flag_step n _ _ _ _ (k = ROOK ∧ r = n / cfg.BOARD_WIDTH) ?_ (hb.rows_attacked r) ?_ ?_
    · simp only [hp, if_true]; constructor <;> rintro ⟨h1, h2⟩ <;> exact ⟨h1, h2.symm⟩
    · rw [place_kind_rows_attacked]; split <;> simp_all
    · intro j hj; simp only [hp, if_neg (hne j hj)]
  · intro r
    refine flag_step n _ _ _ _ (k = ROOK ∧ r = n % cfg.BOARD_WIDTH) ?_ (hb.columns_attacked r) ?_ ?_
    · simp only [hp, if_true]; constructor <;> rintro ⟨h1, h2⟩ <;> exact ⟨h1, h2.symm⟩
    · rw [place_kind_columns_attacked]; split <;> simp_all
    · intro j hj; simp only [hp, if_neg (hne j hj)]
  · intro r
    refine flag_step n _ _ _ _ (k = BISHOP ∧ r = (downward_diagonal cfg (n / cfg.BOARD_WIDTH)
      (n % cfg.BOARD_WIDTH)).toNat) ?_ (hb.downward_diagonals_attacked r) ?_ ?_
    · simp only [hp, if_true]; constructor <;> rintro ⟨h1, h2⟩ <;> exact ⟨h1, h2.symm⟩
    · rw [place_kind_downward_diagonals_attacked]; split <;> simp_all
    · intro j hj; simp only [hp, if_neg (hne j hj)]
  · intro r
    refine flag_step n _ _ _ _ (k = BISHOP ∧ r = (upward_diagonal (n / cfg.BOARD_WIDTH)
      (n % cfg.BOARD_WIDTH)).toNat) ?_ (hb.upward_diagonals_attacked r) ?_ ?_
    · simp only [hp, if_true]; constructor <;> rintro ⟨h1, h2⟩ <;> exact ⟨h1, h2.symm⟩
    · rw [place_kind_upward_diagonals_attacked]; split <;> simp_all
    · intro j hj; simp only [hp, if_neg (hne j hj)]
  · intro r c
    refine counter_step cfg n hs hn _ _ _ _ _ ?_ (hb.spot_attacks r c)
      (place_kind_spot_attacks cfg k b _ _ r c) ?_
    · simp only [hp, if_true]
    · intro j hj; simp only [hp, if_neg (hne j hj)]
  · intro r c
    refine counter_step cfg n hs hn _ _ _ _ _ ?_ (hb.knight_population r c)
      (place_kind_knight_population cfg k b _ _ r c) ?_
    · simp only [hp, if_true]
    · intro j hj; simp only [hp, if_neg (hne j hj)]
  · intro r c
    refine counter_step cfg n hs hn _ _ _ _ _ ?_ (hb.king_population r c)
      (place_kind_king_population cfg k b _ _ r c) ?_
    · simp only [hp, if_true]
    · intro j hj; simp only [hp, if_neg (hne j hj)]
  · rw [place_kind_score cfg k b _ _ (by rw [hb.score]; exact Nat.mod_lt _ (SCORE_MOD_pos cfg)),
      hb.score]
    unfold score_add
    have h1 := hp n
    rw [if_pos rfl] at h1
    unfold piece_at at h1
    rw [Nat.mod_add_mod, value_below_succ, h1,
      value_below_congr cfg (place_kind cfg k b (n / cfg.BOARD_WIDTH) (n % cfg.BOARD_WIDTH)).pieces
        b.pieces n (fun j hj => by rw [hp j, if_neg (hne j hj)])]

/-! ## The guards of `maximize` and the attack relation -/

theorem attacks_symm (k : piece) (r c r' c' : Nat) :
    attacks k r c r' c' ↔ attacks k r' c' r c := by
  cases k <;> simp only [attacks] <;> omega

theorem downward_diagonal_eq_iff (cfg : config) (r c r' c' : Nat) (hc : c < cfg.BOARD_WIDTH)
    (hc' : c' < cfg.BOARD_WIDTH) :
    (downward_diagonal cfg r c).toNat = (downward_diagonal cfg r' c').toNat ↔ r + c' = r' + c := by
  unfold downward_diagonal; omega

theorem upward_diagonal_eq_iff (r c r' c' : Nat) :
    (upward_diagonal r c).toNat = (upward_diagonal r' c').toNat ↔ r + c = r' + c' := by
  unfold upward_diagonal; omega

/-- The squares of `FOR_EACH_KING_ATTACK` are the later squares a king attacks. -/
theorem king_forward (cfg : config) (j n : Nat) (hj : j < n)
    (hn : n < cfg.BOARD_WIDTH * cfg.BOARD_HEIGHT) :
    (n / cfg.BOARD_WIDTH, n % cfg.BOARD_WIDTH) ∈
        FOR_EACH_KING_ATTACK cfg (j / cfg.BOARD_WIDTH) (j % cfg.BOARD_WIDTH) ↔
      attacks KING (j / cfg.BOARD_WIDTH) (j % cfg.BOARD_WIDTH)
        (n / cfg.BOARD_WIDTH) (n % cfg.BOARD_WIDTH) := by
  obtain ⟨h1, h2, _⟩ := square_of_index cfg n hn
  have hW : 0 < cfg.BOARD_WIDTH := by omega
  have h3 := (scan_lt_iff cfg j n hW).1 hj
  rw [mem_FOR_EACH_KING_ATTACK]
  simp only [attacks]
  omega

/-- The squares of `FOR_EACH_KNIGHT_ATTACK` are the later squares a knight attacks. -/
theorem knight_forward (cfg : config) (j n : Nat) (hj : j < n)
    (hn : n < cfg.BOARD_WIDTH * cfg.BOARD_HEIGHT) :
    (n / cfg.BOARD_WIDTH, n % cfg.BOARD_WIDTH) ∈
        FOR_EACH_KNIGHT_ATTACK cfg (j / cfg.BOARD_WIDTH) (j % cfg.BOARD_WIDTH) ↔
      attacks KNIGHT (j / cfg.BOARD_WIDTH) (j % cfg.BOARD_WIDTH)
        (n / cfg.BOARD_WIDTH) (n % cfg.BOARD_WIDTH) := by
  obtain ⟨h1, h2, _⟩ := square_of_index cfg n hn
  have hW : 0 < cfg.BOARD_WIDTH := by omega
  have h3 := (scan_lt_iff cfg j n hW).1 hj
  rw [mem_FOR_EACH_KNIGHT_ATTACK]
  simp only [attacks]
  omega

theorem attacked_eq_false_iff (cfg : config) (b : board) (row column : Nat) :
    attacked cfg b row column = false ↔
      (¬ b.rows_attacked row = true ∧ ¬ b.columns_attacked column = true ∧
        ¬ b.downward_diagonals_attacked (downward_diagonal cfg row column).toNat = true ∧
        ¬ b.upward_diagonals_attacked (upward_diagonal row column).toNat = true ∧
        ¬ b.spot_attacks row column ≠ 0) := by
  unfold attacked
  simp only [Bool.or_eq_false_iff, bne_eq_false_iff_eq, Bool.not_eq_true, ne_eq, not_not,
    and_assoc]

/-- The baseline test of `maximize` on the square of scan index `n`: the local
`attacked` is false exactly when no piece on the board attacks the square. -/
theorem attacked_iff (cfg : config) (n : Nat) (hn : n < cfg.BOARD_WIDTH * cfg.BOARD_HEIGHT)
    (b : board) (hb : board_invariant cfg n b) :
    attacked cfg b (n / cfg.BOARD_WIDTH) (n % cfg.BOARD_WIDTH) = false ↔
      ∀ j, j < n → ¬ attacks (piece_at cfg b.pieces j) (j / cfg.BOARD_WIDTH)
        (j % cfg.BOARD_WIDTH) (n / cfg.BOARD_WIDTH) (n % cfg.BOARD_WIDTH) := by
  obtain ⟨h1, h2, _⟩ := square_of_index cfg n hn
  have hW : 0 < cfg.BOARD_WIDTH := by omega
  rw [attacked_eq_false_iff, hb.rows_attacked, hb.columns_attacked,
    hb.downward_diagonals_attacked, hb.upward_diagonals_attacked, hb.spot_attacks,
    count_below_ne_zero]
  constructor
  · rintro ⟨a1, a2, a3, a4, a5⟩ j hj hatt
    have hjc := Nat.mod_lt j hW
    cases hk : piece_at cfg b.pieces j
    · rw [hk] at hatt; exact hatt
    · rw [hk] at hatt
      exact a5 ⟨j, hj, Or.inr ⟨hk, (knight_forward cfg j n hj hn).2 hatt⟩⟩
    · rw [hk] at hatt
      rcases hatt with h | h
      · exact a4 ⟨j, hj, hk, (upward_diagonal_eq_iff _ _ _ _).2 h⟩
      · exact a3 ⟨j, hj, hk, (downward_diagonal_eq_iff cfg _ _ _ _ hjc h2).2 h⟩
    · rw [hk] at hatt
      rcases hatt with h | h
      · exact a1 ⟨j, hj, hk, h⟩
      · exact a2 ⟨j, hj, hk, h⟩
    · rw [hk] at hatt
      exact a5 ⟨j, hj, Or.inl ⟨hk, (king_forward cfg j n hj hn).2 hatt⟩⟩
  · intro h
    refine ⟨?_, ?_, ?_, ?_, ?_⟩
    · rintro ⟨j, hj, hk, e⟩
      exact h j hj (by rw [hk]; exact Or.inl e)
    · rintro ⟨j, hj, hk, e⟩
      exact h j hj (by rw [hk]; exact Or.inr e)
    · rintro ⟨j, hj, hk, e⟩
      exact h j hj (by
        rw [hk]; exact Or.inr ((downward_diagonal_eq_iff cfg _ _ _ _ (Nat.mod_lt j hW) h2).1 e))
    · rintro ⟨j, hj, hk, e⟩
      exact h j hj (by rw [hk]; exact Or.inl ((upward_diagonal_eq_iff _ _ _ _).1 e))
    · rintro ⟨j, hj, ⟨hk, e⟩ | ⟨hk, e⟩⟩
      · exact h j hj (by rw [hk]; exact (king_forward cfg j n hj hn).1 e)
      · exact h j hj (by rw [hk]; exact (knight_forward cfg j n hj hn).1 e)

/-- The extra test of `maximize` before it places a piece of kind `k` on the
square of scan index `n`: it holds exactly when the piece would attack no
piece on the board. -/
theorem extra_guard_iff (cfg : config) (n : Nat) (hn : n < cfg.BOARD_WIDTH * cfg.BOARD_HEIGHT)
    (b : board) (hb : board_invariant cfg n b) (k : piece) (hk : k ≠ EMPTY) :
    extra_guard cfg k b (n / cfg.BOARD_WIDTH) (n % cfg.BOARD_WIDTH) ↔
      ∀ j, j < n → piece_at cfg b.pieces j ≠ EMPTY →
        ¬ attacks k (n / cfg.BOARD_WIDTH) (n % cfg.BOARD_WIDTH)
          (j / cfg.BOARD_WIDTH) (j % cfg.BOARD_WIDTH) := by
  obtain ⟨h1, h2, _⟩ := square_of_index cfg n hn
  have hW : 0 < cfg.BOARD_WIDTH := by omega
  cases k
  · exact absurd rfl hk
  · simp only [extra_guard]
    rw [hb.knight_population, count_below_eq_zero]
    constructor
    · intro h j hj hne hatt
      exact h j hj ⟨hne, (knight_forward cfg j n hj hn).2 ((attacks_symm _ _ _ _ _).1 hatt)⟩
    · rintro h j hj ⟨hne, e⟩
      exact h j hj hne ((attacks_symm _ _ _ _ _).1 ((knight_forward cfg j n hj hn).1 e))
  · simp only [extra_guard]
    rw [hb.downward_diagonal_population, hb.upward_diagonal_population, count_below_eq_zero,
      count_below_eq_zero]
    constructor
    · rintro ⟨a1, a2⟩ j hj hne hatt
      rcases hatt with e | e
      · exact a2 j hj ⟨hne, (upward_diagonal_eq_iff _ _ _ _).2 e.symm⟩
      · exact a1 j hj ⟨hne, (downward_diagonal_eq_iff cfg _ _ _ _ (Nat.mod_lt j hW) h2).2 e.symm⟩
    · intro h
      constructor
      · rintro j hj ⟨hne, e⟩
        exact h j hj hne
          (Or.inr ((downward_diagonal_eq_iff cfg _ _ _ _ (Nat.mod_lt j hW) h2).1 e).symm)
      · rintro j hj ⟨hne, e⟩
        exact h j hj hne (Or.inl ((upward_diagonal_eq_iff _ _ _ _).1 e).symm)
  · simp only [extra_guard]
    rw [hb.row_population, hb.column_population, count_below_eq_zero, count_below_eq_zero]
    constructor
    · rintro ⟨a1, a2⟩ j hj hne hatt
      rcases hatt with e | e
      · exact a1 j hj ⟨hne, e.symm⟩
      · exact a2 j hj ⟨hne, e.symm⟩
    · intro h
      constructor
      · rintro j hj ⟨hne, e⟩
        exact h j hj hne (Or.inl e.symm)
      · rintro j hj ⟨hne, e⟩
        exact h j hj hne (Or.inr e.symm)
  · simp only [extra_guard]
    rw [hb.king_population, count_below_eq_zero]
    constructor
    · intro h j hj hne hatt
      exact h j hj ⟨hne, (king_forward cfg j n hj hn).2 ((attacks_symm _ _ _ _ _).1 hatt)⟩
    · rintro h j hj ⟨hne, e⟩
      exact h j hj hne ((attacks_symm _ _ _ _ _).1 ((king_forward cfg j n hj hn).1 e))

/-! ## The non-attack constraint along the scan -/

theorem index_lt (cfg : config) (r c : Nat) (hr : r < cfg.BOARD_HEIGHT) (hc : c < cfg.BOARD_WIDTH) :
    r * cfg.BOARD_WIDTH + c < cfg.BOARD_WIDTH * cfg.BOARD_HEIGHT := by
  have h := Nat.mul_le_mul_right cfg.BOARD_WIDTH (Nat.succ_le_of_lt hr)
  rw [Nat.succ_mul, Nat.mul_comm cfg.BOARD_HEIGHT] at h
  omega

/-- The non-attack constraint, with the squares named by their scan index. -/
theorem non_attacking_iff (cfg : config) (P : Nat → Nat → piece) :
    non_attacking cfg P ↔
      ∀ i j, i < cfg.BOARD_WIDTH * cfg.BOARD_HEIGHT → j < cfg.BOARD_WIDTH * cfg.BOARD_HEIGHT →
        i ≠ j → piece_at cfg P j ≠ EMPTY →
        ¬ attacks (piece_at cfg P i) (i / cfg.BOARD_WIDTH) (i % cfg.BOARD_WIDTH)
          (j / cfg.BOARD_WIDTH) (j % cfg.BOARD_WIDTH) := by
  constructor
  · intro h i j hi hj hne hp
    obtain ⟨a1, a2, _⟩ := square_of_index cfg i hi
    obtain ⟨b1, b2, _⟩ := square_of_index cfg j hj
    refine h _ a1 _ a2 _ b1 _ b2 ?_ hp
    by_contra hc
    push_neg at hc
    exact hne ((scan_eq_iff cfg i j).1 hc)
  · intro h r hr c hc r' hr' c' hc' hne hp
    obtain ⟨a1, a2⟩ := square_index cfg r c hc
    obtain ⟨b1, b2⟩ := square_index cfg r' c' hc'
    have := h (r * cfg.BOARD_WIDTH + c) (r' * cfg.BOARD_WIDTH + c') (index_lt cfg r c hr hc)
      (index_lt cfg r' c' hr' hc') (by
        intro e
        rw [e] at a1 a2
        rcases hne with hne | hne
        · exact hne (a1.symm.trans b1)
        · exact hne (a2.symm.trans b2))
      (by unfold piece_at; rw [b1, b2]; exact hp)
    unfold piece_at at this
    rw [a1, a2, b1, b2] at this
    exact this

theorem attacks_EMPTY (r c r' c' : Nat) : ¬ attacks EMPTY r c r' c' := fun h => h

/-- A piece that passes the tests of `maximize` keeps the board free of attacks. -/
theorem non_attacking_place (cfg : config) (n : Nat)
    (hn : n < cfg.BOARD_WIDTH * cfg.BOARD_HEIGHT) (b : board) (hb : board_invariant cfg n b)
    (hna : non_attacking cfg b.pieces) (k : piece)
    (ha : attacked cfg b (n / cfg.BOARD_WIDTH) (n % cfg.BOARD_WIDTH) = false)
    (hg : extra_guard cfg k b (n / cfg.BOARD_WIDTH) (n % cfg.BOARD_WIDTH)) :
    non_attacking cfg
      (place_kind cfg k b (n / cfg.BOARD_WIDTH) (n % cfg.BOARD_WIDTH)).pieces := by
  have he := board_invariant_piece_at cfg n b hb
  have hp := fun j => piece_at_place_kind cfg k b n j (he n (le_refl n))
  have hk : k ≠ EMPTY := by rintro rfl; exact hg
  rw [non_attacking_iff] at hna ⊢
  intro i j hi hj hne hpj hatt
  rw [hp] at hpj hatt
  by_cases hin : i = n
  · subst hin
    rw [if_pos rfl] at hatt
    rw [if_neg (fun e => hne e.symm)] at hpj
    have hjn : j < i := by
      by_contra hc
      exact hpj (he j (by omega))
    exact (extra_guard_iff cfg i hn b hb k hk).1 hg j hjn hpj hatt
  · rw [if_neg hin] at hatt
    by_cases hjn : j = n
    · subst hjn
      have hij : i < j := by
        by_contra hc
        rw [he i (by omega)] at hatt
        exact hatt
      exact (attacked_iff cfg j hn b hb).1 ha i hij hatt
    · rw [if_neg hjn] at hpj
      exact hna i j hi hj hne hpj hatt

/-- A placement without attacks that continues the board leaves an attacked
square empty. -/
theorem attacked_forces_empty (cfg : config) (n : Nat)
    (hn : n < cfg.BOARD_WIDTH * cfg.BOARD_HEIGHT) (b : board) (hb : board_invariant cfg n b)
    (Q : Nat → Nat → piece) (hQ : non_attacking cfg Q)
    (hag : ∀ j, j < n → piece_at cfg Q j = piece_at cfg b.pieces j)
    (ha : ¬ attacked cfg b (n / cfg.BOARD_WIDTH) (n % cfg.BOARD_WIDTH) = false) :
    piece_at cfg Q n = EMPTY := by
  by_contra hne
  apply ha
  rw [attacked_iff cfg n hn b hb]
  intro j hj hatt
  rw [← hag j hj] at hatt
  exact (non_attacking_iff cfg Q).1 hQ j n (by omega) hn (by omega) hne hatt

/-- A placement without attacks that continues the board has, on the next
square, a piece for which the extra test of `maximize` holds. -/
theorem extra_guard_of_non_attacking (cfg : config) (n : Nat)
    (hn : n < cfg.BOARD_WIDTH * cfg.BOARD_HEIGHT) (b : board) (hb : board_invariant cfg n b)
    (Q : Nat → Nat → piece) (hQ : non_attacking cfg Q)
    (hag : ∀ j, j < n → piece_at cfg Q j = piece_at cfg b.pieces j)
    (hk : piece_at cfg Q n ≠ EMPTY) :
    extra_guard cfg (piece_at cfg Q n) b (n / cfg.BOARD_WIDTH) (n % cfg.BOARD_WIDTH) := by
  rw [extra_guard_iff cfg n hn b hb _ hk]
  intro j hj hne hatt
  rw [← hag j hj] at hne
  exact (non_attacking_iff cfg Q).1 hQ n j hn (by omega) (by omega) hne hatt

/-! ## Consequences of the invariant -/

theorem board_invariant_well_typed (cfg : config) (hs : population_static_assert cfg) (n : Nat)
    (hn : n ≤ cfg.BOARD_WIDTH * cfg.BOARD_HEIGHT) (b : board) (hb : board_invariant cfg n b) :
    well_typed cfg b := by
  have h2 := static_assert_lt cfg hs
  have hc : ∀ (p : Nat → Prop) [DecidablePred p], count_below p n < POPULATION_MOD cfg := by
    intro p _
    have := count_below_le p n
    omega
  refine ⟨?_, ?_, ?_, ?_, ?_, ?_, ?_, ?_⟩
  · intro i; rw [hb.downward_diagonal_population]; exact hc _
  · intro i; rw [hb.upward_diagonal_population]; exact hc _
  · intro i; rw [hb.row_population]; exact hc _
  · intro i; rw [hb.column_population]; exact hc _
  · intro i j; rw [hb.spot_attacks]; exact hc _
  · intro i j; rw [hb.knight_population]; exact hc _
  · intro i j; rw [hb.king_population]; exact hc _
  · rw [hb.score]; exact Nat.mod_lt _ (SCORE_MOD_pos cfg)

theorem board_invariant_empty_from (cfg : config) (n : Nat) (b : board)
    (hb : board_invariant cfg n b) : empty_from cfg b n := by
  intro r c _ _ h
  by_contra hne
  have := (hb.support r c hne).2
  omega

theorem value_below_le (cfg : config) (P : Nat → Nat → piece) (n : Nat) :
    value_below cfg P n ≤ n * ROOK_VALUE := by
  induction n with
  | zero => exact le_refl _
  | succ n ih =>
    rw [value_below_succ, Nat.succ_mul]
    exact Nat.add_le_add ih (piece_value_le _)

theorem value_below_eq_of_empty (cfg : config) (P : Nat → Nat → piece) (n m : Nat) (hnm : n ≤ m)
    (h : ∀ j, n ≤ j → piece_at cfg P j = EMPTY) : value_below cfg P m = value_below cfg P n := by
  induction m with
  | zero =>
    have : n = 0 := by omega
    rw [this]
  | succ m ih =>
    rcases Nat.lt_or_ge m n with hlt | hge
    · have : n = m + 1 := by omega
      rw [this]
    · have h1 := h m hge
      unfold piece_at at h1
      rw [value_below_succ, h1, ih hge]
      rfl

/-- Under the invariant the score is the value of the pieces, without
wrap-around, when a rook on every square fits in `score_t`. -/
theorem board_invariant_score (cfg : config) (hf : score_fits cfg) (n : Nat)
    (hn : n ≤ cfg.BOARD_WIDTH * cfg.BOARD_HEIGHT) (b : board) (hb : board_invariant cfg n b) :
    b.score = value_below cfg b.pieces n ∧ b.score = placement_value cfg b.pieces ∧
      b.score ≤ n * ROOK_VALUE := by
  have h1 := value_below_le cfg b.pieces n
  have h2 : n * ROOK_VALUE ≤ cfg.BOARD_WIDTH * cfg.BOARD_HEIGHT * ROOK_VALUE :=
    Nat.mul_le_mul_right _ hn
  have h3 : value_below cfg b.pieces n < SCORE_MOD cfg := by
    unfold score_fits SCORE_MAX at hf
    unfold SCORE_MOD
    omega
  have h4 : b.score = value_below cfg b.pieces n := by
    rw [hb.score, Nat.mod_eq_of_lt h3]
  refine ⟨h4, ?_, by omega⟩
  rw [h4]
  unfold placement_value
  exact (value_below_eq_of_empty cfg b.pieces n _ hn (board_invariant_piece_at cfg n b hb)).symm

/-! ## Soundness of the search -/

theorem sound_step_refl (cfg : config) (lo : Nat) (s : state)
    (h : legal_board cfg lo s.maximum_board) : sound_step cfg lo s s :=
  ⟨rfl, h, ⟨[], by simp, by simp⟩, ⟨[], by simp, by simp⟩⟩

theorem sound_step_trans {cfg : config} {lo : Nat} {s s' s'' : state}
    (h1 : sound_step cfg lo s s') (h2 : sound_step cfg lo s' s'') : sound_step cfg lo s s'' := by
  obtain ⟨a1, _, ⟨n1, c1, d1⟩, ⟨k1, e1, f1⟩⟩ := h1
  obtain ⟨a2, b2, ⟨n2, c2, d2⟩, ⟨k2, e2, f2⟩⟩ := h2
  refine ⟨a2.trans a1, b2, ⟨n1 ++ n2, by rw [c2, c1, List.append_assoc], ?_⟩,
    ⟨k1 ++ k2, by rw [e2, e1, List.append_assoc], ?_⟩⟩
  · intro b hb
    rcases List.mem_append.1 hb with h | h
    · exact d1 b h
    · exact d2 b h
  · intro e he
    rcases List.mem_append.1 he with h | h
    · exact f1 e h
    · exact f2 e h

theorem state_ok_of_step {cfg : config} {lo n : Nat} {s s' : state}
    (h : state_ok cfg lo n s) (h1 : sound_step cfg lo s s') : state_ok cfg lo n s' := by
  obtain ⟨a, b, c, _⟩ := h
  obtain ⟨e, m, _, _⟩ := h1
  exact ⟨e ▸ a, e ▸ b, e ▸ c, m⟩

theorem state_ok_legal {cfg : config} {lo n : Nat} {s : state}
    (h : state_ok cfg lo n s) (hn : n ≤ cfg.BOARD_WIDTH * cfg.BOARD_HEIGHT) :
    legal_board cfg lo s.board :=
  ⟨⟨n, hn, h.1⟩, h.2.1, h.2.2.1⟩

theorem sound_enter_update (cfg : config) (lo n : Nat) (s : state) (index : Nat)
    (h : state_ok cfg lo n s) (hn : n ≤ cfg.BOARD_WIDTH * cfg.BOARD_HEIGHT) :
    sound_step cfg lo s (enter_update s index) := by
  have hl := state_ok_legal h hn
  have hm := h.2.2.2
  unfold enter_update
  simp only []
  split
  · refine ⟨rfl, hl, ⟨[s.board], rfl, ?_⟩, ⟨[event.enter s.board s.maximum_board index], rfl, ?_⟩⟩
    · intro b hb; rw [List.mem_singleton] at hb; subst hb; exact hl
    · intro e he; rw [List.mem_singleton] at he; subst he; exact ⟨hl, hm⟩
  · refine ⟨rfl, hm, ⟨[], by simp, by simp⟩,
      ⟨[event.enter s.board s.maximum_board index], rfl, ?_⟩⟩
    intro e he; rw [List.mem_singleton] at he; subst he; exact ⟨hl, hm⟩

theorem sound_test_update (cfg : config) (lo : Nat) (s : state) (index limit : Nat)
    (h : legal_board cfg lo s.maximum_board) :
    sound_step cfg lo s (test_update s index limit) := by
  refine ⟨rfl, h, ⟨[], by simp [test_update], by simp⟩,
    ⟨[event.test index s.board.score limit], rfl, ?_⟩⟩
  intro e he; rw [List.mem_singleton] at he; subst he; trivial

theorem state_ok_place (cfg : config) (hs : population_static_assert cfg) (lo n : Nat)
    (s : state) (h : state_ok cfg lo n s) (hn : n < cfg.BOARD_WIDTH * cfg.BOARD_HEIGHT)
    (hlo : lo ≤ n) (k : piece)
    (hk : k = EMPTY ∨
      (attacked cfg s.board (n / cfg.BOARD_WIDTH) (n % cfg.BOARD_WIDTH) = false ∧
        extra_guard cfg k s.board (n / cfg.BOARD_WIDTH) (n % cfg.BOARD_WIDTH))) :
    state_ok cfg lo (n + 1)
      { s with board := place_kind cfg k s.board (n / cfg.BOARD_WIDTH) (n % cfg.BOARD_WIDTH) } := by
  obtain ⟨a, b, c, d⟩ := h
  refine ⟨board_invariant_place cfg hs n hn s.board a k, ?_, ?_, d⟩
  · rcases hk with rfl | ⟨h1, h2⟩
    · exact b
    · exact non_attacking_place cfg n hn s.board a b k h1 h2
  · intro r c' hne
    simp only [] at hne
    rw [place_kind_pieces] at hne
    split at hne
    · rename_i hh
      obtain ⟨_, rfl, rfl⟩ := hh
      rw [scan_index]; exact hlo
    · exact c r c' hne

theorem state_ok_succ (cfg : config) (hs : population_static_assert cfg) (lo n : Nat)
    (s : state) (h : state_ok cfg lo n s) (hn : n < cfg.BOARD_WIDTH * cfg.BOARD_HEIGHT)
    (hlo : lo ≤ n) : state_ok cfg lo (n + 1) s :=
  state_ok_place cfg hs lo n s h hn hlo EMPTY (Or.inl rfl)

theorem attempt_sound (cfg : config) (hs : population_static_assert cfg) (lo n : Nat)
    (k : piece) (rec : state → state) (s : state) (h : state_ok cfg lo n s)
    (hn : n < cfg.BOARD_WIDTH * cfg.BOARD_HEIGHT) (hlo : lo ≤ n)
    (ha : attacked cfg s.board (n / cfg.BOARD_WIDTH) (n % cfg.BOARD_WIDTH) = false)
    (hrec : ∀ t, state_ok cfg lo (n + 1) t → sound_step cfg lo t (rec t)) :
    sound_step cfg lo s
      (attempt cfg k rec s (n / cfg.BOARD_WIDTH) (n % cfg.BOARD_WIDTH)) := by
  unfold attempt
  split
  · rename_i hg
    have h0 := state_ok_place cfg hs lo n s h hn hlo k (Or.inr ⟨ha, hg⟩)
    obtain ⟨e1, m1, ⟨new, o1, o2⟩, ⟨hh, q1, q2⟩⟩ := hrec _ h0
    have hw := board_invariant_well_typed cfg hs n (le_of_lt hn) s.board h.1
    have he := board_invariant_piece_at cfg n s.board h.1 n (le_refl n)
    have hu := unplace_place_kind cfg k s.board _ _ hw he ha
    simp only [] at e1 o1 q1 ⊢
    refine ⟨?_, m1, ⟨new, o1, o2⟩, ⟨hh ++ [event.unplaced s.board], ?_, ?_⟩⟩
    · rw [e1]; exact hu
    · rw [e1, hu, q1, List.append_assoc]
    · intro e he'
      rcases List.mem_append.1 he' with h' | h'
      · exact q2 e h'
      · rw [List.mem_singleton] at h'; subst h'
        exact state_ok_legal h (le_of_lt hn)
  · exact sound_step_refl cfg lo s h.2.2.2

theorem attempts_sound (cfg : config) (hs : population_static_assert cfg) (lo n : Nat)
    (rec : state → state) (s : state) (h : state_ok cfg lo n s)
    (hn : n < cfg.BOARD_WIDTH * cfg.BOARD_HEIGHT) (hlo : lo ≤ n)
    (ha : attacked cfg s.board (n / cfg.BOARD_WIDTH) (n % cfg.BOARD_WIDTH) = false)
    (hrec : ∀ t, state_ok cfg lo (n + 1) t → sound_step cfg lo t (rec t)) :
    sound_step cfg lo s
      (attempts cfg rec s (n / cfg.BOARD_WIDTH) (n % cfg.BOARD_WIDTH)) := by
  unfold attempts
  have q1 := attempt_sound cfg hs lo n ROOK rec s h hn hlo ha hrec
  have k1 := state_ok_of_step h q1
  have q2 := attempt_sound cfg hs lo n BISHOP rec _ k1 hn hlo (by rw [q1.1]; exact ha) hrec
  have k2 := state_ok_of_step k1 q2
  have q3 := attempt_sound cfg hs lo n KING rec _ k2 hn hlo (by rw [q2.1, q1.1]; exact ha) hrec
  have k3 := state_ok_of_step k2 q3
  have q4 := attempt_sound cfg hs lo n KNIGHT rec _ k3 hn hlo
    (by rw [q3.1, q2.1, q1.1]; exact ha) hrec
  exact sound_step_trans (sound_step_trans (sound_step_trans q1 q2) q3) q4

theorem run_sound (cfg : config) (hs : population_static_assert cfg) (limits : Nat → Nat)
    (lo : Nat) :
    ∀ (remaining : Nat) (s : state), remaining ≤ cfg.BOARD_WIDTH * cfg.BOARD_HEIGHT →
      lo ≤ cfg.BOARD_WIDTH * cfg.BOARD_HEIGHT - remaining →
      state_ok cfg lo (cfg.BOARD_WIDTH * cfg.BOARD_HEIGHT - remaining) s →
      sound_step cfg lo s (run cfg limits remaining s) := by
  intro remaining
  induction remaining with
  | zero => intro s _ _ h; exact sound_enter_update cfg lo _ s _ h (Nat.sub_le _ _)
  | succ remaining ih =>
    intro s hrem hlo h
    have hidx : cfg.BOARD_WIDTH * cfg.BOARD_HEIGHT - (remaining + 1) <
        cfg.BOARD_WIDTH * cfg.BOARD_HEIGHT := by omega
    have hnext : cfg.BOARD_WIDTH * cfg.BOARD_HEIGHT - (remaining + 1) + 1 =
        cfg.BOARD_WIDTH * cfg.BOARD_HEIGHT - remaining := by omega
    have hrec : ∀ t, state_ok cfg lo (cfg.BOARD_WIDTH * cfg.BOARD_HEIGHT - (remaining + 1) + 1) t →
        sound_step cfg lo t (run cfg limits remaining t) := by
      intro t ht
      exact ih t (by omega) (by omega) (hnext ▸ ht)
    rw [run]
    simp only [run_step]
    have q1 := sound_enter_update cfg lo _ s (cfg.BOARD_WIDTH * cfg.BOARD_HEIGHT - (remaining + 1))
      h (le_of_lt hidx)
    generalize enter_update s (cfg.BOARD_WIDTH * cfg.BOARD_HEIGHT - (remaining + 1)) = s1 at q1 ⊢
    have k1 := state_ok_of_step h q1
    have q2 := sound_test_update cfg lo s1 (cfg.BOARD_WIDTH * cfg.BOARD_HEIGHT - (remaining + 1))
      (limits (cfg.BOARD_WIDTH * cfg.BOARD_HEIGHT - (remaining + 1))) k1.2.2.2
    generalize test_update s1 (cfg.BOARD_WIDTH * cfg.BOARD_HEIGHT - (remaining + 1))
      (limits (cfg.BOARD_WIDTH * cfg.BOARD_HEIGHT - (remaining + 1))) = s2 at q2 ⊢
    have k2 := state_ok_of_step k1 q2
    have q12 := sound_step_trans q1 q2
    split
    · exact q12
    · split
      · exact sound_step_trans q12 (hrec s2 (state_ok_succ cfg hs lo _ s2 k2 hidx hlo))
      · rename_i hna
        have ha := Bool.eq_false_iff.2 hna
        have q3 := attempts_sound cfg hs lo _ (run cfg limits remaining) s2 k2 hidx hlo ha hrec
        have k3 := state_ok_of_step k2 q3
        exact sound_step_trans (sound_step_trans q12 q3)
          (hrec _ (state_ok_succ cfg hs lo _ _ k3 hidx hlo))

/-! ## Completeness of the search -/

theorem piece_at_restrict_from (cfg : config) (Q : Nat → Nat → piece) (i j : Nat)
    (hj : j < cfg.BOARD_WIDTH * cfg.BOARD_HEIGHT) :
    piece_at cfg (restrict_from cfg Q i) j = if i ≤ j then piece_at cfg Q j else EMPTY := by
  obtain ⟨h1, h2, h3⟩ := square_of_index cfg j hj
  unfold piece_at restrict_from
  rw [h3]
  by_cases h : i ≤ j
  · rw [if_pos ⟨h1, h2, h⟩, if_pos h]
  · rw [if_neg (fun hh => h hh.2.2), if_neg h]

theorem non_attacking_restrict_from (cfg : config) (Q : Nat → Nat → piece) (i : Nat)
    (hQ : non_attacking cfg Q) : non_attacking cfg (restrict_from cfg Q i) := by
  intro r hr c hc r' hr' c' hc' hne hp hatt
  unfold restrict_from at hp hatt
  split at hp
  · split at hatt
    · exact hQ r hr c hc r' hr' c' hc' hne hp hatt
    · exact hatt
  · exact hp rfl

theorem uses_squares_restrict_from (cfg : config) (Q : Nat → Nat → piece) (i : Nat) :
    uses_squares cfg (restrict_from cfg Q i) i (cfg.BOARD_WIDTH * cfg.BOARD_HEIGHT) := by
  intro r c h
  unfold restrict_from at h
  split at h
  · rename_i hh
    exact ⟨hh.1, hh.2.1, hh.2.2, index_lt cfg r c hh.1 hh.2.1⟩
  · exact absurd rfl h

/-- The value of a placement is the value of its part before the square `i`
plus the value of its part from the square `i` on. -/
theorem value_below_split (cfg : config) (Q : Nat → Nat → piece) (i : Nat) :
    ∀ m, m ≤ cfg.BOARD_WIDTH * cfg.BOARD_HEIGHT →
      value_below cfg Q m =
        value_below cfg Q (min m i) + value_below cfg (restrict_from cfg Q i) m := by
  intro m
  induction m with
  | zero => intro _; simp [value_below]
  | succ m ih =>
    intro hm
    have h1 := piece_at_restrict_from cfg Q i m (by omega)
    unfold piece_at at h1
    rw [value_below_succ cfg (restrict_from cfg Q i), h1, value_below_succ, ih (by omega)]
    by_cases h : i ≤ m
    · rw [if_pos h, Nat.min_eq_right h, Nat.min_eq_right (by omega : i ≤ m + 1)]
      omega
    · rw [if_neg h, Nat.min_eq_left (by omega : m ≤ i), Nat.min_eq_left (by omega : m + 1 ≤ i),
        value_below_succ]
      simp only [piece_value]
      omega

theorem extends_to_score_le {s s' : state} (h : extends_to s s') :
    s.maximum_board.score ≤ s'.maximum_board.score := by
  obtain ⟨new, _, _, _, himp, hlast, _⟩ := h
  rw [hlast]
  exact improving_score_le _ _ himp

theorem enter_update_score (s : state) (index : Nat) :
    s.board.score ≤ (enter_update s index).maximum_board.score := by
  unfold enter_update
  simp only []
  split
  · exact le_refl _
  · rename_i h; simp only []; omega

theorem legal_board_score (cfg : config) (hf : score_fits cfg) (lo : Nat) (b : board)
    (h : legal_board cfg lo b) :
    b.score = placement_value cfg b.pieces ∧ b.score < SCORE_MAX cfg := by
  obtain ⟨⟨n, hn, hb⟩, _, _⟩ := h
  obtain ⟨_, h2, h3⟩ := board_invariant_score cfg hf n hn b hb
  refine ⟨h2, ?_⟩
  have h4 : n * ROOK_VALUE ≤ cfg.BOARD_WIDTH * cfg.BOARD_HEIGHT * ROOK_VALUE :=
    Nat.mul_le_mul_right _ hn
  unfold score_fits at hf
  omega

theorem attempt_max (cfg : config) (k : piece) (rec : state → state) (s : state)
    (row column : Nat) (hg : extra_guard cfg k s.board row column) :
    (attempt cfg k rec s row column).maximum_board =
      (rec { s with board := place_kind cfg k s.board row column }).maximum_board := by
  unfold attempt
  rw [if_pos hg]

theorem attempt_score_le (cfg : config) (k : piece) (rec : state → state) (s : state)
    (row column : Nat) (hmono : ∀ t, t.maximum_board.score ≤ (rec t).maximum_board.score) :
    s.maximum_board.score ≤ (attempt cfg k rec s row column).maximum_board.score := by
  unfold attempt
  split
  · exact hmono { s with board := place_kind cfg k s.board row column }
  · exact le_refl _

/-- When the extra test holds for the kind `k`, the four guarded blocks of
`maximize` include the recursive call made with a piece of kind `k` on the
square, and the best score they end with is at least the one of that call. -/
theorem attempts_reaches (cfg : config) (hs : population_static_assert cfg) (lo n : Nat)
    (rec : state → state) (s : state) (h : state_ok cfg lo n s)
    (hn : n < cfg.BOARD_WIDTH * cfg.BOARD_HEIGHT) (hlo : lo ≤ n)
    (ha : attacked cfg s.board (n / cfg.BOARD_WIDTH) (n % cfg.BOARD_WIDTH) = false)
    (hrec : ∀ t, state_ok cfg lo (n + 1) t → sound_step cfg lo t (rec t))
    (hmono : ∀ t, t.maximum_board.score ≤ (rec t).maximum_board.score)
    (k : piece) (hk : k ≠ EMPTY)
    (hg : extra_guard cfg k s.board (n / cfg.BOARD_WIDTH) (n % cfg.BOARD_WIDTH)) :
    ∃ t, state_ok cfg lo n t ∧ t.board = s.board ∧
      (rec { t with
        board := place_kind cfg k t.board (n / cfg.BOARD_WIDTH) (n % cfg.BOARD_WIDTH)
        }).maximum_board.score ≤
        (attempts cfg rec s (n / cfg.BOARD_WIDTH) (n % cfg.BOARD_WIDTH)).maximum_board.score := by
  have q1 := attempt_sound cfg hs lo n ROOK rec s h hn hlo ha hrec
  have k1 := state_ok_of_step h q1
  generalize ha1 : attempt cfg ROOK rec s (n / cfg.BOARD_WIDTH) (n % cfg.BOARD_WIDTH) = a1
    at q1 k1
  have q2 := attempt_sound cfg hs lo n BISHOP rec a1 k1 hn hlo (by rw [q1.1]; exact ha) hrec
  have k2 := state_ok_of_step k1 q2
  generalize ha2 : attempt cfg BISHOP rec a1 (n / cfg.BOARD_WIDTH) (n % cfg.BOARD_WIDTH) = a2
    at q2 k2
  have q3 := attempt_sound cfg hs lo n KING rec a2 k2 hn hlo (by rw [q2.1, q1.1]; exact ha) hrec
  have k3 := state_ok_of_step k2 q3
  generalize ha3 : attempt cfg KING rec a2 (n / cfg.BOARD_WIDTH) (n % cfg.BOARD_WIDTH) = a3
    at q3 k3
  have hA : attempts cfg rec s (n / cfg.BOARD_WIDTH) (n % cfg.BOARD_WIDTH) =
      attempt cfg KNIGHT rec a3 (n / cfg.BOARD_WIDTH) (n % cfg.BOARD_WIDTH) := by
    rw [← ha3, ← ha2, ← ha1]; rfl
  rw [hA]
  have m2 : a1.maximum_board.score ≤ a2.maximum_board.score := by
    rw [← ha2]; exact attempt_score_le cfg _ rec a1 _ _ hmono
  have m3 : a2.maximum_board.score ≤ a3.maximum_board.score := by
    rw [← ha3]; exact attempt_score_le cfg _ rec a2 _ _ hmono
  have m4 := attempt_score_le cfg KNIGHT rec a3 (n / cfg.BOARD_WIDTH) (n % cfg.BOARD_WIDTH) hmono
  cases k
  · exact absurd rfl hk
  · refine ⟨a3, k3, by rw [q3.1, q2.1, q1.1], ?_⟩
    rw [attempt_max cfg KNIGHT rec a3 _ _ (by rw [q3.1, q2.1, q1.1]; exact hg)]
  · refine ⟨a1, k1, q1.1, ?_⟩
    have e := attempt_max cfg BISHOP rec a1 _ _ (by rw [q1.1]; exact hg)
    rw [ha2] at e
    rw [← e]
    omega
  · refine ⟨s, h, rfl, ?_⟩
    have e := attempt_max cfg ROOK rec s _ _ hg
    rw [ha1] at e
    rw [← e]
    omega
  · refine ⟨a2, k2, by rw [q2.1, q1.1], ?_⟩
    have e := attempt_max cfg KING rec a2 _ _ (by rw [q2.1, q1.1]; exact hg)
    rw [ha3] at e
    rw [← e]
    omega

/-- Completeness of `maximize`: entered for the square `index` on a board that
a placement `Q` without attacks continues, with valid bounds in `limits` for
the later squares (and, for `index` itself, either a valid bound or the value
`SCORE_MAX` on a board without score), it returns with a best score of at
least the value of `Q`. -/
theorem run_complete (cfg : config) (hs : population_static_assert cfg) (hf : score_fits cfg)
    (limits : Nat → Nat) (lo : Nat) :
    ∀ (remaining : Nat) (s : state), remaining ≤ cfg.BOARD_WIDTH * cfg.BOARD_HEIGHT →
      lo ≤ cfg.BOARD_WIDTH * cfg.BOARD_HEIGHT - remaining →
      state_ok cfg lo (cfg.BOARD_WIDTH * cfg.BOARD_HEIGHT - remaining) s →
      (∀ j, cfg.BOARD_WIDTH * cfg.BOARD_HEIGHT - remaining < j →
        j < cfg.BOARD_WIDTH * cfg.BOARD_HEIGHT → valid_bound cfg limits j) →
      (0 < remaining →
        valid_bound cfg limits (cfg.BOARD_WIDTH * cfg.BOARD_HEIGHT - remaining) ∨
        (s.board.score = 0 ∧
          limits (cfg.BOARD_WIDTH * cfg.BOARD_HEIGHT - remaining) = SCORE_MAX cfg)) →
      ∀ Q, non_attacking cfg Q →
        (∀ j, j < cfg.BOARD_WIDTH * cfg.BOARD_HEIGHT - remaining →
          piece_at cfg Q j = piece_at cfg s.board.pieces j) →
        placement_value cfg Q ≤ (run cfg limits remaining s).maximum_board.score := by
  intro remaining
  induction remaining with
  | zero =>
    intro s _ _ h _ _ Q _ hag
    have h1 := (board_invariant_score cfg hf _ (le_refl _) s.board h.1).1
    have h2 : placement_value cfg Q = s.board.score := by
      rw [h1]; exact value_below_congr cfg Q s.board.pieces _ hag
    rw [h2]
    exact enter_update_score s _
  | succ remaining ih =>
    intro s hrem hlo h hvalid htop Q hQ hag
    have hidx : cfg.BOARD_WIDTH * cfg.BOARD_HEIGHT - (remaining + 1) <
        cfg.BOARD_WIDTH * cfg.BOARD_HEIGHT := by omega
    have hnext : cfg.BOARD_WIDTH * cfg.BOARD_HEIGHT - (remaining + 1) + 1 =
        cfg.BOARD_WIDTH * cfg.BOARD_HEIGHT - remaining := by omega
    have hrec : ∀ t, state_ok cfg lo (cfg.BOARD_WIDTH * cfg.BOARD_HEIGHT - (remaining + 1) + 1) t →
        sound_step cfg lo t (run cfg limits remaining t) := by
      intro t ht
      exact run_sound cfg hs limits lo remaining t (by omega) (by omega) (hnext ▸ ht)
    have hmono : ∀ t : state,
        t.maximum_board.score ≤ (run cfg limits remaining t).maximum_board.score :=
      fun t => extends_to_score_le (extends_to_run cfg limits remaining t)
    -- the recursive call, on a state that `Q` continues up to the next square
    have hcall : ∀ t, state_ok cfg lo (cfg.BOARD_WIDTH * cfg.BOARD_HEIGHT - (remaining + 1) + 1) t →
        (∀ j, j < cfg.BOARD_WIDTH * cfg.BOARD_HEIGHT - (remaining + 1) + 1 →
          piece_at cfg Q j = piece_at cfg t.board.pieces j) →
        placement_value cfg Q ≤ (run cfg limits remaining t).maximum_board.score := by
      intro t ht htag
      refine ih t (by omega) (by omega) (hnext ▸ ht) (fun j hj1 hj2 => hvalid j (by omega) hj2)
        (fun hpos => Or.inl (hvalid _ (by omega) (by omega))) Q hQ
        (fun j hj => htag j (by omega))
    have hsc := board_invariant_score cfg hf _ (le_of_lt hidx) s.board h.1
    have hes := enter_update_score s (cfg.BOARD_WIDTH * cfg.BOARD_HEIGHT - (remaining + 1))
    rw [run]
    simp only [run_step]
    have q1 := sound_enter_update cfg lo _ s (cfg.BOARD_WIDTH * cfg.BOARD_HEIGHT - (remaining + 1))
      h (le_of_lt hidx)
    generalize enter_update s (cfg.BOARD_WIDTH * cfg.BOARD_HEIGHT - (remaining + 1)) = s1
      at q1 hes ⊢
    have k1 := state_ok_of_step h q1
    have q2 := sound_test_update cfg lo s1 (cfg.BOARD_WIDTH * cfg.BOARD_HEIGHT - (remaining + 1))
      (limits (cfg.BOARD_WIDTH * cfg.BOARD_HEIGHT - (remaining + 1))) k1.2.2.2
    have hm2 : (test_update s1 (cfg.BOARD_WIDTH * cfg.BOARD_HEIGHT - (remaining + 1))
      (limits (cfg.BOARD_WIDTH * cfg.BOARD_HEIGHT - (remaining + 1)))).maximum_board =
        s1.maximum_board := rfl
    generalize test_update s1 (cfg.BOARD_WIDTH * cfg.BOARD_HEIGHT - (remaining + 1))
      (limits (cfg.BOARD_WIDTH * cfg.BOARD_HEIGHT - (remaining + 1))) = s2 at q2 hm2 ⊢
    have k2 := state_ok_of_step k1 q2
    have hb2 : s2.board = s.board := q2.1.trans q1.1
    have hag2 : ∀ j, j < cfg.BOARD_WIDTH * cfg.BOARD_HEIGHT - (remaining + 1) →
        piece_at cfg Q j = piece_at cfg s2.board.pieces j := by
      intro j hj; rw [hb2]; exact hag j hj
    have hempty := board_invariant_piece_at cfg _ s2.board k2.1 _ (le_refl _)
    generalize hindex : cfg.BOARD_WIDTH * cfg.BOARD_HEIGHT - (remaining + 1) = index at *
    split
    · rename_i hle
      rw [hb2, hm2] at hle
      rcases htop (Nat.succ_pos _) with ⟨hv1, hv2⟩ | ⟨h0, hmax⟩
      · have hsum : s.board.score + limits index < SCORE_MOD cfg := by
          have := hsc.2.2
          unfold score_fits SCORE_MAX at hf
          unfold SCORE_MOD
          simp only [ROOK_VALUE] at *
          omega
        rw [Nat.mod_eq_of_lt hsum] at hle
        have hsplit := value_below_split cfg Q index _ (le_refl _)
        rw [Nat.min_eq_right (le_of_lt hidx)] at hsplit
        have hv := hv1 _ (non_attacking_restrict_from cfg Q index hQ)
          (uses_squares_restrict_from cfg Q index)
        have hq : value_below cfg Q index = s.board.score := by
          rw [hsc.1]; exact value_below_congr cfg Q s.board.pieces _ hag
        unfold placement_value at hv ⊢
        rw [hm2]
        omega
      · exfalso
        have hlt := (legal_board_score cfg hf lo _ k1.2.2.2).2
        rw [h0, hmax, Nat.zero_add] at hle
        have : SCORE_MAX cfg < SCORE_MOD cfg := by
          have := SCORE_MOD_pos cfg
          unfold SCORE_MAX SCORE_MOD at *
          omega
        rw [Nat.mod_eq_of_lt this] at hle
        omega
    · split
      · rename_i hatt
        have he := attacked_forces_empty cfg index hidx s2.board k2.1 Q hQ hag2
          (by rw [hatt]; exact Bool.noConfusion)
        refine hcall s2 (state_ok_succ cfg hs lo _ s2 k2 hidx hlo) ?_
        intro j hj
        rcases Nat.lt_succ_iff_lt_or_eq.1 hj with hlt | rfl
        · exact hag2 j hlt
        · rw [he, hempty]
      · rename_i hna
        have ha := Bool.eq_false_iff.2 hna
        have q3 := attempts_sound cfg hs lo _ (run cfg limits remaining) s2 k2 hidx hlo ha hrec
        have k3 := state_ok_of_step k2 q3
        by_cases hk : piece_at cfg Q index = EMPTY
        · refine hcall _ (state_ok_succ cfg hs lo _ _ k3 hidx hlo) ?_
          intro j hj
          rw [q3.1]
          rcases Nat.lt_succ_iff_lt_or_eq.1 hj with hlt | rfl
          · exact hag2 j hlt
          · rw [hk, hempty]
        · have hg := extra_guard_of_non_attacking cfg index hidx s2.board k2.1 Q hQ hag2 hk
          obtain ⟨t, kt, et, hle⟩ := attempts_reaches cfg hs lo index (run cfg limits remaining)
            s2 k2 hidx hlo ha hrec hmono _ hk hg
          have hat : attacked cfg t.board (index / cfg.BOARD_WIDTH) (index % cfg.BOARD_WIDTH) =
              false := by rw [et]; exact ha
          have hgt : extra_guard cfg (piece_at cfg Q index) t.board (index / cfg.BOARD_WIDTH)
              (index % cfg.BOARD_WIDTH) := by rw [et]; exact hg
          have h0 := state_ok_place cfg hs lo index t kt hidx hlo _ (Or.inr ⟨hat, hgt⟩)
          have hv := hcall _ h0 (by
            intro j hj
            simp only []
            rw [piece_at_place_kind cfg _ t.board index j (by rw [et]; exact hempty)]
            rcases Nat.lt_succ_iff_lt_or_eq.1 hj with hlt | rfl
            · rw [if_neg (Nat.ne_of_lt hlt), et]; exact hag2 j hlt
            · rw [if_pos rfl])
          exact le_trans (le_trans hv hle) (hmono _)

/-! ## The indices at which the search runs -/

theorem hist_step_refl (cfg : config) (limits : Nat → Nat) (lo : Nat) (s : state) :
    hist_step cfg limits lo s s :=
  ⟨[], by simp, by simp⟩

theorem hist_step_trans {cfg : config} {limits : Nat → Nat} {lo : Nat} {s s' s'' : state}
    (h1 : hist_step cfg limits lo s s') (h2 : hist_step cfg limits lo s' s'') :
    hist_step cfg limits lo s s'' := by
  obtain ⟨k1, e1, f1⟩ := h1
  obtain ⟨k2, e2, f2⟩ := h2
  refine ⟨k1 ++ k2, by rw [e2, e1, List.append_assoc], ?_⟩
  intro e he
  rcases List.mem_append.1 he with h | h
  · exact f1 e h
  · exact f2 e h

theorem index_ok_mono (cfg : config) (limits : Nat → Nat) (lo lo' : Nat) (h : lo' ≤ lo)
    (e : event) (he : index_ok cfg limits lo e) : index_ok cfg limits lo' e := by
  cases e with
  | start i b => trivial
  | enter b m i => exact ⟨le_trans h he.1, he.2⟩
  | test j sc l => exact ⟨le_trans h he.1, he.2⟩
  | unplaced b => trivial

theorem hist_step_mono {cfg : config} {limits : Nat → Nat} {lo lo' : Nat} {s s' : state}
    (h : lo' ≤ lo) (h1 : hist_step cfg limits lo s s') : hist_step cfg limits lo' s s' := by
  obtain ⟨k1, e1, f1⟩ := h1
  exact ⟨k1, e1, fun e he => index_ok_mono cfg limits lo lo' h e (f1 e he)⟩

theorem hist_enter_update (cfg : config) (limits : Nat → Nat) (s : state) (index : Nat)
    (h : index ≤ cfg.BOARD_WIDTH * cfg.BOARD_HEIGHT) :
    hist_step cfg limits index s (enter_update s index) := by
  unfold enter_update
  simp only []
  split <;>
  · refine ⟨[event.enter s.board s.maximum_board index], rfl, ?_⟩
    intro e he; rw [List.mem_singleton] at he; subst he; exact ⟨le_refl _, h⟩

theorem hist_test_update (cfg : config) (limits : Nat → Nat) (s : state) (index : Nat)
    (h : index < cfg.BOARD_WIDTH * cfg.BOARD_HEIGHT) :
    hist_step cfg limits index s (test_update s index (limits index)) := by
  refine ⟨[event.test index s.board.score (limits index)], rfl, ?_⟩
  intro e he; rw [List.mem_singleton] at he; subst he; exact ⟨le_refl _, h, rfl⟩

theorem hist_attempt (cfg : config) (limits : Nat → Nat) (lo : Nat) (k : piece)
    (rec : state → state) (s : state) (row column : Nat)
    (hrec : ∀ t, hist_step cfg limits lo t (rec t)) :
    hist_step cfg limits lo s (attempt cfg k rec s row column) := by
  unfold attempt
  split
  · obtain ⟨hh, q1, q2⟩ := hrec { s with board := place_kind cfg k s.board row column }
    simp only [] at q1 ⊢
    refine ⟨hh ++ [event.unplaced _], by rw [q1, List.append_assoc], ?_⟩
    intro e he
    rcases List.mem_append.1 he with h' | h'
    · exact q2 e h'
    · rw [List.mem_singleton] at h'; subst h'; trivial
  · exact hist_step_refl cfg limits lo s

theorem hist_attempts (cfg : config) (limits : Nat → Nat) (lo : Nat)
    (rec : state → state) (s : state) (row column : Nat)
    (hrec : ∀ t, hist_step cfg limits lo t (rec t)) :
    hist_step cfg limits lo s (attempts cfg rec s row column) := by
  unfold attempts
  exact hist_step_trans (hist_step_trans (hist_step_trans
    (hist_attempt cfg limits lo ROOK rec s row column hrec)
    (hist_attempt cfg limits lo BISHOP rec _ row column hrec))
    (hist_attempt cfg limits lo KING rec _ row column hrec))
    (hist_attempt cfg limits lo KNIGHT rec _ row column hrec)

theorem run_hist (cfg : config) (limits : Nat → Nat) :
    ∀ (remaining : Nat) (s : state), remaining ≤ cfg.BOARD_WIDTH * cfg.BOARD_HEIGHT →
      hist_step cfg limits (cfg.BOARD_WIDTH * cfg.BOARD_HEIGHT - remaining) s
        (run cfg limits remaining s) := by
  intro remaining
  induction remaining with
  | zero => intro s _; exact hist_enter_update cfg limits s _ (le_refl _)
  | succ remaining ih =>
    intro s hrem
    have hidx : cfg.BOARD_WIDTH * cfg.BOARD_HEIGHT - (remaining + 1) <
        cfg.BOARD_WIDTH * cfg.BOARD_HEIGHT := by omega
    have hrec : ∀ t, hist_step cfg limits (cfg.BOARD_WIDTH * cfg.BOARD_HEIGHT - (remaining + 1)) t
        (run cfg limits remaining t) :=
      fun t => hist_step_mono (by omega) (ih t (by omega))
    rw [run]
    simp only [run_step]
    have q1 := hist_enter_update cfg limits s _ (le_of_lt hidx)
    generalize enter_update s (cfg.BOARD_WIDTH * cfg.BOARD_HEIGHT - (remaining + 1)) = s1 at q1 ⊢
    have q2 := hist_test_update cfg limits s1 _ hidx
    generalize test_update s1 (cfg.BOARD_WIDTH * cfg.BOARD_HEIGHT - (remaining + 1))
      (limits (cfg.BOARD_WIDTH * cfg.BOARD_HEIGHT - (remaining + 1))) = s2 at q2 ⊢
    have q12 := hist_step_trans q1 q2
    split
    · exact q12
    · split
      · exact hist_step_trans q12 (hrec s2)
      · exact hist_step_trans (hist_step_trans q12
          (hist_attempts cfg limits _ (run cfg limits remaining) s2 _ _ hrec)) (hrec _)

/-! ## The loop of `main` -/

theorem run_loop_in_range (cfg : config) :
    ∀ (i : Nat) (s : state) (limits : Nat → Nat), i ≤ cfg.BOARD_WIDTH * cfg.BOARD_HEIGHT →
      (∀ e ∈ s.history, in_range cfg e) →
      ∀ e ∈ (run_loop cfg i s limits).1.history, in_range cfg e := by
  intro i
  induction i with
  | zero => intro s limits _ h; exact h
  | succ i ih =>
    intro s limits hi h
    rw [run_loop]
    refine ih _ _ (by omega) ?_
    obtain ⟨hh, q1, q2⟩ := run_hist cfg limits (cfg.BOARD_WIDTH * cfg.BOARD_HEIGHT - i)
      { s with history := s.history ++ [event.start i s.board] } (Nat.sub_le _ _)
    rw [q1]
    intro e he
    rcases List.mem_append.1 he with he | he
    · rcases List.mem_append.1 he with he | he
      · exact h e he
      · rw [List.mem_singleton] at he; subst he; exact hi
    · have := q2 e he
      cases e with
      | start j b => exact absurd this (by
          have := extends_to_run cfg limits (cfg.BOARD_WIDTH * cfg.BOARD_HEIGHT - i)
            { s with history := s.history ++ [event.start i s.board] }
          obtain ⟨_, h', _, e2, _, _, _, f⟩ := this
          rw [q1] at e2
          have := List.append_cancel_left e2
          subst this
          intro _
          exact f _ he j b rfl)
      | enter b m j => exact this.2
      | test j sc l => exact this.2.1
      | unplaced b => trivial

theorem legal_board_mono {cfg : config} {lo lo' : Nat} {b : board} (h : lo' ≤ lo)
    (hb : legal_board cfg lo b) : legal_board cfg lo' b :=
  ⟨hb.1, hb.2.1, fun r c hne => le_trans h (hb.2.2 r c hne)⟩

theorem event_legal_mono {cfg : config} {lo lo' : Nat} (h : lo' ≤ lo) (e : event)
    (he : event_legal cfg lo e) : event_legal cfg lo' e := by
  cases e with
  | start i b => exact legal_board_mono h he
  | enter b m i => exact ⟨legal_board_mono h he.1, legal_board_mono h he.2⟩
  | test j sc l => trivial
  | unplaced b => exact legal_board_mono h he

theorem non_attacking_EMPTY_BOARD (cfg : config) : non_attacking cfg EMPTY_BOARD.pieces :=
  fun _ _ _ _ _ _ _ _ _ hp _ => hp rfl

theorem legal_board_EMPTY_BOARD (cfg : config) (lo : Nat) : legal_board cfg lo EMPTY_BOARD :=
  ⟨⟨0, Nat.zero_le _, board_invariant_EMPTY_BOARD cfg 0⟩, non_attacking_EMPTY_BOARD cfg,
    fun _ _ hne => absurd rfl hne⟩

/-- One iteration of the loop of `main`, seen from the boards. -/
theorem iteration_sound (cfg : config) (hs : population_static_assert cfg) (limits : Nat → Nat)
    (i : Nat) (s : state) (hi : i < cfg.BOARD_WIDTH * cfg.BOARD_HEIGHT)
    (hb : s.board = EMPTY_BOARD) (hm : legal_board cfg (i + 1) s.maximum_board) :
    state_ok cfg i i { s with history := s.history ++ [event.start i s.board] } ∧
    sound_step cfg i { s with history := s.history ++ [event.start i s.board] }
      (run cfg limits (cfg.BOARD_WIDTH * cfg.BOARD_HEIGHT - i)
        { s with history := s.history ++ [event.start i s.board] }) := by
  have e : cfg.BOARD_WIDTH * cfg.BOARD_HEIGHT - (cfg.BOARD_WIDTH * cfg.BOARD_HEIGHT - i) = i := by
    omega
  have h0 : state_ok cfg i i { s with history := s.history ++ [event.start i s.board] } := by
    refine ⟨?_, ?_, ?_, legal_board_mono (Nat.le_succ i) hm⟩
    · simp only [hb]; exact board_invariant_EMPTY_BOARD cfg i
    · simp only [hb]; exact non_attacking_EMPTY_BOARD cfg
    · simp only [hb]; intro r c hne; exact absurd rfl hne
  refine ⟨h0, ?_⟩
  refine run_sound cfg hs limits i _ _ (Nat.sub_le _ _) (by omega) ?_
  rw [e]; exact h0

theorem run_loop_sound (cfg : config) (hs : population_static_assert cfg) :
    ∀ (i : Nat) (s : state) (limits : Nat → Nat), i ≤ cfg.BOARD_WIDTH * cfg.BOARD_HEIGHT →
      s.board = EMPTY_BOARD → legal_board cfg i s.maximum_board →
      (∀ b ∈ s.output, legal_board cfg 0 b) → (∀ e ∈ s.history, event_legal cfg 0 e) →
      (run_loop cfg i s limits).1.board = EMPTY_BOARD ∧
      legal_board cfg 0 (run_loop cfg i s limits).1.maximum_board ∧
      (∀ b ∈ (run_loop cfg i s limits).1.output, legal_board cfg 0 b) ∧
      (∀ e ∈ (run_loop cfg i s limits).1.history, event_legal cfg 0 e) := by
  intro i
  induction i with
  | zero => intro s limits _ hb hm ho hh; exact ⟨hb, hm, ho, hh⟩
  | succ i ih =>
    intro s limits hi hb hm ho hh
    rw [run_loop]
    obtain ⟨h0, e1, m1, ⟨new, o1, o2⟩, ⟨k, q1, q2⟩⟩ := iteration_sound cfg hs limits i s hi hb hm
    refine ih _ _ (by omega) (e1.trans hb) m1 ?_ ?_
    · rw [o1]
      intro b hbm
      rcases List.mem_append.1 hbm with hbm | hbm
      · exact ho b hbm
      · exact legal_board_mono (Nat.zero_le _) (o2 b hbm)
    · rw [q1]
      intro e he
      rcases List.mem_append.1 he with he | he
      · rcases List.mem_append.1 he with he | he
        · exact hh e he
        · rw [List.mem_singleton] at he; subst he
          rw [hb]; exact legal_board_EMPTY_BOARD cfg 0
      · exact event_legal_mono (Nat.zero_le _) e (q2 e he)

theorem init_limits_eq (cfg : config) (j : Nat) (hj : j < cfg.BOARD_WIDTH * cfg.BOARD_HEIGHT) :
    init_limits cfg j = SCORE_MAX cfg := by
  unfold init_limits
  have key : ∀ (n : Nat) (f : Nat → Nat), j < n →
      (List.range n).foldl (fun limits i => set1 limits i (SCORE_MAX cfg)) f j = SCORE_MAX cfg := by
    intro n
    induction n with
    | zero => intro f h; omega
    | succ n ih =>
      intro f h
      rw [List.range_succ, List.foldl_append]
      simp only [List.foldl_cons, List.foldl_nil, set1]
      split
      · rfl
      · exact ih f (by omega)
  exact key _ _ hj

theorem legal_board_uses_squares (cfg : config) (lo : Nat) (b : board)
    (h : legal_board cfg lo b) :
    uses_squares cfg b.pieces lo (cfg.BOARD_WIDTH * cfg.BOARD_HEIGHT) := by
  obtain ⟨⟨n, hn, hb⟩, _, hlo⟩ := h
  intro r c hne
  obtain ⟨h1, h2⟩ := hb.support r c hne
  refine ⟨?_, h1, hlo r c hne, by omega⟩
  by_contra hr
  have := Nat.mul_le_mul_right cfg.BOARD_WIDTH (Nat.le_of_not_lt hr)
  rw [Nat.mul_comm cfg.BOARD_HEIGHT] at this
  omega

theorem uses_squares_piece_at (cfg : config) (Q : Nat → Nat → piece) (lo hi j : Nat)
    (h : uses_squares cfg Q lo hi) (hj : j < lo) : piece_at cfg Q j = EMPTY := by
  by_contra hne
  have := (h _ _ hne).2.2.1
  rw [scan_index] at this
  omega

theorem value_below_support_le (cfg : config) (P : Nat → Nat → piece) (i : Nat)
    (h : ∀ j, j < i → piece_at cfg P j = EMPTY) :
    ∀ m, value_below cfg P m ≤ (m - i) * ROOK_VALUE := by
  intro m
  induction m with
  | zero => simp [value_below]
  | succ m ih =>
    rw [value_below_succ]
    rcases Nat.lt_or_ge m i with hlt | hge
    · have h1 := h m hlt
      unfold piece_at at h1
      rw [h1]
      simp only [piece_value]
      have : m + 1 - i = 0 := by omega
      have : m - i = 0 := by omega
      simp_all
    · have h1 := piece_value_le (P (m / cfg.BOARD_WIDTH) (m % cfg.BOARD_WIDTH))
      have : m + 1 - i = (m - i) + 1 := by omega
      rw [this, Nat.succ_mul]
      omega

theorem placement_value_lt (cfg : config) (hf : score_fits cfg) (Q : Nat → Nat → piece) :
    placement_value cfg Q < SCORE_MAX cfg := by
  have := value_below_le cfg Q (cfg.BOARD_WIDTH * cfg.BOARD_HEIGHT)
  unfold score_fits at hf
  unfold placement_value
  omega

/-- One iteration of the loop of `main`, seen from the bound table: with valid
bounds for the later squares, the best score with which the call of
`maximize` for the square `i` returns is a valid bound for `i`, and the value
of a placement on the squares from `i` on. -/
theorem iteration_bound (cfg : config) (hs : population_static_assert cfg) (hf : score_fits cfg)
    (limits : Nat → Nat) (i : Nat) (s : state) (hi : i < cfg.BOARD_WIDTH * cfg.BOARD_HEIGHT)
    (hb : s.board = EMPTY_BOARD) (hm : legal_board cfg (i + 1) s.maximum_board)
    (hv : ∀ j, i < j → j < cfg.BOARD_WIDTH * cfg.BOARD_HEIGHT → valid_bound cfg limits j)
    (hmax : limits i = SCORE_MAX cfg) (limits' : Nat → Nat)
    (hl : limits' i = (run cfg limits (cfg.BOARD_WIDTH * cfg.BOARD_HEIGHT - i)
      { s with history := s.history ++ [event.start i s.board] }).maximum_board.score) :
    valid_bound cfg limits' i ∧ attained cfg limits' i := by
  have e : cfg.BOARD_WIDTH * cfg.BOARD_HEIGHT - (cfg.BOARD_WIDTH * cfg.BOARD_HEIGHT - i) = i := by
    omega
  obtain ⟨h0, _, m1, _, _⟩ := iteration_sound cfg hs limits i s hi hb hm
  have hu := legal_board_uses_squares cfg i _ m1
  have hsc := (legal_board_score cfg hf i _ m1).1
  rw [← hl] at hsc
  refine ⟨⟨?_, ?_⟩, ⟨_, m1.2.1, hu, hsc.symm⟩⟩
  · intro Q hQ hQu
    rw [hl]
    refine run_complete cfg hs hf limits i _ _ (Nat.sub_le _ _) (by omega) (by rw [e]; exact h0)
      (fun j hj1 hj2 => hv j (by omega) hj2) (fun _ => Or.inr ⟨?_, by rw [e]; exact hmax⟩) Q hQ ?_
    · simp only [hb]; rfl
    · intro j hj
      simp only [hb]
      rw [uses_squares_piece_at cfg Q i _ j hQu (by omega)]
      rfl
  · rw [hsc]
    exact value_below_support_le cfg _ i
      (fun j hj => uses_squares_piece_at cfg _ i _ j hu hj) _

theorem valid_bound_congr (cfg : config) (l1 l2 : Nat → Nat) (j : Nat) (h : l1 j = l2 j)
    (hv : valid_bound cfg l1 j) : valid_bound cfg l2 j := by
  unfold valid_bound at *
  rw [← h]; exact hv

theorem attained_congr (cfg : config) (l1 l2 : Nat → Nat) (j : Nat) (h : l1 j = l2 j)
    (hv : attained cfg l1 j) : attained cfg l2 j := by
  unfold attained at *
  rw [← h]; exact hv

theorem run_loop_bounds (cfg : config) (hs : population_static_assert cfg) (hf : score_fits cfg) :
    ∀ (i : Nat) (s : state) (limits : Nat → Nat), i ≤ cfg.BOARD_WIDTH * cfg.BOARD_HEIGHT →
      s.board = EMPTY_BOARD → legal_board cfg i s.maximum_board →
      (i < cfg.BOARD_WIDTH * cfg.BOARD_HEIGHT → s.maximum_board.score = limits i) →
      (∀ j, i ≤ j → j < cfg.BOARD_WIDTH * cfg.BOARD_HEIGHT →
        valid_bound cfg limits j ∧ attained cfg limits j) →
      (∀ j, j < i → limits j = SCORE_MAX cfg) →
      (∀ e ∈ s.history, read_valid cfg e) →
      (0 < cfg.BOARD_WIDTH * cfg.BOARD_HEIGHT →
        (run_loop cfg i s limits).1.maximum_board.score = (run_loop cfg i s limits).2 0) ∧
      (∀ j, j < cfg.BOARD_WIDTH * cfg.BOARD_HEIGHT →
        valid_bound cfg (run_loop cfg i s limits).2 j ∧
        attained cfg (run_loop cfg i s limits).2 j) ∧
      (∀ e ∈ (run_loop cfg i s limits).1.history, read_valid cfg e) := by
  intro i
  induction i with
  | zero =>
    intro s limits _ _ _ h1 h2 _ h3
    exact ⟨h1, fun j hj => h2 j (Nat.zero_le _) hj, h3⟩
  | succ i ih =>
    intro s limits hi hb hm _ hv hmax hh
    rw [run_loop]
    obtain ⟨h0, e1, m1, _, _⟩ := iteration_sound cfg hs limits i s hi hb hm
    have hvi := iteration_bound cfg hs hf limits i s hi hb hm
      (fun j hj1 hj2 => (hv j (by omega) hj2).1) (hmax i (Nat.lt_succ_self i))
    obtain ⟨k, q1, q2⟩ := run_hist cfg limits (cfg.BOARD_WIDTH * cfg.BOARD_HEIGHT - i)
      { s with history := s.history ++ [event.start i s.board] } (Nat.sub_le _ _)
    generalize run cfg limits (cfg.BOARD_WIDTH * cfg.BOARD_HEIGHT - i)
      { s with history := s.history ++ [event.start i s.board] } = s1 at e1 m1 hvi q1 ⊢
    refine ih s1 _ (by omega) (e1.trans hb) m1 (fun _ => by simp [set1]) ?_ ?_ ?_
    · intro j hj1 hj2
      rcases Nat.eq_or_lt_of_le hj1 with rfl | hlt
      · exact hvi _ (by simp [set1])
      · have hne : ¬ j = i := by omega
        have e : limits j = set1 limits i s1.maximum_board.score j := by simp [set1, hne]
        exact ⟨valid_bound_congr cfg _ _ j e (hv j (by omega) hj2).1,
          attained_congr cfg _ _ j e (hv j (by omega) hj2).2⟩
    · intro j hj
      have hne : ¬ j = i := by omega
      simp only [set1, if_neg hne]
      exact hmax j (by omega)
    · rw [q1]
      intro e he
      rcases List.mem_append.1 he with he | he
      · rcases List.mem_append.1 he with he | he
        · exact hh e he
        · rw [List.mem_singleton] at he; subst he; trivial
      · have hq := q2 e he
        cases e with
        | start j b => trivial
        | enter b m j => trivial
        | unplaced b => trivial
        | test j sc l =>
          obtain ⟨a1, a2, a3⟩ := hq
          intro Q hQ hQu
          rw [a3]
          rcases Nat.eq_or_lt_of_le a1 with heq | hlt
          · have e : j = i := by omega
            rw [e, hmax i (Nat.lt_succ_self i)]
            exact le_of_lt (placement_value_lt cfg hf Q)
          · exact (hv j (by omega) a2).1.1 Q hQ hQu

/-! ## The complete computation -/

theorem main_sound (cfg : config) (hs : population_static_assert cfg) :
    ∃ r, main cfg = some r ∧ r.1.board = EMPTY_BOARD ∧ legal_board cfg 0 r.1.maximum_board ∧
      (∀ b ∈ r.1.output, legal_board cfg 0 b) ∧ (∀ e ∈ r.1.history, event_legal cfg 0 e) :=
  ⟨_, main_eq cfg, run_loop_sound cfg hs _ _ _ (le_refl _) rfl (legal_board_EMPTY_BOARD cfg _)
    (by simp) (by simp)⟩

theorem main_bounds (cfg : config) (hs : population_static_assert cfg) (hf : score_fits cfg) :
    ∃ r, main cfg = some r ∧ legal_board cfg 0 r.1.maximum_board ∧
      (0 < cfg.BOARD_WIDTH * cfg.BOARD_HEIGHT → r.1.maximum_board.score = r.2 0) ∧
      (∀ j, j < cfg.BOARD_WIDTH * cfg.BOARD_HEIGHT → valid_bound cfg r.2 j ∧ attained cfg r.2 j) ∧
      (∀ e ∈ r.1.history, read_valid cfg e) := by
  obtain ⟨r, h1, _, h2, _⟩ := main_sound cfg hs
  have h3 := run_loop_bounds cfg hs hf (cfg.BOARD_WIDTH * cfg.BOARD_HEIGHT)
    ⟨EMPTY_BOARD, EMPTY_BOARD, [], []⟩ (init_limits cfg) (le_refl _) rfl
    (legal_board_EMPTY_BOARD cfg _) (fun h => absurd h (lt_irrefl _))
    (fun j hj1 hj2 => absurd hj2 (by omega)) (fun j hj => init_limits_eq cfg j hj) (by simp)
  rw [main_eq] at h1
  injection h1 with h1
  rw [h1] at h3
  exact ⟨r, by rw [main_eq, h1], h2, h3⟩

theorem legal_board_flags (cfg : config) (lo : Nat) (b : board) (h : legal_board cfg lo b) :
    flags_invariant cfg b := by
  obtain ⟨⟨n, hn, hb⟩, _, _⟩ := h
  have hsq : ∀ j, j < n → j / cfg.BOARD_WIDTH < cfg.BOARD_HEIGHT ∧
      j % cfg.BOARD_WIDTH < cfg.BOARD_WIDTH := by
    intro j hj
    obtain ⟨a1, a2, _⟩ := square_of_index cfg j (by omega)
    exact ⟨a1, a2⟩
  have hidx : ∀ r c k, k ≠ EMPTY → b.pieces r c = k →
      r * cfg.BOARD_WIDTH + c < n ∧ piece_at cfg b.pieces (r * cfg.BOARD_WIDTH + c) = k ∧
      (r * cfg.BOARD_WIDTH + c) / cfg.BOARD_WIDTH = r ∧
      (r * cfg.BOARD_WIDTH + c) % cfg.BOARD_WIDTH = c := by
    intro r c k hk hp
    obtain ⟨a1, a2⟩ := hb.support r c (by rw [hp]; exact hk)
    obtain ⟨a3, a4⟩ := square_index cfg r c a1
    refine ⟨a2, ?_, a3, a4⟩
    unfold piece_at
    rw [a3, a4, hp]
  refine ⟨?_, ?_, ?_, ?_⟩
  · intro r _
    rw [hb.rows_attacked]
    constructor
    · rintro ⟨j, hj, hp, rfl⟩
      exact ⟨j % cfg.BOARD_WIDTH, (hsq j hj).2, hp⟩
    · rintro ⟨c, _, hp⟩
      obtain ⟨a1, a2, a3, _⟩ := hidx r c ROOK (by decide) hp
      exact ⟨_, a1, a2, a3⟩
  · intro c _
    rw [hb.columns_attacked]
    constructor
    · rintro ⟨j, hj, hp, rfl⟩
      exact ⟨j / cfg.BOARD_WIDTH, (hsq j hj).1, hp⟩
    · rintro ⟨r, _, hp⟩
      obtain ⟨a1, a2, _, a4⟩ := hidx r c ROOK (by decide) hp
      exact ⟨_, a1, a2, a4⟩
  · intro d
    rw [hb.upward_diagonals_attacked]
    constructor
    · rintro ⟨j, hj, hp, hd⟩
      refine ⟨j / cfg.BOARD_WIDTH, j % cfg.BOARD_WIDTH, (hsq j hj).1, (hsq j hj).2, hp, ?_⟩
      unfold upward_diagonal at hd ⊢
      generalize j / cfg.BOARD_WIDTH = a at *
      generalize j % cfg.BOARD_WIDTH = c at *
      omega
    · rintro ⟨r, c, _, _, hp, hd⟩
      obtain ⟨a1, a2, a3, a4⟩ := hidx r c BISHOP (by decide) hp
      refine ⟨_, a1, a2, ?_⟩
      rw [a3, a4, hd]
      rfl
  · intro d
    rw [hb.downward_diagonals_attacked]
    constructor
    · rintro ⟨j, hj, hp, hd⟩
      refine ⟨j / cfg.BOARD_WIDTH, j % cfg.BOARD_WIDTH, (hsq j hj).1, (hsq j hj).2, hp, ?_⟩
      have := (hsq j hj).2
      unfold downward_diagonal at hd ⊢
      generalize j / cfg.BOARD_WIDTH = a at *
      generalize j % cfg.BOARD_WIDTH = c at *
      omega
    · rintro ⟨r, c, _, _, hp, hd⟩
      obtain ⟨a1, a2, a3, a4⟩ := hidx r c BISHOP (by decide) hp
      refine ⟨_, a1, a2, ?_⟩
      rw [a3, a4, hd]
      rfl

theorem non_attacking_rook_in_corner (cfg : config) : non_attacking cfg rook_in_corner := by
  intro r _ c _ r' _ c' _ hne hp hatt
  unfold rook_in_corner at hp hatt
  split at hp
  · split at hatt
    · omega
    · exact hatt
  · exact hp rfl

theorem uses_squares_rook_in_corner :
    uses_squares army_config rook_in_corner 0
      (army_config.BOARD_WIDTH * army_config.BOARD_HEIGHT) := by
  intro r c h
  unfold rook_in_corner at h
  split at h
  · rename_i hh
    obtain ⟨rfl, rfl⟩ := hh
    decide
  · exact absurd rfl h

/-- C1. Bound validity. The complete computation terminates, and at its end
every entry `limits[i]` is at least the value of every placement of knights,
bishops, rooks and kings without attacks that uses only squares of scan index
`i` or more; the final best score bounds every such placement on the whole
board; and every value the pruning test of `maximize` ever read from
`limits[j]` bounds every such placement on the squares of scan index `j` or
more. -/
theorem bound_validity (cfg : config) (hs : population_static_assert cfg)
    (hf : score_fits cfg) :
    ∃ r, main cfg = some r ∧
      (∀ i, i < cfg.BOARD_WIDTH * cfg.BOARD_HEIGHT → ∀ Q, non_attacking cfg Q →
        uses_squares cfg Q i (cfg.BOARD_WIDTH * cfg.BOARD_HEIGHT) →
        placement_value cfg Q ≤ r.2 i) ∧
      (∀ Q, non_attacking cfg Q →
        uses_squares cfg Q 0 (cfg.BOARD_WIDTH * cfg.BOARD_HEIGHT) →
        placement_value cfg Q ≤ r.1.maximum_board.score) ∧
      (∀ j sc l, event.test j sc l ∈ r.1.history → ∀ Q, non_attacking cfg Q →
        uses_squares cfg Q j (cfg.BOARD_WIDTH * cfg.BOARD_HEIGHT) →
        placement_value cfg Q ≤ l) := by
  obtain ⟨r, h1, _, h3, h4, h5⟩ := main_bounds cfg hs hf
  refine ⟨r, h1, fun i hi => (h4 i hi).1.1, ?_, fun j sc l he => h5 _ he⟩
  intro Q hQ hQu
  rcases Nat.eq_zero_or_pos (cfg.BOARD_WIDTH * cfg.BOARD_HEIGHT) with h0 | hpos
  · unfold placement_value
    rw [h0]
    exact Nat.zero_le _
  · rw [h3 hpos]
    exact (h4 0 hpos).1.1 Q hQ hQu

theorem bound_validity_witness :
    ∃ r, main army_config = some r ∧ placement_value army_config rook_in_corner ≤ r.2 0 := by
  obtain ⟨r, h1, h2, _⟩ := bound_validity army_config (by decide) (by decide)
  exact ⟨r, h1, h2 0 (by decide) rook_in_corner (non_attacking_rook_in_corner army_config)
    uses_squares_rook_in_corner⟩

/-- C2. Bound exactness. The complete computation terminates, and at its end
every entry `limits[i]` is the maximum value of a placement without attacks
that uses only squares of scan index `i` or more: it is the value of such a
placement, and no such placement is worth more; on a board with at least one
square, the pieces of the final `maximum_board` are such a placement for
`i = 0`, of value `limits[0]`, which is also the score of that board. -/
theorem bound_exactness (cfg : config) (hs : population_static_assert cfg)
    (hf : score_fits cfg) :
    ∃ r, main cfg = some r ∧
      (∀ i, i < cfg.BOARD_WIDTH * cfg.BOARD_HEIGHT →
        (∃ Q, non_attacking cfg Q ∧
          uses_squares cfg Q i (cfg.BOARD_WIDTH * cfg.BOARD_HEIGHT) ∧
          placement_value cfg Q = r.2 i) ∧
        (∀ Q, non_attacking cfg Q →
          uses_squares cfg Q i (cfg.BOARD_WIDTH * cfg.BOARD_HEIGHT) →
          placement_value cfg Q ≤ r.2 i)) ∧
      (0 < cfg.BOARD_WIDTH * cfg.BOARD_HEIGHT →
        non_attacking cfg r.1.maximum_board.pieces ∧
        uses_squares cfg r.1.maximum_board.pieces 0 (cfg.BOARD_WIDTH * cfg.BOARD_HEIGHT) ∧
        placement_value cfg r.1.maximum_board.pieces = r.2 0 ∧
        r.1.maximum_board.score = r.2 0) := by
  obtain ⟨r, h1, h2, h3, h4, _⟩ := main_bounds cfg hs hf
  refine ⟨r, h1, fun i hi => ⟨(h4 i hi).2, (h4 i hi).1.1⟩, ?_⟩
  intro hpos
  refine ⟨h2.2.1, legal_board_uses_squares cfg 0 _ h2, ?_, h3 hpos⟩
  rw [← h3 hpos]
  exact (legal_board_score cfg hf 0 _ h2).1.symm

theorem bound_exactness_witness :
    ∃ r, main army_config = some r ∧
      (∃ Q, non_attacking army_config Q ∧
        uses_squares army_config Q 63 (army_config.BOARD_WIDTH * army_config.BOARD_HEIGHT) ∧
        placement_value army_config Q = r.2 63) ∧
      non_attacking army_config r.1.maximum_board.pieces ∧
      placement_value army_config r.1.maximum_board.pieces = r.2 0 ∧
      r.1.maximum_board.score = r.2 0 := by
  obtain ⟨r, h1, h2, h3⟩ := bound_exactness army_config (by decide) (by decide)
  exact ⟨r, h1, (h2 63 (by decide)).1, (h3 (by decide)).1, (h3 (by decide)).2.2⟩

/-- C3. Soundness of the result. The complete computation started by `main`
from `EMPTY_BOARD` terminates; the final `maximum_board`, the `maximum_board`
with which every call of `maximize` is entered, and every board that is ever
copied to `maximum_board` (and printed) hold pieces only on squares of the
board, and no piece on them attacks another: no piece stands on the row or
column of a rook, on a diagonal of a bishop, next to a king, or a knight move
away from a knight. -/
theorem best_board_non_attacking (cfg : config) (hs : population_static_assert cfg) :
    ∃ r, main cfg = some r ∧
      (non_attacking cfg r.1.maximum_board.pieces ∧
        uses_squares cfg r.1.maximum_board.pieces 0 (cfg.BOARD_WIDTH * cfg.BOARD_HEIGHT)) ∧
      (∀ b m i, event.enter b m i ∈ r.1.history →
        non_attacking cfg m.pieces ∧
        uses_squares cfg m.pieces 0 (cfg.BOARD_WIDTH * cfg.BOARD_HEIGHT)) ∧
      (∀ b ∈ r.1.output,
        non_attacking cfg b.pieces ∧
        uses_squares cfg b.pieces 0 (cfg.BOARD_WIDTH * cfg.BOARD_HEIGHT)) := by
  obtain ⟨r, h1, _, h3, h4, h5⟩ := main_sound cfg hs
  refine ⟨r, h1, ⟨h3.2.1, legal_board_uses_squares cfg 0 _ h3⟩, ?_, ?_⟩
  · intro b m i he
    have := (h5 _ he).2
    exact ⟨this.2.1, legal_board_uses_squares cfg 0 _ this⟩
  · intro b hb
    exact ⟨(h4 b hb).2.1, legal_board_uses_squares cfg 0 _ (h4 b hb)⟩

theorem best_board_non_attacking_witness :
    ∃ r, main army_config = some r ∧
      (non_attacking army_config r.1.maximum_board.pieces ∧
        uses_squares army_config r.1.maximum_board.pieces 0
          (army_config.BOARD_WIDTH * army_config.BOARD_HEIGHT)) ∧
      (∀ b m i, event.enter b m i ∈ r.1.history →
        non_attacking army_config m.pieces ∧
        uses_squares army_config m.pieces 0
          (army_config.BOARD_WIDTH * army_config.BOARD_HEIGHT)) ∧
      (∀ b ∈ r.1.output,
        non_attacking army_config b.pieces ∧
        uses_squares army_config b.pieces 0
          (army_config.BOARD_WIDTH * army_config.BOARD_HEIGHT)) :=
  best_board_non_attacking army_config (by decide)

/-- C10. Attacked-flag invariant. The complete computation started by `main`
from `EMPTY_BOARD` terminates, and on every board it passes through (the
board with which `main` calls `maximize`, the board and the best board with
which `maximize` is entered, hence after every `place_*`, the board after
every `unplace_*`, and the final board) `rows_attacked[r]` is true iff a rook
stands in row `r`, `columns_attacked[c]` iff a rook stands in column `c`,
`upward_diagonals_attacked[d]` iff a bishop stands on a square with
`row + column = d`, and `downward_diagonals_attacked[d]` iff a bishop stands
on a square with `(BOARD_WIDTH - 1) + row - column = d`. -/
theorem attacked_flags_invariant (cfg : config) (hs : population_static_assert cfg) :
    ∃ r, main cfg = some r ∧ flags_invariant cfg r.1.board ∧
      flags_invariant cfg r.1.maximum_board ∧
      ∀ e ∈ r.1.history, ∀ b ∈ boards_of e, flags_invariant cfg b := by
  obtain ⟨r, h1, h2, h3, _, h5⟩ := main_sound cfg hs
  refine ⟨r, h1, ?_, legal_board_flags cfg 0 _ h3, ?_⟩
  · rw [h2]; exact legal_board_flags cfg 0 _ (legal_board_EMPTY_BOARD cfg 0)
  · intro e he b hb
    have := h5 e he
    cases e with
    | start i b' =>
      simp only [boards_of, List.mem_singleton] at hb
      subst hb; exact legal_board_flags cfg 0 _ this
    | enter b' m i =>
      simp only [boards_of, List.mem_cons, List.mem_singleton, List.not_mem_nil, or_false] at hb
      rcases hb with rfl | rfl
      · exact legal_board_flags cfg 0 _ this.1
      · exact legal_board_flags cfg 0 _ this.2
    | test j sc l => simp [boards_of] at hb
    | unplaced b' =>
      simp only [boards_of, List.mem_singleton] at hb
      subst hb; exact legal_board_flags cfg 0 _ this

theorem attacked_flags_invariant_witness :
    ∃ r, main army_config = some r ∧ flags_invariant army_config r.1.board ∧
      flags_invariant army_config r.1.maximum_board ∧
      ∀ e ∈ r.1.history, ∀ b ∈ boards_of e, flags_invariant army_config b :=
  attacked_flags_invariant army_config (by decide)

/-- C7. No out-of-range access. For every index of a square, the row and the
column `maximize` derives from it are a row and a column of the board, the
two diagonal numbers are in `[0, BOARD_HEIGHT + BOARD_WIDTH - 2]`, and every
square the bodies of `FOR_EACH_KING_ATTACK` and `FOR_EACH_KNIGHT_ATTACK` run
for is a square of the board; and in the complete computation, which
terminates, `main` calls `maximize` only for the index of a square,
`maximize` is entered only with an index of at most
`BOARD_WIDTH * BOARD_HEIGHT`, and `limits` is read only at the index of a
square. -/
theorem no_out_of_range (cfg : config) :
    (∀ index, index < cfg.BOARD_WIDTH * cfg.BOARD_HEIGHT →
      index / cfg.BOARD_WIDTH < cfg.BOARD_HEIGHT ∧
      index % cfg.BOARD_WIDTH < cfg.BOARD_WIDTH ∧
      0 ≤ downward_diagonal cfg (index / cfg.BOARD_WIDTH) (index % cfg.BOARD_WIDTH) ∧
      downward_diagonal cfg (index / cfg.BOARD_WIDTH) (index % cfg.BOARD_WIDTH) ≤
        (cfg.BOARD_HEIGHT : Int) + cfg.BOARD_WIDTH - 2 ∧
      0 ≤ upward_diagonal (index / cfg.BOARD_WIDTH) (index % cfg.BOARD_WIDTH) ∧
      upward_diagonal (index / cfg.BOARD_WIDTH) (index % cfg.BOARD_WIDTH) ≤
        (cfg.BOARD_HEIGHT : Int) + cfg.BOARD_WIDTH - 2 ∧
      (∀ a ∈ FOR_EACH_KING_ATTACK cfg (index / cfg.BOARD_WIDTH) (index % cfg.BOARD_WIDTH),
        a.1 < cfg.BOARD_HEIGHT ∧ a.2 < cfg.BOARD_WIDTH) ∧
      (∀ a ∈ FOR_EACH_KNIGHT_ATTACK cfg (index / cfg.BOARD_WIDTH) (index % cfg.BOARD_WIDTH),
        a.1 < cfg.BOARD_HEIGHT ∧ a.2 < cfg.BOARD_WIDTH)) ∧
    ∃ r, main cfg = some r ∧
      (∀ i b, event.start i b ∈ r.1.history → i < cfg.BOARD_WIDTH * cfg.BOARD_HEIGHT) ∧
      (∀ b m i, event.enter b m i ∈ r.1.history → i ≤ cfg.BOARD_WIDTH * cfg.BOARD_HEIGHT) ∧
      (∀ j sc l, event.test j sc l ∈ r.1.history → j < cfg.BOARD_WIDTH * cfg.BOARD_HEIGHT) := by
  constructor
  · intro index h
    obtain ⟨h1, h2, _⟩ := square_of_index cfg index h
    refine ⟨h1, h2, ?_, ?_, ?_, ?_, ?_, ?_⟩
    · unfold downward_diagonal
      generalize index / cfg.BOARD_WIDTH = a at *
      generalize index % cfg.BOARD_WIDTH = c at *
      omega
    · unfold downward_diagonal
      generalize index / cfg.BOARD_WIDTH = a at *
      generalize index % cfg.BOARD_WIDTH = c at *
      omega
    · unfold upward_diagonal
      generalize index / cfg.BOARD_WIDTH = a at *
      generalize index % cfg.BOARD_WIDTH = c at *
      omega
    · unfold upward_diagonal
      generalize index / cfg.BOARD_WIDTH = a at *
      generalize index % cfg.BOARD_WIDTH = c at *
      omega
    · rintro ⟨r, c⟩ ha
      rw [mem_FOR_EACH_KING_ATTACK] at ha
      exact ⟨ha.1, ha.2.1⟩
    · rintro ⟨r, c⟩ ha
      rw [mem_FOR_EACH_KNIGHT_ATTACK] at ha
      exact ⟨ha.1, ha.2.1⟩
  · have h := run_loop_in_range cfg (cfg.BOARD_WIDTH * cfg.BOARD_HEIGHT)
      ⟨EMPTY_BOARD, EMPTY_BOARD, [], []⟩ (init_limits cfg) (le_refl _) (by simp)
    exact ⟨_, main_eq cfg, fun i b he => h _ he, fun b m i he => h _ he,
      fun j sc l he => h _ he⟩

theorem no_out_of_range_witness :
    63 / army_config.BOARD_WIDTH < army_config.BOARD_HEIGHT ∧
    63 % army_config.BOARD_WIDTH < army_config.BOARD_WIDTH ∧
    0 ≤ downward_diagonal army_config (63 / army_config.BOARD_WIDTH)
      (63 % army_config.BOARD_WIDTH) ∧
    downward_diagonal army_config (63 / army_config.BOARD_WIDTH)
      (63 % army_config.BOARD_WIDTH) ≤
        (army_config.BOARD_HEIGHT : Int) + army_config.BOARD_WIDTH - 2 ∧
    0 ≤ upward_diagonal (63 / army_config.BOARD_WIDTH) (63 % army_config.BOARD_WIDTH) ∧
    upward_diagonal (63 / army_config.BOARD_WIDTH) (63 % army_config.BOARD_WIDTH) ≤
        (army_config.BOARD_HEIGHT : Int) + army_config.BOARD_WIDTH - 2 ∧
    (∀ a ∈ FOR_EACH_KING_ATTACK army_config (63 / army_config.BOARD_WIDTH)
        (63 % army_config.BOARD_WIDTH),
      a.1 < army_config.BOARD_HEIGHT ∧ a.2 < army_config.BOARD_WIDTH) ∧
    (∀ a ∈ FOR_EACH_KNIGHT_ATTACK army_config (63 / army_config.BOARD_WIDTH)
        (63 % army_config.BOARD_WIDTH),
      a.1 < army_config.BOARD_HEIGHT ∧ a.2 < army_config.BOARD_WIDTH) :=
  (no_out_of_range army_config).1 63 (by decide)

/-! ## The forward attack sets -/

/-- C14, as stated, fails: for a king on `(3, 4)` of the 8 by 8 board the loop
`FOR_EACH_KING_ATTACK` visits `(3, 4)` itself, which is not in the
8-neighbourhood, and does not visit `(3, 3)`, which is in the 8-neighbourhood
and in a row that is not above the king. -/
theorem king_forward_set_differs :
    ((3, 4) ∈ FOR_EACH_KING_ATTACK army_config 3 4 ∧ ¬ king_forward_spec army_config 3 4 3 4) ∧
    ((3, 3) ∉ FOR_EACH_KING_ATTACK army_config 3 4 ∧ king_forward_spec army_config 3 4 3 3) := by
  decide

/-- C14, amended. For every square `(row, column)`, the squares visited by
`FOR_EACH_KING_ATTACK` are exactly the squares of the board among
`(row, column)` itself, `(row, column + 1)`, `(row + 1, column - 1)`,
`(row + 1, column)` and `(row + 1, column + 1)`, each visited once: the
square itself together with the squares of its 8-neighbourhood that come
later in scan order, that is, the set of the specification without
`(row, column - 1)` and with `(row, column)`. -/
theorem king_forward_attack_set (cfg : config) (row column : Nat)
    (hrow : row < cfg.BOARD_HEIGHT) (hcolumn : column < cfg.BOARD_WIDTH) :
    (∀ r c, (r, c) ∈ FOR_EACH_KING_ATTACK cfg row column ↔
      r < cfg.BOARD_HEIGHT ∧ c < cfg.BOARD_WIDTH ∧
        ((r = row ∧ c = column) ∨ (r = row ∧ c = column + 1) ∨
          (r = row + 1 ∧ c + 1 = column) ∨ (r = row + 1 ∧ c = column) ∨
          (r = row + 1 ∧ c = column + 1))) ∧
    (∀ r c, (r, c) ∈ FOR_EACH_KING_ATTACK cfg row column ↔
      r < cfg.BOARD_HEIGHT ∧ c < cfg.BOARD_WIDTH ∧
        ((r = row ∧ c = column) ∨
          (king_forward_spec cfg row column r c ∧ ¬ (r = row ∧ c + 1 = column)))) ∧
    (∀ r c, (r, c) ∈ FOR_EACH_KING_ATTACK cfg row column ↔
      r < cfg.BOARD_HEIGHT ∧ c < cfg.BOARD_WIDTH ∧
        ((r = row ∧ c = column) ∨
          (attacks KING row column r c ∧
            row * cfg.BOARD_WIDTH + column < r * cfg.BOARD_WIDTH + c))) ∧
    (FOR_EACH_KING_ATTACK cfg row column).Nodup := by
  refine ⟨?_, ?_, ?_, nodup_FOR_EACH_KING_ATTACK cfg row column⟩
  · intro r c
    rw [mem_FOR_EACH_KING_ATTACK]
    omega
  · intro r c
    rw [mem_FOR_EACH_KING_ATTACK]
    unfold king_forward_spec
    omega
  · intro r c
    rw [mem_FOR_EACH_KING_ATTACK]
    simp only [attacks]
    constructor
    · rintro ⟨h1, h2, h3⟩
      refine ⟨h1, h2, ?_⟩
      rcases h3 with ⟨rfl, rfl | rfl⟩ | ⟨rfl, h4⟩
      · exact Or.inl ⟨rfl, rfl⟩
      · exact Or.inr ⟨by omega, by omega⟩
      · refine Or.inr ⟨by omega, ?_⟩
        rw [Nat.succ_mul]
        omega
    · rintro ⟨h1, h2, h3⟩
      refine ⟨h1, h2, ?_⟩
      rcases h3 with ⟨rfl, rfl⟩ | ⟨h4, h5⟩
      · exact Or.inl ⟨rfl, Or.inl rfl⟩
      · rcases Nat.lt_trichotomy r row with h | rfl | h
        · exfalso
          have := Nat.mul_le_mul_right cfg.BOARD_WIDTH (Nat.succ_le_of_lt h)
          rw [Nat.succ_mul] at this
          omega
        · left; omega
        · right; omega

/-- C15. Knight forward attack set. For every square `(row, column)`, the
squares visited by `FOR_EACH_KNIGHT_ATTACK` are exactly the squares of the
board among `(row + 1, column - 2)`, `(row + 1, column + 2)`,
`(row + 2, column - 1)` and `(row + 2, column + 1)`, that is, the squares of
the board a knight move away from `(row, column)` in a row of `row + 1` or
more, and each of them is visited exactly once (the list of the visited
squares has no repetition). -/
theorem knight_forward_attack_set (cfg : config) (row column : Nat) :
    (∀ r c, (r, c) ∈ FOR_EACH_KNIGHT_ATTACK cfg row column ↔
      r < cfg.BOARD_HEIGHT ∧ c < cfg.BOARD_WIDTH ∧
        ((r = row + 1 ∧ c + 2 = column) ∨ (r = row + 1 ∧ c = column + 2) ∨
          (r = row + 2 ∧ c + 1 = column) ∨ (r = row + 2 ∧ c = column + 1))) ∧
    (∀ r c, (r, c) ∈ FOR_EACH_KNIGHT_ATTACK cfg row column ↔
      r < cfg.BOARD_HEIGHT ∧ c < cfg.BOARD_WIDTH ∧ attacks KNIGHT row column r c ∧
        row + 1 ≤ r) ∧
    (FOR_EACH_KNIGHT_ATTACK cfg row column).Nodup := by
  refine ⟨?_, ?_, nodup_FOR_EACH_KNIGHT_ATTACK cfg row column⟩
  · intro r c
    rw [mem_FOR_EACH_KNIGHT_ATTACK]
    omega
  · intro r c
    rw [mem_FOR_EACH_KNIGHT_ATTACK]
    simp only [attacks]
    omega

theorem king_forward_attack_set_witness :
    (∀ r c, (r, c) ∈ FOR_EACH_KING_ATTACK army_config 3 4 ↔
      r < army_config.BOARD_HEIGHT ∧ c < army_config.BOARD_WIDTH ∧
        ((r = 3 ∧ c = 4) ∨ (r = 3 ∧ c = 4 + 1) ∨
          (r = 3 + 1 ∧ c + 1 = 4) ∨ (r = 3 + 1 ∧ c = 4) ∨
          (r = 3 + 1 ∧ c = 4 + 1))) ∧
    (FOR_EACH_KING_ATTACK army_config 3 4).Nodup :=
  ⟨(king_forward_attack_set army_config 3 4 (by decide) (by decide)).1,
    (king_forward_attack_set army_config 3 4 (by decide) (by decide)).2.2.2⟩

/-! ## A run reads only the later entries of the bound table -/

/-- C17. A run does not depend on the bounds of earlier indices. For two
tables `limits` that agree at every index `j ≥ i`, the call of `maximize` at
index `i` gives the same result from every state and with every amount of
fuel: the same final board, the same final `maximum_board`, the same sequence
of printed boards (and the same recorded program points); and when the call
is given enough fuel it returns, and every read of `limits` it records is at
an index `j` with `i ≤ j < BOARD_WIDTH * BOARD_HEIGHT`, never below `i`. -/
theorem limits_independence (cfg : config) (limits limits' : Nat → Nat) (i : Nat)
    (h : ∀ j, i ≤ j → limits j = limits' j) :
    (∀ fuel s, maximize cfg limits fuel s i = maximize cfg limits' fuel s i) ∧
    (∀ fuel s, i ≤ cfg.BOARD_WIDTH * cfg.BOARD_HEIGHT →
      cfg.BOARD_WIDTH * cfg.BOARD_HEIGHT - i < fuel →
      ∃ s' new, maximize cfg limits fuel s i = some s' ∧
        maximize cfg limits' fuel s i = some s' ∧ s'.history = s.history ++ new ∧
        ∀ j sc l, event.test j sc l ∈ new →
          i ≤ j ∧ j < cfg.BOARD_WIDTH * cfg.BOARD_HEIGHT ∧ l = limits j) := by
  have key : ∀ fuel i, (∀ j, i ≤ j → limits j = limits' j) →
      ∀ s, maximize cfg limits fuel s i = maximize cfg limits' fuel s i := by
    intro fuel
    induction fuel with
    | zero => intro i _ s; rfl
    | succ fuel ih =>
      intro i hi s
      have e : limits i = limits' i := hi i (le_refl i)
      have ih2 : ∀ s, maximize cfg limits fuel s (i + 1) = maximize cfg limits' fuel s (i + 1) :=
        fun s => ih (i + 1) (fun j hj => hi j (by omega)) s
      have ih' : (fun s => maximize cfg limits fuel s (i + 1)) =
          (fun s => maximize cfg limits' fuel s (i + 1)) := funext ih2
      rw [maximize_succ, maximize_succ]
      simp only [e, ih', ih2]
  refine ⟨fun fuel s => key fuel i h s, ?_⟩
  intro fuel s hi hfuel
  have e := maximize_total cfg limits fuel i s hi hfuel
  obtain ⟨new, q1, q2⟩ := run_hist cfg limits (cfg.BOARD_WIDTH * cfg.BOARD_HEIGHT - i) s
    (Nat.sub_le _ _)
  refine ⟨_, new, e, by rw [← key fuel i h s]; exact e, q1, ?_⟩
  intro j sc l he
  have := q2 _ he
  have e2 : cfg.BOARD_WIDTH * cfg.BOARD_HEIGHT - (cfg.BOARD_WIDTH * cfg.BOARD_HEIGHT - i) = i := by
    omega
  rw [e2] at this
  exact this

theorem limits_independence_witness :
    maximize army_config (fun _ => 0) 2 ⟨EMPTY_BOARD, EMPTY_BOARD, [], []⟩ 63 =
      maximize army_config (fun j => if j < 63 then 7 else 0) 2
        ⟨EMPTY_BOARD, EMPTY_BOARD, [], []⟩ 63 :=
  (limits_independence army_config (fun _ => 0) (fun j => if j < 63 then 7 else 0) 63
    (fun j hj => by simp only []; rw [if_neg (by omega)])).1 2
    ⟨EMPTY_BOARD, EMPTY_BOARD, [], []⟩

/-! ## What a call of `maximize` records -/

theorem trace_step_refl (cfg : config) (limits : Nat → Nat) (lo : Nat) (s : state) :
    trace_step cfg limits lo s s :=
  ⟨[], by simp, by simp⟩

theorem trace_step_trans {cfg : config} {limits : Nat → Nat} {lo : Nat} {s s' s'' : state}
    (h1 : trace_step cfg limits lo s s') (h2 : trace_step cfg limits lo s' s'') :
    trace_step cfg limits lo s s'' := by
  obtain ⟨k1, e1, f1⟩ := h1
  obtain ⟨k2, e2, f2⟩ := h2
  refine ⟨k1 ++ k2, by rw [e2, e1, List.append_assoc], ?_⟩
  intro e he
  rcases List.mem_append.1 he with h | h
  · exact f1 e h
  · exact f2 e h

theorem deep_ok_mono (cfg : config) (limits : Nat → Nat) (lo lo' : Nat) (h : lo' ≤ lo)
    (e : event) (he : deep_ok cfg limits lo e) : deep_ok cfg limits lo' e := by
  cases e with
  | start i b => trivial
  | enter b m i => exact ⟨le_trans h he.1, he.2⟩
  | test j sc l => exact ⟨le_trans h he.1, he.2⟩
  | unplaced b => trivial

theorem enter_update_history (s : state) (index : Nat) :
    (enter_update s index).history =
      s.history ++ [event.enter s.board s.maximum_board index] := by
  unfold enter_update
  simp only []
  split <;> rfl

theorem board_invariant_score_le (cfg : config) (n : Nat) (b : board)
    (hb : board_invariant cfg n b) : b.score ≤ n * ROOK_VALUE := by
  rw [hb.score]
  exact le_trans (Nat.mod_le _ _) (value_below_le cfg b.pieces n)

theorem call_trace_deep {cfg : config} {limits : Nat → Nat} {lo n : Nat} {s s' : state}
    (hok : state_ok cfg lo n s) (hn : n ≤ cfg.BOARD_WIDTH * cfg.BOARD_HEIGHT)
    (h : call_trace cfg limits n s s') : trace_step cfg limits n s s' := by
  obtain ⟨k, e1, e2, e3⟩ := h
  refine ⟨_, e1, ?_⟩
  intro e he
  rcases List.mem_cons.1 he with rfl | he
  · exact ⟨le_refl _, hn, hok.1, hok.2.1⟩
  · rcases Nat.eq_or_lt_of_le hn with heq | hlt
    · rw [e2 heq] at he; exact absurd he (List.not_mem_nil _)
    · obtain ⟨k', rfl, e4⟩ := e3 hlt
      rcases List.mem_cons.1 he with rfl | he
      · exact ⟨le_refl _, hlt, rfl, board_invariant_score_le cfg n _ hok.1⟩
      · exact deep_ok_mono cfg limits _ _ (Nat.le_succ n) e (e4 e he)

theorem trace_attempt (cfg : config) (hs : population_static_assert cfg) (limits : Nat → Nat)
    (lo n : Nat) (k : piece) (rec : state → state) (s : state) (h : state_ok cfg lo n s)
    (hn : n < cfg.BOARD_WIDTH * cfg.BOARD_HEIGHT) (hlo : lo ≤ n)
    (ha : attacked cfg s.board (n / cfg.BOARD_WIDTH) (n % cfg.BOARD_WIDTH) = false)
    (hrec : ∀ t, state_ok cfg lo (n + 1) t → trace_step cfg limits (n + 1) t (rec t)) :
    trace_step cfg limits (n + 1) s
      (attempt cfg k rec s (n / cfg.BOARD_WIDTH) (n % cfg.BOARD_WIDTH)) := by
  unfold attempt
  split
  · rename_i hg
    have h0 := state_ok_place cfg hs lo n s h hn hlo k (Or.inr ⟨ha, hg⟩)
    obtain ⟨hh, q1, q2⟩ := hrec _ h0
    simp only [] at q1 ⊢
    refine ⟨hh ++ [event.unplaced _], by rw [q1, List.append_assoc], ?_⟩
    intro e he
    rcases List.mem_append.1 he with h' | h'
    · exact q2 e h'
    · rw [List.mem_singleton] at h'; subst h'; trivial
  · exact trace_step_refl cfg limits _ s

theorem trace_attempts (cfg : config) (hs : population_static_assert cfg) (limits : Nat → Nat)
    (lo n : Nat) (rec : state → state) (s : state) (h : state_ok cfg lo n s)
    (hn : n < cfg.BOARD_WIDTH * cfg.BOARD_HEIGHT) (hlo : lo ≤ n)
    (ha : attacked cfg s.board (n / cfg.BOARD_WIDTH) (n % cfg.BOARD_WIDTH) = false)
    (hsound : ∀ t, state_ok cfg lo (n + 1) t → sound_step cfg lo t (rec t))
    (hrec : ∀ t, state_ok cfg lo (n + 1) t → trace_step cfg limits (n + 1) t (rec t)) :
    trace_step cfg limits (n + 1) s
      (attempts cfg rec s (n / cfg.BOARD_WIDTH) (n % cfg.BOARD_WIDTH)) := by
  have q1 := attempt_sound cfg hs lo n ROOK rec s h hn hlo ha hsound
  have k1 := state_ok_of_step h q1
  have t1 := trace_attempt cfg hs limits lo n ROOK rec s h hn hlo ha hrec
  generalize ha1 : attempt cfg ROOK rec s (n / cfg.BOARD_WIDTH) (n % cfg.BOARD_WIDTH) = a1
    at q1 k1 t1
  have b2 : attacked cfg a1.board (n / cfg.BOARD_WIDTH) (n % cfg.BOARD_WIDTH) = false := by
    rw [q1.1]; exact ha
  have q2 := attempt_sound cfg hs lo n BISHOP rec a1 k1 hn hlo b2 hsound
  have k2 := state_ok_of_step k1 q2
  have t2 := trace_attempt cfg hs limits lo n BISHOP rec a1 k1 hn hlo b2 hrec
  generalize ha2 : attempt cfg BISHOP rec a1 (n / cfg.BOARD_WIDTH) (n % cfg.BOARD_WIDTH) = a2
    at q2 k2 t2
  have b3 : attacked cfg a2.board (n / cfg.BOARD_WIDTH) (n % cfg.BOARD_WIDTH) = false := by
    rw [q2.1]; exact b2
  have q3 := attempt_sound cfg hs lo n KING rec a2 k2 hn hlo b3 hsound
  have k3 := state_ok_of_step k2 q3
  have t3 := trace_attempt cfg hs limits lo n KING rec a2 k2 hn hlo b3 hrec
  generalize ha3 : attempt cfg KING rec a2 (n / cfg.BOARD_WIDTH) (n % cfg.BOARD_WIDTH) = a3
    at q3 k3 t3
  have b4 : attacked cfg a3.board (n / cfg.BOARD_WIDTH) (n % cfg.BOARD_WIDTH) = false := by
    rw [q3.1]; exact b3
  have t4 := trace_attempt cfg hs limits lo n KNIGHT rec a3 k3 hn hlo b4 hrec
  have hA : attempts cfg rec s (n / cfg.BOARD_WIDTH) (n % cfg.BOARD_WIDTH) =
      attempt cfg KNIGHT rec a3 (n / cfg.BOARD_WIDTH) (n % cfg.BOARD_WIDTH) := by
    rw [← ha3, ← ha2, ← ha1]; rfl
  rw [hA]
  exact trace_step_trans (trace_step_trans (trace_step_trans t1 t2) t3) t4

/-- The history of a call of `maximize`, by induction on the squares left. -/
theorem run_call_trace (cfg : config) (hs : population_static_assert cfg) (limits : Nat → Nat)
    (lo : Nat) :
    ∀ (remaining : Nat) (s : state), remaining ≤ cfg.BOARD_WIDTH * cfg.BOARD_HEIGHT →
      lo ≤ cfg.BOARD_WIDTH * cfg.BOARD_HEIGHT - remaining →
      state_ok cfg lo (cfg.BOARD_WIDTH * cfg.BOARD_HEIGHT - remaining) s →
      call_trace cfg limits (cfg.BOARD_WIDTH * cfg.BOARD_HEIGHT - remaining) s
        (run cfg limits remaining s) := by
  intro remaining
  induction remaining with
  | zero =>
    intro s _ _ _
    refine ⟨[], ?_, fun _ => rfl, fun h => absurd h (by simp)⟩
    rw [run, enter_update_history]; rfl
  | succ remaining ih =>
    intro s hrem hlo h
    have hidx : cfg.BOARD_WIDTH * cfg.BOARD_HEIGHT - (remaining + 1) <
        cfg.BOARD_WIDTH * cfg.BOARD_HEIGHT := by omega
    have hnext : cfg.BOARD_WIDTH * cfg.BOARD_HEIGHT - (remaining + 1) + 1 =
        cfg.BOARD_WIDTH * cfg.BOARD_HEIGHT - remaining := by omega
    have hsound : ∀ t,
        state_ok cfg lo (cfg.BOARD_WIDTH * cfg.BOARD_HEIGHT - (remaining + 1) + 1) t →
        sound_step cfg lo t (run cfg limits remaining t) := by
      intro t ht
      exact run_sound cfg hs limits lo remaining t (by omega) (by omega) (hnext ▸ ht)
    have hrec : ∀ t,
        state_ok cfg lo (cfg.BOARD_WIDTH * cfg.BOARD_HEIGHT - (remaining + 1) + 1) t →
        trace_step cfg limits (cfg.BOARD_WIDTH * cfg.BOARD_HEIGHT - (remaining + 1) + 1) t
          (run cfg limits remaining t) := by
      intro t ht
      have h1 := ih t (by omega) (by omega) (hnext ▸ ht)
      have h2 := call_trace_deep (hnext ▸ ht) (Nat.sub_le _ _) h1
      rw [hnext]; exact h2
    have q1 := sound_enter_update cfg lo _ s (cfg.BOARD_WIDTH * cfg.BOARD_HEIGHT - (remaining + 1))
      h (le_of_lt hidx)
    have e1 := enter_update_history s (cfg.BOARD_WIDTH * cfg.BOARD_HEIGHT - (remaining + 1))
    have b1 := enter_update_board s (cfg.BOARD_WIDTH * cfg.BOARD_HEIGHT - (remaining + 1))
    rw [run]
    simp only [run_step]
    generalize enter_update s (cfg.BOARD_WIDTH * cfg.BOARD_HEIGHT - (remaining + 1)) = s1
      at q1 e1 b1 ⊢
    have k1 := state_ok_of_step h q1
    have q2 := sound_test_update cfg lo s1 (cfg.BOARD_WIDTH * cfg.BOARD_HEIGHT - (remaining + 1))
      (limits (cfg.BOARD_WIDTH * cfg.BOARD_HEIGHT - (remaining + 1))) k1.2.2.2
    have e2 : (test_update s1 (cfg.BOARD_WIDTH * cfg.BOARD_HEIGHT - (remaining + 1))
        (limits (cfg.BOARD_WIDTH * cfg.BOARD_HEIGHT - (remaining + 1)))).history =
        s1.history ++ [event.test (cfg.BOARD_WIDTH * cfg.BOARD_HEIGHT - (remaining + 1))
          s1.board.score (limits (cfg.BOARD_WIDTH * cfg.BOARD_HEIGHT - (remaining + 1)))] := rfl
    generalize test_update s1 (cfg.BOARD_WIDTH * cfg.BOARD_HEIGHT - (remaining + 1))
      (limits (cfg.BOARD_WIDTH * cfg.BOARD_HEIGHT - (remaining + 1))) = s2 at q2 e2 ⊢
    have k2 := state_ok_of_step k1 q2
    -- what is recorded after the pruning test
    have tail : ∀ s3, trace_step cfg limits
        (cfg.BOARD_WIDTH * cfg.BOARD_HEIGHT - (remaining + 1) + 1) s2 s3 →
        call_trace cfg limits (cfg.BOARD_WIDTH * cfg.BOARD_HEIGHT - (remaining + 1)) s s3 := by
      rintro s3 ⟨h', e3, ok⟩
      refine ⟨_, ?_, fun hN => absurd hN (Nat.ne_of_lt hidx), fun _ => ⟨h', rfl, ok⟩⟩
      rw [e3, e2, e1, b1]
      simp only [List.append_assoc, List.singleton_append, List.cons_append, List.nil_append]
    split
    · exact tail s2 (trace_step_refl cfg limits _ s2)
    · split
      · exact tail _ (hrec s2 (state_ok_succ cfg hs lo _ s2 k2 hidx hlo))
      · rename_i hna
        have ha := Bool.eq_false_iff.2 hna
        have q3 := attempts_sound cfg hs lo _ (run cfg limits remaining) s2 k2 hidx hlo ha hsound
        have k3 := state_ok_of_step k2 q3
        exact tail _ (trace_step_trans
          (trace_attempts cfg hs limits lo _ (run cfg limits remaining) s2 k2 hidx hlo ha
            hsound hrec)
          (hrec _ (state_ok_succ cfg hs lo _ _ k3 hidx hlo)))

/-! ## The counters of the reachable boards -/

theorem count_below_extend (p q : Nat → Prop) [DecidablePred p] [DecidablePred q] (n : Nat)
    (h1 : ∀ j, j < n → (p j ↔ q j)) :
    ∀ m, n ≤ m → (∀ j, n ≤ j → j < m → ¬ q j) → count_below p n = count_below q m := by
  intro m
  induction m with
  | zero =>
    intro hn _
    have : n = 0 := by omega
    subst this; rfl
  | succ m ih =>
    intro hn h2
    rcases Nat.eq_or_lt_of_le hn with heq | hlt
    · rw [heq]; exact count_below_congr p q _ (fun j hj => h1 j (by omega))
    · rw [count_below_succ, if_neg (h2 m (by omega) (Nat.lt_succ_self m)),
        ih (by omega) (fun j hj1 hj2 => h2 j hj1 (by omega))]
      rfl

theorem count_below_lt (p : Nat → Prop) [DecidablePred p] (n j : Nat) (hj : j < n)
    (hp : ¬ p j) : count_below p n < n := by
  induction n with
  | zero => omega
  | succ n ih =>
    rw [count_below_succ]
    rcases Nat.lt_succ_iff_lt_or_eq.1 hj with hlt | rfl
    · have := ih hlt
      split <;> omega
    · have := count_below_le p j
      rw [if_neg hp]; omega

/-- A counter of the invariant, as a count over all the squares of the board. -/
theorem count_below_squares (cfg : config) (n : Nat)
    (hn : n ≤ cfg.BOARD_WIDTH * cfg.BOARD_HEIGHT) (b : board) (hb : board_invariant cfg n b)
    (p : Nat → Prop) [DecidablePred p] (q : Nat → Nat → Prop) [∀ r c, Decidable (q r c)]
    (hq : ∀ r c, q r c → b.pieces r c ≠ EMPTY)
    (hpq : ∀ j, j < n → (p j ↔ q (j / cfg.BOARD_WIDTH) (j % cfg.BOARD_WIDTH))) :
    count_below p n = count_squares cfg q := by
  unfold count_squares
  refine count_below_extend p _ n hpq _ hn ?_
  intro j hj _ hqj
  exact hq _ _ hqj (board_invariant_piece_at cfg n b hb j hj)

theorem legal_board_populations (cfg : config) (hs : population_static_assert cfg) (lo : Nat)
    (b : board) (h : legal_board cfg lo b) : populations_invariant cfg b := by
  have hu := legal_board_uses_squares cfg lo b h
  obtain ⟨⟨n, hn, hb⟩, _, _⟩ := h
  have hlt := static_assert_lt cfg hs
  have e1 : ∀ r, b.row_population r =
      count_squares cfg (fun r' c' => b.pieces r' c' ≠ EMPTY ∧ r' = r) := by
    intro r
    rw [hb.row_population]
    exact count_below_squares cfg n hn b hb _ _ (fun _ _ h => h.1) (fun j _ => Iff.rfl)
  have e2 : ∀ c, b.column_population c =
      count_squares cfg (fun r' c' => b.pieces r' c' ≠ EMPTY ∧ c' = c) := by
    intro c
    rw [hb.column_population]
    exact count_below_squares cfg n hn b hb _ _ (fun _ _ h => h.1) (fun j _ => Iff.rfl)
  have e3 : ∀ d : Nat, b.upward_diagonal_population d =
      count_squares cfg
        (fun r' c' => b.pieces r' c' ≠ EMPTY ∧ upward_diagonal r' c' = (d : Int)) := by
    intro d
    rw [hb.upward_diagonal_population]
    refine count_below_squares cfg n hn b hb _ _ (fun _ _ h => h.1) (fun j _ => ?_)
    unfold piece_at upward_diagonal
    generalize j / cfg.BOARD_WIDTH = a
    generalize j % cfg.BOARD_WIDTH = c
    constructor
    · rintro ⟨h1, h2⟩; exact ⟨h1, by omega⟩
    · rintro ⟨h1, h2⟩; exact ⟨h1, by omega⟩
  have e4 : ∀ d : Nat, b.downward_diagonal_population d =
      count_squares cfg
        (fun r' c' => b.pieces r' c' ≠ EMPTY ∧ downward_diagonal cfg r' c' = (d : Int)) := by
    intro d
    rw [hb.downward_diagonal_population]
    refine count_below_squares cfg n hn b hb _ _ (fun _ _ h => h.1) (fun j hj => ?_)
    have hc := (square_of_index cfg j (by omega)).2.1
    unfold piece_at downward_diagonal
    generalize j / cfg.BOARD_WIDTH = a at *
    generalize j % cfg.BOARD_WIDTH = c at *
    constructor
    · rintro ⟨h1, h2⟩; exact ⟨h1, by omega⟩
    · rintro ⟨h1, h2⟩; exact ⟨h1, by omega⟩
  refine ⟨e1, e2, e3, e4, ?_, ?_⟩
  · intro r c hr hc he
    have hidx := index_lt cfg r c hr hc
    obtain ⟨a1, a2⟩ := square_index cfg r c hc
    have key : ∀ (q : Nat → Nat → Prop) [∀ r c, Decidable (q r c)],
        (∀ r c, q r c → b.pieces r c ≠ EMPTY) →
        incr cfg (count_squares cfg q) = count_squares cfg q + 1 := by
      intro q _ hq
      refine incr_exact cfg ?_
      have : count_squares cfg q < cfg.BOARD_WIDTH * cfg.BOARD_HEIGHT := by
        unfold count_squares
        refine count_below_lt _ _ (r * cfg.BOARD_WIDTH + c) hidx ?_
        rw [a1, a2]
        exact fun hh => hq r c hh he
      omega
    rw [e1, e2, e3, e4]
    exact ⟨key _ (fun _ _ h => h.1), key _ (fun _ _ h => h.1), key _ (fun _ _ h => h.1),
      key _ (fun _ _ h => h.1)⟩
  · intro r c hne
    obtain ⟨h1, h2⟩ := hb.support r c hne
    obtain ⟨a1, a2⟩ := square_index cfg r c h1
    have hp : piece_at cfg b.pieces (r * cfg.BOARD_WIDTH + c) ≠ EMPTY := by
      unfold piece_at; rw [a1, a2]; exact hne
    rw [hb.row_population, hb.column_population, hb.upward_diagonal_population,
      hb.downward_diagonal_population]
    refine ⟨?_, ?_, ?_, ?_⟩ <;>
    · refine Nat.pos_of_ne_zero ((count_below_ne_zero _ n).2 ⟨_, h2, hp, ?_⟩)
      first | exact a1 | exact a2 | simp only [a1, a2]

theorem legal_board_score_invariant (cfg : config) (hf : score_fits cfg) (lo : Nat) (b : board)
    (h : legal_board cfg lo b) : score_invariant cfg b :=
  ⟨legal_board_uses_squares cfg 0 b (legal_board_mono (Nat.zero_le _) h),
    (legal_board_score cfg hf lo b h).1⟩

theorem event_legal_boards (cfg : config) (lo : Nat) (e : event) (he : event_legal cfg lo e)
    (b : board) (hb : b ∈ boards_of e) : legal_board cfg lo b := by
  cases e with
  | start i b' =>
    simp only [boards_of, List.mem_singleton] at hb
    subst hb; exact he
  | enter b' m i =>
    simp only [boards_of, List.mem_cons, List.mem_singleton, List.not_mem_nil, or_false] at hb
    rcases hb with rfl | rfl
    · exact he.1
    · exact he.2
  | test j sc l => simp [boards_of] at hb
  | unplaced b' =>
    simp only [boards_of, List.mem_singleton] at hb
    subst hb; exact he

/-- C11. Line-population invariant. The complete computation started by
`main` from `EMPTY_BOARD` terminates, and on every board it passes through
(the board with which `main` calls `maximize`, the board and the best board
with which `maximize` is entered, hence after every `place_*`, the board after
every `unplace_*`, every printed board, the final board and the final best
board) `row_population[r]`, `column_population[c]`,
`upward_diagonal_population[d]` and `downward_diagonal_population[d]` are the
numbers of occupied squares of the board in row `r`, in column `c`, with
`row + column = d`, and with `(BOARD_WIDTH - 1) + row - column = d`; the
counters are not reduced modulo the width of `population_t`: incrementing the
counters of the lines of an empty square does not wrap, and the counters of
the lines of an occupied square are positive. -/
theorem line_population_invariant (cfg : config) (hs : population_static_assert cfg) :
    ∃ r, main cfg = some r ∧ populations_invariant cfg r.1.board ∧
      populations_invariant cfg r.1.maximum_board ∧
      (∀ b ∈ r.1.output, populations_invariant cfg b) ∧
      ∀ e ∈ r.1.history, ∀ b ∈ boards_of e, populations_invariant cfg b := by
  obtain ⟨r, h1, h2, h3, h4, h5⟩ := main_sound cfg hs
  refine ⟨r, h1, ?_, legal_board_populations cfg hs 0 _ h3,
    fun b hb => legal_board_populations cfg hs 0 _ (h4 b hb),
    fun e he b hb => legal_board_populations cfg hs 0 _ (event_legal_boards cfg 0 e (h5 e he) b hb)⟩
  rw [h2]; exact legal_board_populations cfg hs 0 _ (legal_board_EMPTY_BOARD cfg 0)

theorem line_population_invariant_witness :
    ∃ r, main army_config = some r ∧ populations_invariant army_config r.1.board ∧
      populations_invariant army_config r.1.maximum_board ∧
      (∀ b ∈ r.1.output, populations_invariant army_config b) ∧
      ∀ e ∈ r.1.history, ∀ b ∈ boards_of e, populations_invariant army_config b :=
  line_population_invariant army_config (by decide)

/-- C13. Score invariant. The complete computation started by `main` from
`EMPTY_BOARD` terminates, and on every board it passes through (the boards
recorded at the calls and entries of `maximize` and after every `unplace_*`,
every board copied to `maximum_board` and printed, the final board and the
final `maximum_board`) every piece stands on a square of the board and
`score` is the sum of the values of the pieces (knight 7, bishop 16, rook 28,
king 14, nothing for an empty square). -/
theorem score_is_sum_of_values (cfg : config) (hs : population_static_assert cfg)
    (hf : score_fits cfg) :
    ∃ r, main cfg = some r ∧ score_invariant cfg r.1.board ∧
      score_invariant cfg r.1.maximum_board ∧
      (∀ b ∈ r.1.output, score_invariant cfg b) ∧
      (∀ e ∈ r.1.history, ∀ b ∈ boards_of e, score_invariant cfg b) ∧
      piece_value KNIGHT = 7 ∧ piece_value BISHOP = 16 ∧ piece_value ROOK = 28 ∧
      piece_value KING = 14 ∧ piece_value EMPTY = 0 := by
  obtain ⟨r, h1, h2, h3, h4, h5⟩ := main_sound cfg hs
  refine ⟨r, h1, ?_, legal_board_score_invariant cfg hf 0 _ h3,
    fun b hb => legal_board_score_invariant cfg hf 0 _ (h4 b hb),
    fun e he b hb =>
      legal_board_score_invariant cfg hf 0 _ (event_legal_boards cfg 0 e (h5 e he) b hb),
    rfl, rfl, rfl, rfl, rfl⟩
  rw [h2]; exact legal_board_score_invariant cfg hf 0 _ (legal_board_EMPTY_BOARD cfg 0)

theorem score_is_sum_of_values_witness :
    ∃ r, main army_config = some r ∧ score_invariant army_config r.1.board ∧
      score_invariant army_config r.1.maximum_board ∧
      (∀ b ∈ r.1.output, score_invariant army_config b) ∧
      (∀ e ∈ r.1.history, ∀ b ∈ boards_of e, score_invariant army_config b) :=
  let ⟨r, h1, h2, h3, h4, h5, _⟩ := score_is_sum_of_values army_config (by decide) (by decide)
  ⟨r, h1, h2, h3, h4, h5⟩

theorem run_loop_entries (cfg : config) (hs : population_static_assert cfg) :
    ∀ (i : Nat) (s : state) (limits : Nat → Nat), i ≤ cfg.BOARD_WIDTH * cfg.BOARD_HEIGHT →
      s.board = EMPTY_BOARD → legal_board cfg i s.maximum_board →
      (∀ e ∈ s.history, entry_invariant cfg e) →
      ∀ e ∈ (run_loop cfg i s limits).1.history, entry_invariant cfg e := by
  intro i
  induction i with
  | zero => intro s limits _ _ _ hh; exact hh
  | succ i ih =>
    intro s limits hi hb hm hh
    rw [run_loop]
    obtain ⟨h0, q⟩ := iteration_sound cfg hs limits i s hi hb hm
    have e : cfg.BOARD_WIDTH * cfg.BOARD_HEIGHT - (cfg.BOARD_WIDTH * cfg.BOARD_HEIGHT - i) = i := by
      omega
    have ct := run_call_trace cfg hs limits i (cfg.BOARD_WIDTH * cfg.BOARD_HEIGHT - i) _
      (Nat.sub_le _ _) (by omega) (by rw [e]; exact h0)
    rw [e] at ct
    obtain ⟨k, q1, q2⟩ := call_trace_deep h0 (le_of_lt hi) ct
    refine ih _ _ (by omega) (q.1.trans hb) q.2.1 ?_
    rw [q1]
    intro e he
    rcases List.mem_append.1 he with he | he
    · rcases List.mem_append.1 he with he | he
      · exact hh e he
      · rw [List.mem_singleton] at he; subst he; trivial
    · have := q2 e he
      cases e with
      | start j b => trivial
      | enter b m j => exact this.2
      | test j sc l => trivial
      | unplaced b => trivial

theorem main_entries (cfg : config) (hs : population_static_assert cfg) :
    ∃ r, main cfg = some r ∧ ∀ e ∈ r.1.history, entry_invariant cfg e :=
  ⟨_, main_eq cfg, run_loop_entries cfg hs _ _ _ (le_refl _) rfl (legal_board_EMPTY_BOARD cfg _)
    (by simp)⟩

theorem count_below_or (p q : Nat → Prop) [DecidablePred p] [DecidablePred q]
    (h : ∀ j, ¬ (p j ∧ q j)) (n : Nat) :
    count_below (fun j => p j ∨ q j) n = count_below p n + count_below q n := by
  induction n with
  | zero => rfl
  | succ n ih =>
    rw [count_below_succ, count_below_succ, count_below_succ, ih]
    have := h n
    by_cases hp : p n <;> by_cases hq : q n <;> simp [hp, hq] <;> first | omega | tauto

/-- The per-square counters of a board that satisfies the invariant for the
index `i`, at a square of scan index `i` or more. -/
theorem board_invariant_square_counters (cfg : config) (i : Nat)
    (hi : i ≤ cfg.BOARD_WIDTH * cfg.BOARD_HEIGHT) (b : board) (hb : board_invariant cfg i b)
    (r' c' : Nat) (hr : r' < cfg.BOARD_HEIGHT) (hc : c' < cfg.BOARD_WIDTH)
    (hq : i ≤ r' * cfg.BOARD_WIDTH + c') :
    b.knight_population r' c' =
      count_squares cfg (fun r c => b.pieces r c ≠ EMPTY ∧ attacks KNIGHT r c r' c') ∧
    b.king_population r' c' =
      count_squares cfg
        (fun r c => b.pieces r c ≠ EMPTY ∧ (r ≠ r' ∨ c ≠ c') ∧ attacks KING r c r' c') ∧
    b.spot_attacks r' c' =
      count_squares cfg
        (fun r c => b.pieces r c = KING ∧ (r ≠ r' ∨ c ≠ c') ∧ attacks KING r c r' c') +
      count_squares cfg (fun r c => b.pieces r c = KNIGHT ∧ attacks KNIGHT r c r' c') := by
  have hidx := index_lt cfg r' c' hr hc
  obtain ⟨a1, a2⟩ := square_index cfg r' c' hc
  have hkn : ∀ j, j < i →
      ((r', c') ∈ FOR_EACH_KNIGHT_ATTACK cfg (j / cfg.BOARD_WIDTH) (j % cfg.BOARD_WIDTH) ↔
        attacks KNIGHT (j / cfg.BOARD_WIDTH) (j % cfg.BOARD_WIDTH) r' c') := by
    intro j hj
    have := knight_forward cfg j (r' * cfg.BOARD_WIDTH + c') (by omega) hidx
    rw [a1, a2] at this
    exact this
  have hki : ∀ j, j < i →
      ((r', c') ∈ FOR_EACH_KING_ATTACK cfg (j / cfg.BOARD_WIDTH) (j % cfg.BOARD_WIDTH) ↔
        (j / cfg.BOARD_WIDTH ≠ r' ∨ j % cfg.BOARD_WIDTH ≠ c') ∧
          attacks KING (j / cfg.BOARD_WIDTH) (j % cfg.BOARD_WIDTH) r' c') := by
    intro j hj
    have := king_forward cfg j (r' * cfg.BOARD_WIDTH + c') (by omega) hidx
    rw [a1, a2] at this
    rw [this]
    have hne : j / cfg.BOARD_WIDTH ≠ r' ∨ j % cfg.BOARD_WIDTH ≠ c' := by
      by_contra hcon
      push_neg at hcon
      have := scan_index cfg j
      rw [hcon.1, hcon.2] at this
      omega
    exact ⟨fun h => ⟨hne, h⟩, fun h => h.2⟩
  refine ⟨?_, ?_, ?_⟩
  · rw [hb.knight_population]
    refine count_below_squares cfg i hi b hb _ _ (fun _ _ h => h.1) (fun j hj => ?_)
    unfold piece_at
    rw [hkn j hj]
  · rw [hb.king_population]
    refine count_below_squares cfg i hi b hb _ _ (fun _ _ h => h.1) (fun j hj => ?_)
    unfold piece_at
    rw [hki j hj]
  · rw [hb.spot_attacks, count_below_or _ _ (fun j h => by
      have h1 := h.1.1
      rw [h.2.1] at h1
      exact piece.noConfusion h1)]
    congr 1
    · refine count_below_squares cfg i hi b hb _ _
        (fun _ _ h => by rw [h.1]; decide) (fun j hj => ?_)
      unfold piece_at
      rw [hki j hj]
    · refine count_below_squares cfg i hi b hb _ _
        (fun _ _ h => by rw [h.1]; decide) (fun j hj => ?_)
      unfold piece_at
      rw [hkn j hj]

/-- C12. Per-square counter invariant. The complete computation started by
`main` terminates, and whenever `maximize` is entered with scan index `i`, for
every square `(r', c')` of the board of scan index `i` or more:
`knight_population[r'][c']` is the number of pieces on the board a knight
move away from the square, `king_population[r'][c']` the number of pieces on
the 8 squares adjacent to it, and `spot_attacks[r'][c']` the number of kings
adjacent to it plus the number of knights a knight move away from it. -/
theorem square_counters_invariant (cfg : config) (hs : population_static_assert cfg) :
    ∃ res, main cfg = some res ∧
      ∀ b m i, event.enter b m i ∈ res.1.history →
        ∀ r' c', r' < cfg.BOARD_HEIGHT → c' < cfg.BOARD_WIDTH →
          i ≤ r' * cfg.BOARD_WIDTH + c' →
          b.knight_population r' c' =
            count_squares cfg (fun r c => b.pieces r c ≠ EMPTY ∧ attacks KNIGHT r c r' c') ∧
          b.king_population r' c' =
            count_squares cfg
              (fun r c => b.pieces r c ≠ EMPTY ∧ (r ≠ r' ∨ c ≠ c') ∧ attacks KING r c r' c') ∧
          b.spot_attacks r' c' =
            count_squares cfg
              (fun r c => b.pieces r c = KING ∧ (r ≠ r' ∨ c ≠ c') ∧ attacks KING r c r' c') +
            count_squares cfg (fun r c => b.pieces r c = KNIGHT ∧ attacks KNIGHT r c r' c') := by
  obtain ⟨res, h1, h2⟩ := main_entries cfg hs
  refine ⟨res, h1, ?_⟩
  intro b m i he r' c' hr hc hq
  obtain ⟨a1, a2, _⟩ := h2 _ he
  exact board_invariant_square_counters cfg i a1 b a2 r' c' hr hc hq

theorem square_counters_invariant_witness :
    ∃ res, main army_config = some res ∧
      ∀ b m i, event.enter b m i ∈ res.1.history → i ≤ 7 * army_config.BOARD_WIDTH + 7 →
        b.knight_population 7 7 =
          count_squares army_config (fun r c => b.pieces r c ≠ EMPTY ∧ attacks KNIGHT r c 7 7) :=
  let ⟨res, h1, h2⟩ := square_counters_invariant army_config (by decide)
  ⟨res, h1, fun b m i he hi => (h2 b m i he 7 7 (by decide) (by decide) hi).1⟩

/-- The tests under which `maximize` places a piece of kind `k` on the square
of scan index `i` hold exactly when the piece creates no attack. -/
theorem guards_iff_no_attack (cfg : config) (i : Nat)
    (hi : i < cfg.BOARD_WIDTH * cfg.BOARD_HEIGHT) (b : board) (hb : board_invariant cfg i b)
    (k : piece) (hk : k ≠ EMPTY) :
    (attacked cfg b (i / cfg.BOARD_WIDTH) (i % cfg.BOARD_WIDTH) = false ∧
      extra_guard cfg k b (i / cfg.BOARD_WIDTH) (i % cfg.BOARD_WIDTH)) ↔
    ∀ r c, r < cfg.BOARD_HEIGHT → c < cfg.BOARD_WIDTH → b.pieces r c ≠ EMPTY →
      ¬ attacks (b.pieces r c) r c (i / cfg.BOARD_WIDTH) (i % cfg.BOARD_WIDTH) ∧
      ¬ attacks k (i / cfg.BOARD_WIDTH) (i % cfg.BOARD_WIDTH) r c := by
  rw [attacked_iff cfg i hi b hb, extra_guard_iff cfg i hi b hb k hk]
  constructor
  · rintro ⟨h1, h2⟩ r c _ _ hne
    obtain ⟨a1, a2⟩ := hb.support r c hne
    obtain ⟨a3, a4⟩ := square_index cfg r c a1
    have g1 := h1 _ a2
    have g2 := h2 _ a2
    unfold piece_at at g1 g2
    rw [a3, a4] at g1 g2
    exact ⟨g1, g2 hne⟩
  · intro h
    constructor
    · intro j hj hatt
      obtain ⟨a1, a2, _⟩ := square_of_index cfg j (by omega)
      by_cases hne : piece_at cfg b.pieces j = EMPTY
      · rw [hne] at hatt; exact hatt
      · exact (h _ _ a1 a2 hne).1 hatt
    · intro j hj hne
      obtain ⟨a1, a2, _⟩ := square_of_index cfg j (by omega)
      exact (h _ _ a1 a2 hne).2

/-- C18. The placement guards are exactly the non-attack condition. The
complete computation started by `main` terminates, and whenever `maximize` is
entered at the index `i` of a square, every piece on the board stands on a
square of scan index below `i`, the square `i` is empty, and for each kind
the test under which `maximize` places a piece of that kind on the square
(`attacked` is false, and: both populations of the row and the column are 0
for a rook, both diagonal populations are 0 for a bishop, `king_population`
is 0 for a king, `knight_population` is 0 for a knight) holds if and only if
no piece on the board attacks the square and a piece of that kind on the
square attacks no piece on the board. -/
theorem guards_are_non_attack (cfg : config) (hs : population_static_assert cfg) :
    ∃ res, main cfg = some res ∧
      ∀ b m i, event.enter b m i ∈ res.1.history → i < cfg.BOARD_WIDTH * cfg.BOARD_HEIGHT →
        (∀ r c, b.pieces r c ≠ EMPTY →
          r < cfg.BOARD_HEIGHT ∧ c < cfg.BOARD_WIDTH ∧ r * cfg.BOARD_WIDTH + c < i) ∧
        b.pieces (i / cfg.BOARD_WIDTH) (i % cfg.BOARD_WIDTH) = EMPTY ∧
        ((attacked cfg b (i / cfg.BOARD_WIDTH) (i % cfg.BOARD_WIDTH) = false ∧
            b.row_population (i / cfg.BOARD_WIDTH) = 0 ∧
            b.column_population (i % cfg.BOARD_WIDTH) = 0) ↔
          ∀ r c, r < cfg.BOARD_HEIGHT → c < cfg.BOARD_WIDTH → b.pieces r c ≠ EMPTY →
            ¬ attacks (b.pieces r c) r c (i / cfg.BOARD_WIDTH) (i % cfg.BOARD_WIDTH) ∧
            ¬ attacks ROOK (i / cfg.BOARD_WIDTH) (i % cfg.BOARD_WIDTH) r c) ∧
        ((attacked cfg b (i / cfg.BOARD_WIDTH) (i % cfg.BOARD_WIDTH) = false ∧
            b.downward_diagonal_population
              (downward_diagonal cfg (i / cfg.BOARD_WIDTH) (i % cfg.BOARD_WIDTH)).toNat = 0 ∧
            b.upward_diagonal_population
              (upward_diagonal (i / cfg.BOARD_WIDTH) (i % cfg.BOARD_WIDTH)).toNat = 0) ↔
          ∀ r c, r < cfg.BOARD_HEIGHT → c < cfg.BOARD_WIDTH → b.pieces r c ≠ EMPTY →
            ¬ attacks (b.pieces r c) r c (i / cfg.BOARD_WIDTH) (i % cfg.BOARD_WIDTH) ∧
            ¬ attacks BISHOP (i / cfg.BOARD_WIDTH) (i % cfg.BOARD_WIDTH) r c) ∧
        ((attacked cfg b (i / cfg.BOARD_WIDTH) (i % cfg.BOARD_WIDTH) = false ∧
            b.king_population (i / cfg.BOARD_WIDTH) (i % cfg.BOARD_WIDTH) = 0) ↔
          ∀ r c, r < cfg.BOARD_HEIGHT → c < cfg.BOARD_WIDTH → b.pieces r c ≠ EMPTY →
            ¬ attacks (b.pieces r c) r c (i / cfg.BOARD_WIDTH) (i % cfg.BOARD_WIDTH) ∧
            ¬ attacks KING (i / cfg.BOARD_WIDTH) (i % cfg.BOARD_WIDTH) r c) ∧
        ((attacked cfg b (i / cfg.BOARD_WIDTH) (i % cfg.BOARD_WIDTH) = false ∧
            b.knight_population (i / cfg.BOARD_WIDTH) (i % cfg.BOARD_WIDTH) = 0) ↔
          ∀ r c, r < cfg.BOARD_HEIGHT → c < cfg.BOARD_WIDTH → b.pieces r c ≠ EMPTY →
            ¬ attacks (b.pieces r c) r c (i / cfg.BOARD_WIDTH) (i % cfg.BOARD_WIDTH) ∧
            ¬ attacks KNIGHT (i / cfg.BOARD_WIDTH) (i % cfg.BOARD_WIDTH) r c) := by
  obtain ⟨res, h1, h2⟩ := main_entries cfg hs
  refine ⟨res, h1, ?_⟩
  intro b m i he hi
  obtain ⟨_, hb, hna⟩ := h2 _ he
  refine ⟨?_, board_invariant_piece_at cfg i b hb i (le_refl i),
    guards_iff_no_attack cfg i hi b hb ROOK (by decide),
    guards_iff_no_attack cfg i hi b hb BISHOP (by decide),
    guards_iff_no_attack cfg i hi b hb KING (by decide),
    guards_iff_no_attack cfg i hi b hb KNIGHT (by decide)⟩
  intro r c hne
  have hu := legal_board_uses_squares cfg 0 b
    ⟨⟨i, le_of_lt hi, hb⟩, hna, fun _ _ _ => Nat.zero_le _⟩ r c hne
  exact ⟨hu.1, hu.2.1, (hb.support r c hne).2⟩

theorem guards_are_non_attack_witness :
    ∃ res, main army_config = some res ∧
      ∀ b m i, event.enter b m i ∈ res.1.history →
        i < army_config.BOARD_WIDTH * army_config.BOARD_HEIGHT →
        ((attacked army_config b (i / army_config.BOARD_WIDTH) (i % army_config.BOARD_WIDTH)
              = false ∧
            b.king_population (i / army_config.BOARD_WIDTH) (i % army_config.BOARD_WIDTH) = 0) ↔
          ∀ r c, r < army_config.BOARD_HEIGHT → c < army_config.BOARD_WIDTH →
            b.pieces r c ≠ EMPTY →
            ¬ attacks (b.pieces r c) r c (i / army_config.BOARD_WIDTH)
              (i % army_config.BOARD_WIDTH) ∧
            ¬ attacks KING (i / army_config.BOARD_WIDTH) (i % army_config.BOARD_WIDTH) r c) :=
  let ⟨res, h1, h2⟩ := guards_are_non_attack army_config (by decide)
  ⟨res, h1, fun b m i he hi => (h2 b m i he hi).2.2.2.2.1⟩

/-! ## The pruning test does not wrap -/

theorem read_exact_append (cfg : config) (H new : List event) (h : read_exact cfg H)
    (hnew : ∀ j sc l, event.test j sc l ∈ new →
      (j < cfg.BOARD_WIDTH * cfg.BOARD_HEIGHT ∧ sc ≤ j * ROOK_VALUE ∧
        l ≤ (cfg.BOARD_WIDTH * cfg.BOARD_HEIGHT - j) * ROOK_VALUE) ∨
      (sc = 0 ∧ l = SCORE_MAX cfg ∧
        ∃ pre post m, H ++ new = pre ++ event.start j EMPTY_BOARD ::
          event.enter EMPTY_BOARD m j :: event.test j sc l :: post)) :
    read_exact cfg (H ++ new) := by
  intro j sc l he
  rcases List.mem_append.1 he with he | he
  · rcases h j sc l he with h1 | ⟨h1, h2, pre, post, m, h3⟩
    · exact Or.inl h1
    · refine Or.inr ⟨h1, h2, pre, post ++ new, m, ?_⟩
      rw [h3]
      simp only [List.append_assoc, List.cons_append]
  · exact hnew j sc l he

theorem run_loop_exact (cfg : config) (hs : population_static_assert cfg) (hf : score_fits cfg) :
    ∀ (i : Nat) (s : state) (limits : Nat → Nat), i ≤ cfg.BOARD_WIDTH * cfg.BOARD_HEIGHT →
      s.board = EMPTY_BOARD → legal_board cfg i s.maximum_board →
      (∀ j, i ≤ j → j < cfg.BOARD_WIDTH * cfg.BOARD_HEIGHT → valid_bound cfg limits j) →
      (∀ j, j < i → limits j = SCORE_MAX cfg) →
      read_exact cfg s.history →
      read_exact cfg (run_loop cfg i s limits).1.history := by
  intro i
  induction i with
  | zero => intro s limits _ _ _ _ _ hh; exact hh
  | succ i ih =>
    intro s limits hi hb hm hv hmax hh
    rw [run_loop]
    obtain ⟨h0, e1, m1, _, _⟩ := iteration_sound cfg hs limits i s hi hb hm
    have hvi := iteration_bound cfg hs hf limits i s hi hb hm
      (fun j hj1 hj2 => hv j (by omega) hj2) (hmax i (Nat.lt_succ_self i))
    have e : cfg.BOARD_WIDTH * cfg.BOARD_HEIGHT - (cfg.BOARD_WIDTH * cfg.BOARD_HEIGHT - i) = i := by
      omega
    have ct := run_call_trace cfg hs limits i (cfg.BOARD_WIDTH * cfg.BOARD_HEIGHT - i) _
      (Nat.sub_le _ _) (by omega) (by rw [e]; exact h0)
    rw [e] at ct
    generalize run cfg limits (cfg.BOARD_WIDTH * cfg.BOARD_HEIGHT - i)
      { s with history := s.history ++ [event.start i s.board] } = s1 at e1 m1 hvi ct ⊢
    refine ih s1 _ (by omega) (e1.trans hb) m1 ?_ ?_ ?_
    · intro j hj1 hj2
      rcases Nat.eq_or_lt_of_le hj1 with rfl | hlt
      · exact (hvi _ (by simp [set1])).1
      · have hne : ¬ j = i := by omega
        have e : limits j = set1 limits i s1.maximum_board.score j := by simp [set1, hne]
        exact valid_bound_congr cfg _ _ j e (hv j (by omega) hj2)
    · intro j hj
      have hne : ¬ j = i := by omega
      simp only [set1, if_neg hne]
      exact hmax j (by omega)
    · obtain ⟨k, q1, _, q3⟩ := ct
      obtain ⟨k', rfl, q4⟩ := q3 hi
      simp only [hb] at q1
      rw [q1, List.append_assoc]
      refine read_exact_append cfg _ _ hh ?_
      intro j sc l he
      simp only [List.singleton_append, List.mem_cons] at he
      rcases he with he | he | he | he
      · exact absurd he (fun h => event.noConfusion h)
      · exact absurd he (fun h => event.noConfusion h)
      · injection he with a1 a2 a3
        subst a1
        refine Or.inr ⟨a2, ?_, s.history, k', s.maximum_board, ?_⟩
        · rw [a3]; exact hmax _ (Nat.lt_succ_self _)
        · rw [a2, a3]; rfl
      · obtain ⟨b1, b2, b3, b4⟩ := q4 _ he
        refine Or.inl ⟨b2, b4, ?_⟩
        rw [b3]
        exact (hv j (by omega) b2).2

/-- The operands of the pruning test in the complete computation, for every
configuration: their sum is below the number of values of `score_t`. -/
theorem main_read_exact (cfg : config) (hs : population_static_assert cfg)
    (hf : score_fits cfg) :
    ∃ res, main cfg = some res ∧
      ∀ j sc l, event.test j sc l ∈ res.1.history →
        sc + l < SCORE_MOD cfg ∧
        ((sc ≤ cfg.BOARD_WIDTH * cfg.BOARD_HEIGHT * ROOK_VALUE ∧
            l ≤ cfg.BOARD_WIDTH * cfg.BOARD_HEIGHT * ROOK_VALUE) ∨
          (sc = 0 ∧ l = SCORE_MAX cfg ∧
            ∃ pre post m, res.1.history = pre ++ event.start j EMPTY_BOARD ::
              event.enter EMPTY_BOARD m j :: event.test j sc l :: post)) := by
  have h := run_loop_exact cfg hs hf _ ⟨EMPTY_BOARD, EMPTY_BOARD, [], []⟩ (init_limits cfg)
    (le_refl _) rfl (legal_board_EMPTY_BOARD cfg _) (fun j hj1 hj2 => absurd hj2 (by omega))
    (fun j hj => init_limits_eq cfg j hj) (fun j sc l he => absurd he (List.not_mem_nil _))
  refine ⟨_, main_eq cfg, ?_⟩
  intro j sc l he
  have hpos := SCORE_MOD_pos cfg
  unfold score_fits at hf
  rcases h j sc l he with ⟨a0, a1, a2⟩ | ⟨a1, a2, a3⟩
  · generalize cfg.BOARD_WIDTH * cfg.BOARD_HEIGHT = N at *
    unfold SCORE_MAX at hf
    unfold SCORE_MOD at *
    simp only [ROOK_VALUE] at *
    refine ⟨by omega, Or.inl ⟨by omega, by omega⟩⟩
  · refine ⟨?_, Or.inr ⟨a1, a2, a3⟩⟩
    rw [a1, a2]
    unfold SCORE_MAX SCORE_MOD at *
    omega

/-- C19. No wrap-around in the pruning test. On the 8 by 8 board, for every
width `w ≥ 16` of `score_t`, the complete computation terminates and every
evaluation of `board->score + limits[index]` is exact: the sum of the two
operands is below `2 ^ w`. Either both operands are at most `64 * 28 = 1792`,
or the score is 0 and the bound read is `SCORE_MAX`, and then the test is the
one of the call `main` makes for that index: it directly follows the record
of that call and of its entry, both on the empty board. -/
theorem pruning_test_exact (w : Nat) (hw : 16 ≤ w) :
    ∃ res, main ⟨8, 8, 8, w⟩ = some res ∧
      ∀ j sc l, event.test j sc l ∈ res.1.history →
        sc + l < 2 ^ w ∧ (sc + l) % SCORE_MOD ⟨8, 8, 8, w⟩ = sc + l ∧
        ((sc ≤ 1792 ∧ l ≤ 1792) ∨
          (sc = 0 ∧ l = SCORE_MAX ⟨8, 8, 8, w⟩ ∧
            ∃ pre post m, res.1.history = pre ++ event.start j EMPTY_BOARD ::
              event.enter EMPTY_BOARD m j :: event.test j sc l :: post)) := by
  have h16 : 2 ^ 16 ≤ 2 ^ w := Nat.pow_le_pow_right (by decide) hw
  have hs : population_static_assert ⟨8, 8, 8, w⟩ := by
    show (8 * 8) % 2 ^ 8 = 8 * 8
    decide
  have hf : score_fits ⟨8, 8, 8, w⟩ := by
    show 8 * 8 * 28 < 2 ^ w - 1
    omega
  obtain ⟨res, h1, h2⟩ := main_read_exact _ hs hf
  refine ⟨res, h1, ?_⟩
  intro j sc l he
  obtain ⟨a1, a2⟩ := h2 j sc l he
  have e : SCORE_MOD ⟨8, 8, 8, w⟩ = 2 ^ w := rfl
  rw [e] at a1 ⊢
  refine ⟨a1, Nat.mod_eq_of_lt a1, ?_⟩
  rcases a2 with ⟨b1, b2⟩ | b
  · simp only [ROOK_VALUE] at b1 b2
    exact Or.inl ⟨by omega, by omega⟩
  · exact Or.inr b

theorem pruning_test_exact_witness :
    ∃ res, main ⟨8, 8, 8, 16⟩ = some res ∧
      ∀ j sc l, event.test j sc l ∈ res.1.history →
        sc + l < 2 ^ 16 ∧ (sc + l) % SCORE_MOD ⟨8, 8, 8, 16⟩ = sc + l ∧
        ((sc ≤ 1792 ∧ l ≤ 1792) ∨
          (sc = 0 ∧ l = SCORE_MAX ⟨8, 8, 8, 16⟩ ∧
            ∃ pre post m, res.1.history = pre ++ event.start j EMPTY_BOARD ::
              event.enter EMPTY_BOARD m j :: event.test j sc l :: post)) :=
  pruning_test_exact 16 (by decide)

/-! ## The bound table is monotone -/

theorem run_step_extends (cfg : config) (limits : Nat → Nat) (rec : state → state)
    (index : Nat) (s : state) (hrec : ∀ t, extends_to t (rec t)) :
    extends_to s (run_step cfg limits rec index s) := by
  unfold run_step
  simp only []
  have q2 := extends_to_test_update s index (limits index)
  split
  · exact q2
  · split
    · exact extends_to_trans q2 (hrec _)
    · exact extends_to_trans (extends_to_trans q2 (extends_to_attempts cfg rec _ _ _ hrec))
        (hrec _)

/-- The history of a call of `maximize` starts with the record of its entry,
and holds no record of a call by `main`. -/
theorem run_history_head (cfg : config) (limits : Nat → Nat) (remaining : Nat) (s : state) :
    ∃ h, (run cfg limits remaining s).history =
        s.history ++ event.enter s.board s.maximum_board
          (cfg.BOARD_WIDTH * cfg.BOARD_HEIGHT - remaining) :: h ∧
      ∀ e ∈ h, ∀ i b, e ≠ event.start i b := by
  cases remaining with
  | zero =>
    refine ⟨[], ?_, by simp⟩
    rw [run, enter_update_history]; rfl
  | succ remaining =>
    rw [run]
    have e1 := enter_update_history s (cfg.BOARD_WIDTH * cfg.BOARD_HEIGHT - (remaining + 1))
    obtain ⟨_, h, _, a2, _, _, _, a6⟩ := run_step_extends cfg limits (run cfg limits remaining)
      (cfg.BOARD_WIDTH * cfg.BOARD_HEIGHT - (remaining + 1))
      (enter_update s (cfg.BOARD_WIDTH * cfg.BOARD_HEIGHT - (remaining + 1)))
      (extends_to_run cfg limits remaining)
    refine ⟨h, ?_, a6⟩
    rw [a2, e1, List.append_assoc]
    rfl

theorem starts_ok_step (cfg : config) (limits limits' : Nat → Nat) (i : Nat) (H h : List event)
    (b0 b1 m0 : board) (hH : starts_ok cfg limits (i + 1) H)
    (hh : ∀ e ∈ h, ∀ i b, e ≠ event.start i b)
    (hl : ∀ j, i + 1 ≤ j → limits' j = limits j)
    (h1 : i + 1 < cfg.BOARD_WIDTH * cfg.BOARD_HEIGHT → m0.score = limits (i + 1))
    (h2 : i + 1 = cfg.BOARD_WIDTH * cfg.BOARD_HEIGHT → m0 = EMPTY_BOARD) :
    starts_ok cfg limits' i (H ++ event.start i b0 :: event.enter b1 m0 i :: h) := by
  intro k i' b hk
  rcases Nat.lt_or_ge k H.length with hlt | hge
  · rw [List.getElem?_append_left hlt] at hk
    obtain ⟨a1, b', m, a2, a3, a4⟩ := hH k i' b hk
    obtain ⟨hk1, _⟩ := List.getElem?_eq_some.1 a2
    refine ⟨by omega, b', m, ?_, ?_, a4⟩
    · rw [List.getElem?_append_left hk1]; exact a2
    · intro hi; rw [hl _ (by omega)]; exact a3 hi
  · rw [List.getElem?_append_right hge] at hk
    rcases Nat.eq_or_lt_of_le hge with heq | hgt
    · rw [← heq, Nat.sub_self, List.getElem?_cons_zero] at hk
      injection hk with hk
      injection hk with e1 e2
      subst e1
      refine ⟨le_refl _, b1, m0, ?_, ?_, h2⟩
      · rw [List.getElem?_append_right (by omega)]
        have : k + 1 - H.length = 0 + 1 := by omega
        rw [this, List.getElem?_cons_succ, List.getElem?_cons_zero]
      · intro hi; rw [hl _ (le_refl _)]; exact h1 hi
    · exfalso
      obtain ⟨d, hd⟩ : ∃ d, k - H.length = d + 1 := ⟨k - H.length - 1, by omega⟩
      rw [hd, List.getElem?_cons_succ] at hk
      cases d with
      | zero =>
        rw [List.getElem?_cons_zero] at hk
        injection hk with hk
        exact event.noConfusion hk
      | succ d =>
        rw [List.getElem?_cons_succ] at hk
        exact hh _ (List.getElem?_mem hk) i' b rfl

theorem run_loop_monotone (cfg : config) :
    ∀ (i : Nat) (s : state) (limits : Nat → Nat), i ≤ cfg.BOARD_WIDTH * cfg.BOARD_HEIGHT →
      (i < cfg.BOARD_WIDTH * cfg.BOARD_HEIGHT → s.maximum_board.score = limits i) →
      (i = cfg.BOARD_WIDTH * cfg.BOARD_HEIGHT → s.maximum_board = EMPTY_BOARD) →
      (∀ j, i ≤ j → j + 1 < cfg.BOARD_WIDTH * cfg.BOARD_HEIGHT → limits (j + 1) ≤ limits j) →
      starts_ok cfg limits i s.history →
      (∀ i', i ≤ i' → i' < cfg.BOARD_WIDTH * cfg.BOARD_HEIGHT →
        ∃ (k : Nat) (b : board), s.history[k]? = some (event.start i' b)) →
      (∀ j, j + 1 < cfg.BOARD_WIDTH * cfg.BOARD_HEIGHT →
        (run_loop cfg i s limits).2 (j + 1) ≤ (run_loop cfg i s limits).2 j) ∧
      starts_ok cfg (run_loop cfg i s limits).2 0 (run_loop cfg i s limits).1.history ∧
      (∀ i', i' < cfg.BOARD_WIDTH * cfg.BOARD_HEIGHT →
        ∃ (k : Nat) (b : board), (run_loop cfg i s limits).1.history[k]? = some (event.start i' b)) := by
  intro i
  induction i with
  | zero =>
    intro s limits _ _ _ h1 h2 h3
    exact ⟨fun j hj => h1 j (Nat.zero_le _) hj, h2, fun i' hi' => h3 i' (Nat.zero_le _) hi'⟩
  | succ i ih =>
    intro s limits hi hm he hmono hst hex
    rw [run_loop]
    obtain ⟨h, q1, q2⟩ := run_history_head cfg limits (cfg.BOARD_WIDTH * cfg.BOARD_HEIGHT - i)
      { s with history := s.history ++ [event.start i s.board] }
    have hle := extends_to_score_le (extends_to_run cfg limits
      (cfg.BOARD_WIDTH * cfg.BOARD_HEIGHT - i)
      { s with history := s.history ++ [event.start i s.board] })
    have e : cfg.BOARD_WIDTH * cfg.BOARD_HEIGHT - (cfg.BOARD_WIDTH * cfg.BOARD_HEIGHT - i) = i := by
      omega
    rw [e] at q1
    simp only [] at q1 hle
    generalize run cfg limits (cfg.BOARD_WIDTH * cfg.BOARD_HEIGHT - i)
      { s with history := s.history ++ [event.start i s.board] } = s1 at q1 hle ⊢
    have q1' : s1.history = s.history ++ event.start i s.board ::
        event.enter s.board s.maximum_board i :: h := by
      rw [q1, List.append_assoc]; rfl
    refine ih s1 _ (by omega) (fun _ => by simp [set1]) (fun h => absurd h (by omega)) ?_ ?_ ?_
    · intro j hj1 hj2
      rcases Nat.eq_or_lt_of_le hj1 with rfl | hlt
      · have hne : ¬ i + 1 = i := by omega
        simp only [set1, if_neg hne, if_true]
        rw [← hm hj2]
        exact hle
      · have hne1 : ¬ j = i := by omega
        have hne2 : ¬ j + 1 = i := by omega
        simp only [set1, if_neg hne1, if_neg hne2]
        exact hmono j (by omega) hj2
    · rw [q1']
      refine starts_ok_step cfg limits _ i s.history h _ _ _ hst q2 ?_ hm he
      intro j hj
      have hne : ¬ j = i := by omega
      simp only [set1, if_neg hne]
    · intro i' hi1 hi2
      rcases Nat.eq_or_lt_of_le hi1 with rfl | hlt
      · refine ⟨s.history.length, s.board, ?_⟩
        rw [q1', List.getElem?_append_right (le_refl _), Nat.sub_self]
        rfl
      · obtain ⟨k, b, hk⟩ := hex i' (by omega) hi2
        refine ⟨k, b, ?_⟩
        obtain ⟨hk1, _⟩ := List.getElem?_eq_some.1 hk
        rw [q1', List.getElem?_append_left hk1]
        exact hk

/-- C20. The bound table is monotone. The complete computation terminates;
at its end `limits[i] ≥ limits[i + 1]` for every `i` with
`i + 1 < BOARD_WIDTH * BOARD_HEIGHT`; `main` calls `maximize` for every
square `i`; and every call of `maximize` by `main`, for a square `i`, enters
`maximize` with a best board that scores `limits[i + 1]` (the best board of
the run before, which is not reset), or, for the last square, with the empty
best board. -/
theorem bound_table_monotone (cfg : config) :
    ∃ res, main cfg = some res ∧
      (∀ i, i + 1 < cfg.BOARD_WIDTH * cfg.BOARD_HEIGHT → res.2 (i + 1) ≤ res.2 i) ∧
      (∀ i, i < cfg.BOARD_WIDTH * cfg.BOARD_HEIGHT →
        ∃ (k : Nat) (b : board), res.1.history[k]? = some (event.start i b)) ∧
      (∀ k i b, res.1.history[k]? = some (event.start i b) →
        ∃ b' m, res.1.history[k + 1]? = some (event.enter b' m i) ∧
          (i + 1 < cfg.BOARD_WIDTH * cfg.BOARD_HEIGHT → m.score = res.2 (i + 1)) ∧
          (i + 1 = cfg.BOARD_WIDTH * cfg.BOARD_HEIGHT → m = EMPTY_BOARD)) := by
  obtain ⟨h1, h2, h3⟩ := run_loop_monotone cfg (cfg.BOARD_WIDTH * cfg.BOARD_HEIGHT)
    ⟨EMPTY_BOARD, EMPTY_BOARD, [], []⟩ (init_limits cfg) (le_refl _)
    (fun h => absurd h (lt_irrefl _)) (fun _ => rfl) (fun j hj1 hj2 => absurd hj2 (by omega))
    (fun k i' b hk => by simp at hk) (fun i' hi1 hi2 => absurd hi2 (by omega))
  exact ⟨_, main_eq cfg, h1, h3, fun k i b hk => (h2 k i b hk).2⟩

theorem bound_table_monotone_witness :
    ∃ res, main army_config = some res ∧ res.2 (62 + 1) ≤ res.2 62 ∧
      ∃ (k : Nat) (b : board), res.1.history[k]? = some (event.start 62 b) :=
  let ⟨res, h1, h2, h3, _⟩ := bound_table_monotone army_config
  ⟨res, h1, h2 62 (by decide), h3 62 (by decide)⟩

/-! ## The guards of the king and the knight -/

theorem entered_at_append (h1 h2 : List event) (i : Nat) (b : board) :
    entered_at (h1 ++ h2) i b ↔ entered_at h1 i b ∨ entered_at h2 i b := by
  unfold entered_at
  constructor
  · rintro ⟨m, hm⟩
    rcases List.mem_append.1 hm with h | h
    · exact Or.inl ⟨m, h⟩
    · exact Or.inr ⟨m, h⟩
  · rintro (⟨m, h⟩ | ⟨m, h⟩)
    · exact ⟨m, List.mem_append_left _ h⟩
    · exact ⟨m, List.mem_append_right _ h⟩

/-- The entries at the index `n` recorded by a call of `maximize` at the index
`n`: the entry of the call itself, and no other. -/
theorem call_entered_at (cfg : config) (limits : Nat → Nat) (n : Nat)
    (hn : n ≤ cfg.BOARD_WIDTH * cfg.BOARD_HEIGHT) (t t' : state)
    (h : call_trace cfg limits n t t') :
    ∃ new, t'.history = t.history ++ new ∧ ∀ b, entered_at new n b ↔ b = t.board := by
  obtain ⟨k, e1, e2, e3⟩ := h
  refine ⟨_, e1, ?_⟩
  intro b
  constructor
  · rintro ⟨m, hm⟩
    rcases List.mem_cons.1 hm with heq | hm
    · injection heq with a1 _ _
    · exfalso
      rcases Nat.eq_or_lt_of_le hn with hN | hlt
      · rw [e2 hN] at hm; exact absurd hm (List.not_mem_nil _)
      · obtain ⟨k', rfl, e4⟩ := e3 hlt
        rcases List.mem_cons.1 hm with heq | hm
        · exact event.noConfusion heq
        · have := (e4 _ hm).1
          omega
  · rintro rfl
    exact ⟨_, List.mem_cons_self _ _⟩

theorem attempt_entered_at (cfg : config) (hs : population_static_assert cfg)
    (limits : Nat → Nat) (lo n : Nat) (k : piece) (rec : state → state) (s : state)
    (h : state_ok cfg lo n s) (hn : n < cfg.BOARD_WIDTH * cfg.BOARD_HEIGHT) (hlo : lo ≤ n)
    (ha : attacked cfg s.board (n / cfg.BOARD_WIDTH) (n % cfg.BOARD_WIDTH) = false)
    (hrec : ∀ t, state_ok cfg lo (n + 1) t → call_trace cfg limits (n + 1) t (rec t)) :
    ∃ new, (attempt cfg k rec s (n / cfg.BOARD_WIDTH) (n % cfg.BOARD_WIDTH)).history =
        s.history ++ new ∧
      ∀ b, entered_at new (n + 1) b ↔
        (extra_guard cfg k s.board (n / cfg.BOARD_WIDTH) (n % cfg.BOARD_WIDTH) ∧
          b = place_kind cfg k s.board (n / cfg.BOARD_WIDTH) (n % cfg.BOARD_WIDTH)) := by
  unfold attempt
  split
  · rename_i hg
    have h0 := state_ok_place cfg hs lo n s h hn hlo k (Or.inr ⟨ha, hg⟩)
    obtain ⟨new, q1, q2⟩ := call_entered_at cfg limits (n + 1) hn _ _ (hrec _ h0)
    simp only [] at q1 q2 ⊢
    refine ⟨new ++ [event.unplaced _], by rw [q1, List.append_assoc], ?_⟩
    intro b
    rw [entered_at_append, q2]
    constructor
    · rintro (rfl | ⟨m, hm⟩)
      · exact ⟨hg, rfl⟩
      · rw [List.mem_singleton] at hm; exact event.noConfusion hm
    · rintro ⟨_, rfl⟩; exact Or.inl rfl
  · rename_i hg
    refine ⟨[], by simp, ?_⟩
    intro b
    constructor
    · rintro ⟨m, hm⟩; exact absurd hm (List.not_mem_nil _)
    · rintro ⟨hg', _⟩; exact absurd hg' hg

theorem attempts_entered_at (cfg : config) (hs : population_static_assert cfg)
    (limits : Nat → Nat) (lo n : Nat) (rec : state → state) (s : state)
    (h : state_ok cfg lo n s) (hn : n < cfg.BOARD_WIDTH * cfg.BOARD_HEIGHT) (hlo : lo ≤ n)
    (ha : attacked cfg s.board (n / cfg.BOARD_WIDTH) (n % cfg.BOARD_WIDTH) = false)
    (hsound : ∀ t, state_ok cfg lo (n + 1) t → sound_step cfg lo t (rec t))
    (hrec : ∀ t, state_ok cfg lo (n + 1) t → call_trace cfg limits (n + 1) t (rec t)) :
    ∃ new, (attempts cfg rec s (n / cfg.BOARD_WIDTH) (n % cfg.BOARD_WIDTH)).history =
        s.history ++ new ∧
      ∀ b, entered_at new (n + 1) b ↔
        ∃ k, k ≠ EMPTY ∧
          extra_guard cfg k s.board (n / cfg.BOARD_WIDTH) (n % cfg.BOARD_WIDTH) ∧
          b = place_kind cfg k s.board (n / cfg.BOARD_WIDTH) (n % cfg.BOARD_WIDTH) := by
  have q1 := attempt_sound cfg hs lo n ROOK rec s h hn hlo ha hsound
  have k1 := state_ok_of_step h q1
  obtain ⟨n1, c1, d1⟩ := attempt_entered_at cfg hs limits lo n ROOK rec s h hn hlo ha hrec
  generalize ha1 : attempt cfg ROOK rec s (n / cfg.BOARD_WIDTH) (n % cfg.BOARD_WIDTH) = a1
    at q1 k1 c1
  have b2 : attacked cfg a1.board (n / cfg.BOARD_WIDTH) (n % cfg.BOARD_WIDTH) = false := by
    rw [q1.1]; exact ha
  have q2 := attempt_sound cfg hs lo n BISHOP rec a1 k1 hn hlo b2 hsound
  have k2 := state_ok_of_step k1 q2
  obtain ⟨n2, c2, d2⟩ := attempt_entered_at cfg hs limits lo n BISHOP rec a1 k1 hn hlo b2 hrec
  generalize ha2 : attempt cfg BISHOP rec a1 (n / cfg.BOARD_WIDTH) (n % cfg.BOARD_WIDTH) = a2
    at q2 k2 c2
  have b3 : attacked cfg a2.board (n / cfg.BOARD_WIDTH) (n % cfg.BOARD_WIDTH) = false := by
    rw [q2.1]; exact b2
  have q3 := attempt_sound cfg hs lo n KING rec a2 k2 hn hlo b3 hsound
  have k3 := state_ok_of_step k2 q3
  obtain ⟨n3, c3, d3⟩ := attempt_entered_at cfg hs limits lo n KING rec a2 k2 hn hlo b3 hrec
  generalize ha3 : attempt cfg KING rec a2 (n / cfg.BOARD_WIDTH) (n % cfg.BOARD_WIDTH) = a3
    at q3 k3 c3
  have b4 : attacked cfg a3.board (n / cfg.BOARD_WIDTH) (n % cfg.BOARD_WIDTH) = false := by
    rw [q3.1]; exact b3
  obtain ⟨n4, c4, d4⟩ := attempt_entered_at cfg hs limits lo n KNIGHT rec a3 k3 hn hlo b4 hrec
  have hA : attempts cfg rec s (n / cfg.BOARD_WIDTH) (n % cfg.BOARD_WIDTH) =
      attempt cfg KNIGHT rec a3 (n / cfg.BOARD_WIDTH) (n % cfg.BOARD_WIDTH) := by
    rw [← ha3, ← ha2, ← ha1]; rfl
  have e1 : a1.board = s.board := q1.1
  have e2 : a2.board = s.board := q2.1.trans e1
  have e3 : a3.board = s.board := q3.1.trans e2
  rw [e1] at d2
  rw [e2] at d3
  rw [e3] at d4
  refine ⟨n1 ++ n2 ++ n3 ++ n4, by rw [hA, c4, c3, c2, c1]; simp only [List.append_assoc], ?_⟩
  intro b
  rw [entered_at_append, entered_at_append, entered_at_append, d1, d2, d3, d4]
  constructor
  · rintro (((⟨g, e⟩ | ⟨g, e⟩) | ⟨g, e⟩) | ⟨g, e⟩)
    · exact ⟨ROOK, by decide, g, e⟩
    · exact ⟨BISHOP, by decide, g, e⟩
    · exact ⟨KING, by decide, g, e⟩
    · exact ⟨KNIGHT, by decide, g, e⟩
  · rintro ⟨k, hk, g, e⟩
    cases k
    · exact absurd rfl hk
    · exact Or.inr ⟨g, e⟩
    · exact Or.inl (Or.inl (Or.inr ⟨g, e⟩))
    · exact Or.inl (Or.inl (Or.inl ⟨g, e⟩))
    · exact Or.inl (Or.inr ⟨g, e⟩)

/-- The calls of `maximize` for the next square that a call of `maximize`
makes when it does not prune: one on the unchanged board, and, when the
square is not attacked, one for each kind whose extra test holds, on the board
with a piece of that kind on the square. -/
theorem run_entered_at (cfg : config) (hs : population_static_assert cfg) (limits : Nat → Nat)
    (lo n : Nat) (s : state) (h : state_ok cfg lo n s)
    (hn : n < cfg.BOARD_WIDTH * cfg.BOARD_HEIGHT) (hlo : lo ≤ n)
    (hprune : ¬ (s.board.score + limits n) % SCORE_MOD cfg ≤
      (enter_update s n).maximum_board.score) :
    ∃ new, (run cfg limits (cfg.BOARD_WIDTH * cfg.BOARD_HEIGHT - n) s).history =
        s.history ++ new ∧
      ∀ b, entered_at new (n + 1) b ↔
        (b = s.board ∨
          (attacked cfg s.board (n / cfg.BOARD_WIDTH) (n % cfg.BOARD_WIDTH) = false ∧
            ∃ k, k ≠ EMPTY ∧
              extra_guard cfg k s.board (n / cfg.BOARD_WIDTH) (n % cfg.BOARD_WIDTH) ∧
              b = place_kind cfg k s.board (n / cfg.BOARD_WIDTH) (n % cfg.BOARD_WIDTH))) := by
  obtain ⟨remaining, hrem⟩ : ∃ remaining,
      cfg.BOARD_WIDTH * cfg.BOARD_HEIGHT - n = remaining + 1 :=
    ⟨cfg.BOARD_WIDTH * cfg.BOARD_HEIGHT - n - 1, by omega⟩
  have hnext : n + 1 = cfg.BOARD_WIDTH * cfg.BOARD_HEIGHT - remaining := by omega
  have hidx : cfg.BOARD_WIDTH * cfg.BOARD_HEIGHT - (remaining + 1) = n := by omega
  have hsound : ∀ t, state_ok cfg lo (n + 1) t →
      sound_step cfg lo t (run cfg limits remaining t) := by
    intro t ht
    exact run_sound cfg hs limits lo remaining t (by omega) (by omega) (hnext ▸ ht)
  have hrec : ∀ t, state_ok cfg lo (n + 1) t →
      call_trace cfg limits (n + 1) t (run cfg limits remaining t) := by
    intro t ht
    have := run_call_trace cfg hs limits lo remaining t (by omega) (by omega) (hnext ▸ ht)
    rw [← hnext] at this
    exact this
  have hcall : ∀ t, state_ok cfg lo (n + 1) t →
      ∃ new, (run cfg limits remaining t).history = t.history ++ new ∧
        ∀ b, entered_at new (n + 1) b ↔ b = t.board :=
    fun t ht => call_entered_at cfg limits (n + 1) hn _ _ (hrec t ht)
  rw [hrem, run, hidx]
  simp only [run_step]
  have q1 := sound_enter_update cfg lo n s n h (le_of_lt hn)
  have e1 := enter_update_history s n
  generalize enter_update s n = s1 at q1 e1 hprune ⊢
  have k1 := state_ok_of_step h q1
  have q2 := sound_test_update cfg lo s1 n (limits n) k1.2.2.2
  have e2 : (test_update s1 n (limits n)).history =
      s1.history ++ [event.test n s1.board.score (limits n)] := rfl
  have m2 : (test_update s1 n (limits n)).maximum_board = s1.maximum_board := rfl
  generalize test_update s1 n (limits n) = s2 at q2 e2 m2 ⊢
  have k2 := state_ok_of_step k1 q2
  have hb2 : s2.board = s.board := q2.1.trans q1.1
  have hhead : ∀ b, ¬ entered_at
      [event.enter s.board s.maximum_board n, event.test n s1.board.score (limits n)]
      (n + 1) b := by
    rintro b ⟨m, hm⟩
    simp only [List.mem_cons, List.mem_singleton, List.not_mem_nil, or_false] at hm
    rcases hm with hm | hm
    · injection hm with _ _ a3; omega
    · exact event.noConfusion hm
  rw [if_neg (by rw [hb2, m2]; exact hprune)]
  split
  · rename_i hatt
    obtain ⟨new, c1, c2⟩ := hcall s2 (state_ok_succ cfg hs lo _ s2 k2 hn hlo)
    refine ⟨[event.enter s.board s.maximum_board n, event.test n s1.board.score (limits n)]
      ++ new, by rw [c1, e2, e1]; simp only [List.append_assoc, List.singleton_append,
        List.cons_append, List.nil_append], ?_⟩
    intro b
    rw [entered_at_append, c2, hb2]
    constructor
    · rintro (hh | hh)
      · exact absurd hh (hhead b)
      · exact Or.inl hh
    · rintro (hh | ⟨hf, _⟩)
      · exact Or.inr hh
      · rw [← hb2, hatt] at hf; exact Bool.noConfusion hf
  · rename_i hna
    have ha := Bool.eq_false_iff.2 hna
    have q3 := attempts_sound cfg hs lo n (run cfg limits remaining) s2 k2 hn hlo ha hsound
    have k3 := state_ok_of_step k2 q3
    obtain ⟨n3, c3, d3⟩ := attempts_entered_at cfg hs limits lo n (run cfg limits remaining)
      s2 k2 hn hlo ha hsound hrec
    obtain ⟨new, c1, c2⟩ := hcall _ (state_ok_succ cfg hs lo _ _ k3 hn hlo)
    refine ⟨[event.enter s.board s.maximum_board n, event.test n s1.board.score (limits n)]
      ++ (n3 ++ new), by rw [c1, c3, e2, e1]; simp only [List.append_assoc,
        List.singleton_append, List.cons_append, List.nil_append], ?_⟩
    intro b
    rw [entered_at_append, entered_at_append, c2, d3, q3.1, hb2]
    constructor
    · rintro (hh | hh | hh)
      · exact absurd hh (hhead b)
      · exact Or.inr ⟨hb2 ▸ ha, hh⟩
      · exact Or.inl hh
    · rintro (hh | ⟨_, hh⟩)
      · exact Or.inr (Or.inr hh)
      · exact Or.inr (Or.inl hh)

theorem place_kind_eq_iff (cfg : config) (n : Nat) (b : board) (hb : board_invariant cfg n b)
    (k k' : piece) (hk : k ≠ EMPTY) :
    (place_kind cfg k b (n / cfg.BOARD_WIDTH) (n % cfg.BOARD_WIDTH) ≠ b) ∧
    (place_kind cfg k b (n / cfg.BOARD_WIDTH) (n % cfg.BOARD_WIDTH) =
      place_kind cfg k' b (n / cfg.BOARD_WIDTH) (n % cfg.BOARD_WIDTH) → k = k') := by
  have he := board_invariant_piece_at cfg n b hb n (le_refl n)
  have h1 := piece_at_place_kind cfg k b n n he
  have h2 := piece_at_place_kind cfg k' b n n he
  rw [if_pos rfl] at h1 h2
  constructor
  · intro e
    rw [e, he] at h1
    exact hk h1.symm
  · intro e
    rw [e, h2] at h1
    exact h1.symm

/-- C16, amended. King and knight legality. When `maximize` is entered at the
index `n` of a square with a board that satisfies the invariant and holds no
attack, is given enough fuel, and does not prune, it returns, and among the
calls it records it calls itself for the next square with a king on the
square if and only if the square passes the baseline test (`attacked` is
false) and `king_population[row][column]` is 0, and with a knight on the
square if and only if the square passes the baseline test and
`knight_population[row][column]` is 0: like the rook and the bishop, the king
and the knight are subject to an additional population test. -/
theorem king_knight_guards (cfg : config) (hs : population_static_assert cfg)
    (limits : Nat → Nat) (n fuel : Nat) (s : state)
    (hb : board_invariant cfg n s.board) (hna : non_attacking cfg s.board.pieces)
    (hm : legal_board cfg 0 s.maximum_board)
    (hn : n < cfg.BOARD_WIDTH * cfg.BOARD_HEIGHT)
    (hfuel : cfg.BOARD_WIDTH * cfg.BOARD_HEIGHT - n < fuel)
    (hprune : ¬ (s.board.score + limits n) % SCORE_MOD cfg ≤
      (enter_update s n).maximum_board.score) :
    ∃ s' new, maximize cfg limits fuel s n = some s' ∧ s'.history = s.history ++ new ∧
      (entered_at new (n + 1)
          (place_king cfg s.board (n / cfg.BOARD_WIDTH) (n % cfg.BOARD_WIDTH)) ↔
        (attacked cfg s.board (n / cfg.BOARD_WIDTH) (n % cfg.BOARD_WIDTH) = false ∧
          s.board.king_population (n / cfg.BOARD_WIDTH) (n % cfg.BOARD_WIDTH) = 0)) ∧
      (entered_at new (n + 1)
          (place_knight cfg s.board (n / cfg.BOARD_WIDTH) (n % cfg.BOARD_WIDTH)) ↔
        (attacked cfg s.board (n / cfg.BOARD_WIDTH) (n % cfg.BOARD_WIDTH) = false ∧
          s.board.knight_population (n / cfg.BOARD_WIDTH) (n % cfg.BOARD_WIDTH) = 0)) := by
  have hok : state_ok cfg 0 n s := ⟨hb, hna, fun _ _ _ => Nat.zero_le _, hm⟩
  obtain ⟨new, q1, q2⟩ := run_entered_at cfg hs limits 0 n s hok hn (Nat.zero_le _) hprune
  have key : ∀ k, k ≠ EMPTY →
      (entered_at new (n + 1)
          (place_kind cfg k s.board (n / cfg.BOARD_WIDTH) (n % cfg.BOARD_WIDTH)) ↔
        (attacked cfg s.board (n / cfg.BOARD_WIDTH) (n % cfg.BOARD_WIDTH) = false ∧
          extra_guard cfg k s.board (n / cfg.BOARD_WIDTH) (n % cfg.BOARD_WIDTH))) := by
    intro k hk
    rw [q2]
    constructor
    · rintro (e | ⟨ha, k', _, hg, e⟩)
      · exact absurd e (place_kind_eq_iff cfg n s.board hb k k hk).1
      · have := (place_kind_eq_iff cfg n s.board hb k k' hk).2 e
        subst this
        exact ⟨ha, hg⟩
    · rintro ⟨ha, hg⟩
      exact Or.inr ⟨ha, k, hk, hg, rfl⟩
  exact ⟨_, new, maximize_total cfg limits fuel n s (le_of_lt hn) hfuel, q1,
    key KING (by decide), key KNIGHT (by decide)⟩

theorem king_knight_guards_witness :
    ∃ s' new, maximize army_config (fun _ => 28) 2
        ⟨place_knight army_config EMPTY_BOARD 7 6, EMPTY_BOARD, [], []⟩ 63 = some s' ∧
      s'.history = [] ++ new ∧
      (entered_at new (63 + 1)
          (place_king army_config (place_knight army_config EMPTY_BOARD 7 6) 7 7) ↔
        (attacked army_config (place_knight army_config EMPTY_BOARD 7 6) 7 7 = false ∧
          (place_knight army_config EMPTY_BOARD 7 6).king_population 7 7 = 0)) ∧
      (entered_at new (63 + 1)
          (place_knight army_config (place_knight army_config EMPTY_BOARD 7 6) 7 7) ↔
        (attacked army_config (place_knight army_config EMPTY_BOARD 7 6) 7 7 = false ∧
          (place_knight army_config EMPTY_BOARD 7 6).knight_population 7 7 = 0)) :=
  king_knight_guards army_config (by decide) (fun _ => 28) 63 2
    ⟨place_knight army_config EMPTY_BOARD 7 6, EMPTY_BOARD, [], []⟩
    (board_invariant_place army_config (by decide) 62 (by decide) EMPTY_BOARD
      (board_invariant_EMPTY_BOARD army_config 62) KNIGHT)
    (non_attacking_place army_config 62 (by decide) EMPTY_BOARD
      (board_invariant_EMPTY_BOARD army_config 62) (non_attacking_EMPTY_BOARD army_config)
      KNIGHT rfl rfl)
    (legal_board_EMPTY_BOARD army_config 0) (by decide) (by decide) (by decide)

/-! ## A square that passes the baseline test and receives no king -/

/-- C16, as stated, fails. On the 8 by 8 board with a single knight on
`(7, 6)`, the square `(7, 7)` passes the baseline test (`attacked` is false),
but `king_population[7][7]` is 1, and the call of `maximize` for that square
calls itself for the next index with a bishop, with a knight and with nothing
on `(7, 7)`, never with a king. With a single rook on `(6, 5)`, the square
`(7, 7)` passes the baseline test, but `knight_population[7][7]` is 1, and
the call of `maximize` for that square calls itself with a rook, a bishop, a
king and nothing on `(7, 7)`, never with a knight. -/
theorem king_knight_not_placed :
    (attacked army_config (place_knight army_config EMPTY_BOARD 7 6) 7 7 = false ∧
      (place_knight army_config EMPTY_BOARD 7 6).king_population 7 7 = 1 ∧
      (maximize army_config (fun _ => 28) 2
        ⟨place_knight army_config EMPTY_BOARD 7 6, EMPTY_BOARD, [], []⟩ 63).map
          (fun s => entries_at 7 7 s.history) =
        some [(63, EMPTY), (64, BISHOP), (64, KNIGHT), (64, EMPTY)]) ∧
    (attacked army_config (place_rook army_config EMPTY_BOARD 6 5) 7 7 = false ∧
      (place_rook army_config EMPTY_BOARD 6 5).knight_population 7 7 = 1 ∧
      (maximize army_config (fun _ => 28) 2
        ⟨place_rook army_config EMPTY_BOARD 6 5, EMPTY_BOARD, [], []⟩ 63).map
          (fun s => entries_at 7 7 s.history) =
        some [(63, EMPTY), (64, ROOK), (64, BISHOP), (64, KING), (64, EMPTY)]) := by
  decide!

end Army
